import Mathlib

/-!
Verification development for the discrete-event combat-simulation core:
the pending-action queue and main step loop, the execute-phase controller
and the randomness manager (all in `sim/core/sim.go`), and the aura state
machine with its dispatch registry (the `core` aura-tracker source file).

Conventions of the shallow embedding:
* times are `Int` nanoseconds (Go `time.Duration` is an `int64`);
* damage amounts and probabilities are `ℚ` (Go `float64`);
* Go `panic` is `Except.error`;
* external callbacks (`OnAction`, `OnGain`, …) are opaque to the engine, so
  reaching a callback invocation point is recorded as an event in a trace
  instead of calling user code.
-/

deriving instance DecidableEq for Except

namespace Cata

set_option maxRecDepth 100000

/-- Sentinel time value `NeverExpires = time.Duration(math.MaxInt64)`. -/
def NeverExpires : Int := ((2 ^ 63 - 1 : Nat) : Int)

/-- Largest finite `float64`, the sentinel `math.MaxFloat64` used for damage
thresholds, as an exact rational. -/
def maxFloat64 : ℚ := ((2 ^ 1024 - 2 ^ 971 : Nat) : ℚ)

/-! ## Pending-action queue (`sim/core/sim.go`)

One scheduled callback of the queue.  The fields mirror the `PendingAction`
struct as used by `sim/core/sim.go`: `NextActionAt`, `Priority`, the
`cancelled` flag and the presence of a `CleanUp` callback (`hasCleanUp`
models `CleanUp != nil`; running the callback is recorded as an event).
`seq` is model bookkeeping not present in the source: the rank in which
actions were handed to `AddPendingAction`, used to state FIFO properties
and to identify an action across mutation.  The `consumed`/`canPool`
flags only drive the action pool, which holds no observable state here
and is omitted. -/
structure PendingAction where
  nextActionAt : Int
  priority : Int
  seq : Nat
  cancelled : Bool
  hasCleanUp : Bool
deriving DecidableEq

/-- The always-present queue entry with an effectively infinite due time
(`sentinelPendingAction`, sim.go:387). -/
def sentinelPendingAction : PendingAction :=
  { nextActionAt := NeverExpires
    priority := 0
    seq := 0
    cancelled := false
    hasCleanUp := false }

/-- Insertion scan of `AddPendingAction` (sim.go:636) over the queue tail:
walk from the front (latest due times first) and place the new action just
before the first entry `v` with `v.NextActionAt < pa.NextActionAt`, or with
equal due time and `v.Priority >= pa.Priority`; otherwise append at the
end.  The Go loop implements the same insertion with `append`+`copy`. -/
def insertPendingAux (pa : PendingAction) : List PendingAction → List PendingAction
  | [] => [pa]
  | v :: rest =>
    if v.nextActionAt < pa.nextActionAt ∨
        (v.nextActionAt = pa.nextActionAt ∧ pa.priority ≤ v.priority) then
      pa :: v :: rest
    else
      v :: insertPendingAux pa rest

/-- `Simulation.AddPendingAction` (sim.go:636): the scan skips the sentinel
at index 0 (`sim.pendingActions[1:]`).  The commented-out guard against
due times in the past is absent, matching the source. -/
def addPendingAction (queue : List PendingAction) (pa : PendingAction) : List PendingAction :=
  match queue with
  | [] => [pa]
  | s :: rest => s :: insertPendingAux pa rest

/-- Observable events of the queue: an action's `OnAction` callback firing,
and an action's `CleanUp` callback running. -/
inductive QEvent where
  | fired (seq : Nat)
  | cleanup (seq : Nat)
deriving DecidableEq

/-- State touched by the queue and `Step` (a slice of the `Simulation`
struct).  `minWeaponAttackTime`/`minTaskTime` are the cached minima of the
two lazily-scheduled recurring-event classes; no weapon attacks or tasks
are registered in this model, so both stay at `NeverExpires` and the
corresponding `Step` branches only terminate the loop.  `damageTaken` and
the end-of-combat thresholds are fixed per iteration here (damage dealing
is external policy code). -/
structure QState where
  queue : List PendingAction
  currentTime : Int
  endOfCombatDuration : Int
  endOfCombatDamage : ℚ
  damageTaken : ℚ
  minWeaponAttackTime : Int
  minTaskTime : Int
  nextSeq : Nat
  events : List QEvent

/-- `Simulation.advanceWeaponAttacks` (sim.go:556) with the empty
`weaponAttacks` collection: advance the clock to the cached minimum and
recompute it as the fold over no subscribers, i.e. `NeverExpires`.
The aura/phase side effects of `advance` are modelled separately. -/
def advanceWeaponAttacksM (st : QState) : QState :=
  let st1 := if st.minWeaponAttackTime > st.currentTime then
      { st with currentTime := st.minWeaponAttackTime } else st
  { st1 with minWeaponAttackTime := NeverExpires }

/-- `Simulation.advanceTasks` (sim.go:567) with the empty task collection. -/
def advanceTasksM (st : QState) : QState :=
  let st1 := if st.minTaskTime > st.currentTime then
      { st with currentTime := st.minTaskTime } else st
  { st1 with minTaskTime := NeverExpires }

/-- `Simulation.Step` (sim.go:509).  Returns the updated state and the
`finished` flag.  The popped action's `consumed := true` write and the
pool hand-back in `dispose` touch only pool bookkeeping and are omitted;
`dispose` does not run the cleanup callback (see `cancelPA`).  The second
`pa.cancelled` check after `advance` is retained even though nothing in
this model cancels during `advance`. -/
def stepOnce (st : QState) : QState × Bool :=
  match st.queue.getLast? with
  | none => (st, true)
  | some pa =>
    if pa.nextActionAt ≥ st.minWeaponAttackTime ∧ st.minWeaponAttackTime ≤ st.minTaskTime then
      if st.minWeaponAttackTime > st.endOfCombatDuration ∨
          st.damageTaken > st.endOfCombatDamage then
        (st, true)
      else
        (advanceWeaponAttacksM st, false)
    else if pa.nextActionAt ≥ st.minTaskTime then
      if st.minTaskTime > st.endOfCombatDuration ∨
          st.damageTaken > st.endOfCombatDamage then
        (st, true)
      else
        (advanceTasksM st, false)
    else
      let st1 : QState := { st with queue := st.queue.dropLast }
      if pa.cancelled then
        (st1, false)
      else if pa.nextActionAt > st1.endOfCombatDuration ∨
          st1.damageTaken > st1.endOfCombatDamage then
        (st1, true)
      else
        let st2 : QState := if pa.nextActionAt > st1.currentTime then
            { st1 with currentTime := pa.nextActionAt } else st1
        if pa.cancelled then
          (st2, false)
        else
          ({ st2 with events := st2.events ++ [QEvent.fired pa.seq] }, false)

/-- Modelled from the spec: `PendingAction.Cancel` is not under `src/`.
Per the spec, `Cancel` marks the action cancelled in O(1) without removing
it, the cancelled action's callback never runs, and its cleanup runs
exactly once.  Consistently with the `Step` and `Cleanup` code in
`sim/core/sim.go` (which run no cleanup on the cancelled-pop path and run
a still-set cleanup exactly once at end of iteration), the cleanup of a
cancelled action runs at cancel time and the callback slot is cleared. -/
def cancelPA (pa : PendingAction) : PendingAction × List QEvent :=
  if pa.cancelled then (pa, [])
  else ({ pa with cancelled := true, hasCleanUp := false },
    if pa.hasCleanUp then [QEvent.cleanup pa.seq] else [])

/-- Cancellation through a retained handle, located here by its model
sequence number. -/
def cancelPending (st : QState) (i : Nat) : QState :=
  match st.queue.find? (fun pa => pa.seq == i) with
  | none => st
  | some pa =>
    let r := cancelPA pa
    { st with
      queue := st.queue.map (fun q => if q.seq == i then r.1 else q)
      events := st.events ++ r.2 }

/-- `Simulation.Cleanup` (sim.go:471): run every still-queued action's
cleanup hook, then dispose it.  The `CurrentTime`/`Duration` fixup and the
per-entity `doneIteration` metric hooks do not touch the queue and are
omitted. -/
def cleanupPending (st : QState) : QState :=
  let evs := st.queue.filterMap
    (fun pa => if pa.hasCleanUp then some (QEvent.cleanup pa.seq) else none)
  { st with events := st.events ++ evs }

/-- Operations an iteration can perform against the queue: schedule a new
action (`AddPendingAction`, with fresh model rank), cancel a retained
action, run one `Step`, or run the end-of-iteration `Cleanup`. -/
inductive QOp where
  | add (t p : Int) (hasCleanUp : Bool)
  | cancel (i : Nat)
  | step
  | cleanup

def qstep (st : QState) : QOp → QState
  | .add t p hc =>
    { st with
      queue := addPendingAction st.queue
        { nextActionAt := t
          priority := p
          seq := st.nextSeq
          cancelled := false
          hasCleanUp := hc }
      nextSeq := st.nextSeq + 1 }
  | .cancel i => cancelPending st i
  | .step => (stepOnce st).1
  | .cleanup => cleanupPending st

def runQFrom (st : QState) (ops : List QOp) : QState := ops.foldl qstep st

/-- Queue state right after `Simulation.reset` (sim.go:397) for a
duration-limited iteration: only the sentinel is queued, the duration is
the end-of-combat check and the damage threshold is `math.MaxFloat64`. -/
def initQState (dur : Int) : QState :=
  { queue := [sentinelPendingAction]
    currentTime := 0
    endOfCombatDuration := dur
    endOfCombatDamage := maxFloat64
    damageTaken := 0
    minWeaponAttackTime := NeverExpires
    minTaskTime := NeverExpires
    nextSeq := 1
    events := [] }

def runQ (dur : Int) (ops : List QOp) : QState := runQFrom (initQState dur) ops

/-- Execution key of a pending action: the total order in which the queue
contract says actions fire — ascending due time, then descending priority,
then insertion order. -/
def pakey (pa : PendingAction) : Int × Int × Nat := (pa.nextActionAt, pa.priority, pa.seq)

/-- Strict execution-before order on keys: earlier due time, or same due
time and higher priority, or same due time and priority and earlier
insertion. -/
def keyLt (x y : Int × Int × Nat) : Prop :=
  x.1 < y.1 ∨ (x.1 = y.1 ∧ (y.2.1 < x.2.1 ∨ (x.2.1 = y.2.1 ∧ x.2.2 < y.2.2)))

instance (x y : Int × Int × Nat) : Decidable (keyLt x y) := by
  unfold keyLt; infer_instance

/-- Sequence numbers of the actions whose `OnAction` callback has fired,
in firing order. -/
def firedSeqs (evs : List QEvent) : List Nat :=
  evs.filterMap (fun e => match e with | .fired i => some i | _ => none)

/-- `i` fires strictly before `j` in the trace `l`. -/
def ExecBefore (l : List Nat) (i j : Nat) : Prop :=
  ∃ l1 l2 l3, l = l1 ++ i :: l2 ++ j :: l3

/-- Events emitted by a continuation `ops` from the state `st` (everything
appended after `st.events`). -/
def futureEvents (st : QState) (ops : List QOp) : List QEvent :=
  (runQFrom st ops).events.drop st.events.length

/-- The due time that the `i`-th scheduled action of an operation list
receives, counting from the model's first sequence number `next`. -/
def dueOfAux : List QOp → Nat → Nat → Option Int
  | [], _, _ => none
  | QOp.add t _ _ :: ops, next, i =>
    if next = i then some t else dueOfAux ops (next + 1) i
  | _ :: ops, next, i => dueOfAux ops next i

/-- The due time of the action with model sequence number `i` in a run of
`ops` from `reset` (sequence numbers start at 1). -/
def dueOf (ops : List QOp) (i : Nat) : Option Int := dueOfAux ops 1 i

/-- The ordering contract C1 states, read over whole runs: whenever the
action scheduled with an earlier due time also fires, it fires before any
action scheduled with a later due time. -/
def FiredInDueOrder : Prop :=
  ∀ dur : Int, ∀ ops : List QOp, ∀ i j : Nat, ∀ ti tj : Int,
    dueOf ops i = some ti → dueOf ops j = some tj →
    ExecBefore (firedSeqs (runQ dur ops).events) i j → ti ≤ tj

/-- Invariant of every reachable queue state: the two recurring-event
minima stay parked at `NeverExpires` (no weapon attacks or tasks are
registered), the head slot holds the sentinel's execution key, sequence
numbers start at 1, every queued action's sequence number is below the
next fresh one and they are pairwise distinct, and the tail is sorted by
strictly decreasing execution key (the back of the slice is the next
action to pop). -/
def QInv (st : QState) : Prop :=
  st.minWeaponAttackTime = NeverExpires ∧
  st.minTaskTime = NeverExpires ∧
  (∃ s q, st.queue = s :: q ∧ pakey s = pakey sentinelPendingAction) ∧
  1 ≤ st.nextSeq ∧
  (∀ pa ∈ st.queue, pa.seq < st.nextSeq) ∧
  (st.queue.map (fun pa => pa.seq)).Nodup ∧
  st.queue.tail.Pairwise (fun u v => keyLt (pakey v) (pakey u))

/-- Trace invariant of a mid-iteration run (before the end-of-iteration
`Cleanup`): every recorded event's sequence number was allocated, no
still-queued action has fired, and no still-queued uncancelled action has
run its cleanup hook. -/
def EvInv (st : QState) : Prop :=
  (∀ s : Nat, (QEvent.fired s ∈ st.events ∨ QEvent.cleanup s ∈ st.events) →
    s < st.nextSeq) ∧
  (∀ z ∈ st.queue, QEvent.fired z.seq ∉ st.events) ∧
  (∀ z ∈ st.queue, z.cancelled = false → QEvent.cleanup z.seq ∉ st.events)

/-! ## Execute-phase controller (`sim/core/sim.go`) -/

/-- Encounter/iteration configuration read by the phase controller:
`Encounter.EndFightAtHealth`, the five `ExecuteProportion` fractions and
`sim.Duration`. -/
structure EncounterCfg where
  endFightAtHealth : ℚ
  executeProportion90 : ℚ
  executeProportion45 : ℚ
  executeProportion35 : ℚ
  executeProportion25 : ℚ
  executeProportion20 : ℚ
  duration : Int

/-- Phase fields of the `Simulation` struct: `executePhase`,
`nextExecuteDuration`, `nextExecuteDamage`. -/
structure PhaseState where
  executePhase : Int
  nextExecuteDuration : Int
  nextExecuteDamage : ℚ
deriving DecidableEq

/-- Go's conversion of a `float64` to `time.Duration` truncates toward
zero; on rationals this is `num / den` with T-division. -/
def durationOfRat (q : ℚ) : Int := q.num / (q.den : Int)

/-- The `setup` closure inside `nextExecutePhase` (sim.go:606): set the
phase and recompute the one relevant threshold (damage when the fight is
health-limited, duration otherwise). -/
def setupPhase (cfg : EncounterCfg) (st : PhaseState) (phase : Int)
    (damage health : ℚ) : PhaseState :=
  if cfg.endFightAtHealth > 0 then
    { st with
      executePhase := phase
      nextExecuteDamage := (1 - damage) * cfg.endFightAtHealth }
  else
    { st with
      executePhase := phase
      nextExecuteDuration := durationOfRat ((1 - health) * (cfg.duration : ℚ)) }

/-- `Simulation.nextExecutePhase` (sim.go:605): both thresholds are first
parked at their sentinels, then the switch advances the phase one rung
down the ladder.  `none` is the `panic` of the `default` branch. -/
def nextExecutePhaseFn (cfg : EncounterCfg) (st : PhaseState) : Option PhaseState :=
  let st0 : PhaseState :=
    { st with nextExecuteDuration := NeverExpires, nextExecuteDamage := maxFloat64 }
  if st.executePhase = 0 then
    some (setupPhase cfg st0 100 (90 / 100) cfg.executeProportion90)
  else if st.executePhase = 100 then
    some (setupPhase cfg st0 90 (45 / 100) cfg.executeProportion45)
  else if st.executePhase = 90 then
    some (setupPhase cfg st0 45 (35 / 100) cfg.executeProportion35)
  else if st.executePhase = 45 then
    some (setupPhase cfg st0 35 (25 / 100) cfg.executeProportion25)
  else if st.executePhase = 35 then
    some (setupPhase cfg st0 25 (20 / 100) cfg.executeProportion20)
  else if st.executePhase = 25 then
    some { st0 with executePhase := 20 }
  else
    none

/-- Number of rungs below a phase value on the ladder 0 → 100 → 90 → 45 →
35 → 25 → 20; used to bound the threshold-crossing loop. -/
def phaseRank (p : Int) : Nat :=
  if p = 0 then 6 else if p = 100 then 5 else if p = 90 then 4
  else if p = 45 then 3 else if p = 35 then 2 else if p = 25 then 1 else 0

/-- The threshold-crossing loop of `Simulation.advance` (sim.go:584):
while the new time or the cumulative damage has reached the next
threshold, advance the phase and invoke every registered phase-change
callback with the new phase value.  The emitted list holds those values in
invocation order.  Each pass strictly descends the ladder, so the fuel
`phaseRank + 1` supplied by `advancePhases` can never run out
(`advancePhasesFuel_stable` below). -/
def advancePhasesFuel (cfg : EncounterCfg) (damageTaken : ℚ) (t : Int) :
    Nat → PhaseState → Except String (PhaseState × List Int)
  | 0, _ => .error "phase loop fuel exhausted"
  | fuel + 1, st =>
    if t ≥ st.nextExecuteDuration ∨ damageTaken ≥ st.nextExecuteDamage then
      match nextExecutePhaseFn cfg st with
      | none => .error "executePhase invalid"
      | some st' =>
        match advancePhasesFuel cfg damageTaken t fuel st' with
        | .error e => .error e
        | .ok (stf, evs) => .ok (stf, st'.executePhase :: evs)
    else
      .ok (st, [])

/-- Execute-phase half of `Simulation.advance` (sim.go:579), after
`CurrentTime` has been set to the new time `t`. -/
def advancePhases (cfg : EncounterCfg) (damageTaken : ℚ) (t : Int)
    (st : PhaseState) : Except String (PhaseState × List Int) :=
  advancePhasesFuel cfg damageTaken t (phaseRank st.executePhase + 1) st

/-! ## Randomness manager (`sim/core/sim.go`) -/

/-- Modelled from the spec: the PRNG implementation behind `NewSplitMix` /
`Rand` is not under `src/` (only its call sites in `sim/core/sim.go` are).
Per the spec it is a deterministic stream; it is modelled as the standard
SplitMix64 generator over 64-bit words.  `seed` is the value stored by
`Seed` and returned by `GetSeed`; `state` is the evolving word. -/
structure SimRand where
  seed : Int
  state : Nat
deriving DecidableEq

/-- Two's-complement view of an `int64`-ish value as a `uint64`. -/
def uint64OfInt (s : Int) : Nat := (s % (2 ^ 64 : Int)).toNat

def splitmixGamma : Nat := 0x9E3779B97F4A7C15

def splitmixMix (s1 : Nat) : Nat :=
  let z1 := ((s1 ^^^ (s1 >>> 30)) * 0xBF58476D1CE4E5B9) % 2 ^ 64
  let z2 := ((z1 ^^^ (z1 >>> 27)) * 0x94D049BB133111EB) % 2 ^ 64
  z2 ^^^ (z2 >>> 31)

/-- `NewSplitMix(uint64(s))` and `Rand.Seed(s)` both leave the generator
in this state. -/
def SimRand.seedWith (s : Int) : SimRand := { seed := s, state := uint64OfInt s }

/-- One raw 64-bit draw. -/
def SimRand.next (r : SimRand) : Nat × SimRand :=
  let s1 := (r.state + splitmixGamma) % 2 ^ 64
  (splitmixMix s1, { r with state := s1 })

/-- `Rand.NextFloat64`: a value in [0, 1) with 53 bits of precision, as an
exact rational. -/
def SimRand.nextFloat (r : SimRand) : ℚ × SimRand :=
  let p := r.next
  (((p.1 >>> 11 : Nat) : ℚ) / ((2 ^ 53 : Nat) : ℚ), p.2)

/-- Modelled from the spec: the string `hash` helper used by
`makeTestRandSeed` is not under `src/`; the spec only requires a
deterministic hash of the label/seed pair, modelled as 32-bit FNV-1a. -/
def hashString (s : String) : Nat :=
  s.toList.foldl (fun h c => ((h ^^^ c.toNat) * 16777619) % 2 ^ 32) 2166136261

/-- `strconv.FormatInt(n, 16)`: lowercase hexadecimal, `-`-prefixed when
negative. -/
def formatIntHex (n : Int) : String :=
  if n < 0 then "-" ++ String.mk (Nat.toDigits 16 n.natAbs)
  else String.mk (Nat.toDigits 16 n.toNat)

/-- `makeTestRandSeed` (sim.go:257). -/
def makeTestRandSeed (rseed : Int) (label : String) : Int :=
  (hashString (label ++ formatIntHex rseed) : Int)

/-- Randomness fields of the `Simulation` struct: the requested base seed
(`Options.RandomSeed`), the labeled-streams flag (`isTest`), the root
stream and the per-label map (`testRands`, as an association list in
insertion order). -/
structure RandState where
  optionsSeed : Int
  isTest : Bool
  rand : SimRand
  testRands : List (String × SimRand)

def lookupLabel : List (String × SimRand) → String → Option SimRand
  | [], _ => none
  | (l, r) :: rest, label => if l = label then some r else lookupLabel rest label

def setLabel : List (String × SimRand) → String → SimRand → List (String × SimRand)
  | [], label, r => [(label, r)]
  | (l, r0) :: rest, label, r =>
    if l = label then (l, r) :: rest else (l, r0) :: setLabel rest label r

/-- `Simulation.RandomFloat` via `labelRand` (sim.go:228, 232): outside
test mode, draw from the root stream; in test mode look the label up in
`testRands`, creating a fresh stream seeded from
`makeTestRandSeed(rand.GetSeed(), label)` on a miss, and draw from it. -/
def randomFloat (st : RandState) (label : String) : ℚ × RandState :=
  if st.isTest then
    let rng := match lookupLabel st.testRands label with
      | some r => r
      | none => SimRand.seedWith (makeTestRandSeed st.rand.seed label)
    let p := rng.nextFloat
    (p.1, { st with testRands := setLabel st.testRands label p.2 })
  else
    let p := st.rand.nextFloat
    (p.1, { st with rand := p.2 })

/-- `Simulation.reseedRands` (sim.go:246): reseed the root stream from
`Options.RandomSeed + i`, and in test mode reseed every existing label
stream from `makeTestRandSeed(rseed, label)`. -/
def reseedRands (st : RandState) (i : Int) : RandState :=
  let rseed := st.optionsSeed + i
  let st1 : RandState := { st with rand := SimRand.seedWith rseed }
  if st1.isTest then
    let reseeded := st1.testRands.map
      (fun p => (p.1, SimRand.seedWith (makeTestRandSeed rseed p.1)))
    { st1 with testRands := reseeded }
  else st1

/-- `Simulation.RollWithLabel` (sim.go:270). -/
def rollWithLabel (st : RandState) (lo hi : ℚ) (label : String) : ℚ × RandState :=
  let p := randomFloat st label
  (lo + (hi - lo) * p.1, p.2)

/-- `Simulation.Proc` (sim.go:274); note that `p >= 1` and `p <= 0` draw
nothing. -/
def procP (st : RandState) (p : ℚ) (label : String) : Bool × RandState :=
  if p ≥ 1 then (true, st)
  else if p ≤ 0 then (false, st)
  else
    let q := randomFloat st label
    (decide (q.1 < p), q.2)

/-- One invocation of a random-draw primitive, with its call-site label. -/
inductive DrawOp where
  | rfloat (label : String)
  | roll (lo hi : ℚ) (label : String)
  | proc (p : ℚ) (label : String)

def DrawOp.label : DrawOp → String
  | .rfloat l => l
  | .roll _ _ l => l
  | .proc _ l => l

inductive DrawOut where
  | val (q : ℚ)
  | flag (b : Bool)
deriving DecidableEq

def drawOne (st : RandState) : DrawOp → DrawOut × RandState
  | .rfloat l => let p := randomFloat st l; (.val p.1, p.2)
  | .roll lo hi l => let p := rollWithLabel st lo hi l; (.val p.1, p.2)
  | .proc q l => let p := procP st q l; (.flag p.1, p.2)

/-- Run a fixed sequence of labeled draws, returning the labeled outputs in
order. -/
def drawSeq (st : RandState) : List DrawOp → List (String × DrawOut) × RandState
  | [] => ([], st)
  | op :: ops =>
    let p := drawOne st op
    let q := drawSeq p.2 ops
    ((op.label, p.1) :: q.1, q.2)

/-- The stream a label would draw from next: the stored stream in test
mode (or the stream a miss would create), the root stream otherwise. -/
def effStream (st : RandState) (label : String) : SimRand :=
  if st.isTest then
    match lookupLabel st.testRands label with
    | some r => r
    | none => SimRand.seedWith (makeTestRandSeed st.rand.seed label)
  else st.rand

/-- One draw primitive acting on a single explicit stream (the common core
of `RandomFloat`, `Roll` and `Proc` once the stream to use is fixed). -/
def drawOnStream (r : SimRand) : DrawOp → DrawOut × SimRand
  | .rfloat _ => (.val r.nextFloat.1, r.nextFloat.2)
  | .roll lo hi _ => (.val (lo + (hi - lo) * r.nextFloat.1), r.nextFloat.2)
  | .proc p _ =>
    if p ≥ 1 then (.flag true, r)
    else if p ≤ 0 then (.flag false, r)
    else (.flag (decide (r.nextFloat.1 < p)), r.nextFloat.2)

/-- Pointwise update of a per-label stream assignment. -/
def updateStream (F : String → SimRand) (l : String) (r : SimRand) :
    String → SimRand :=
  fun m => if m = l then r else F m

/-- Labeled draws over a per-label stream assignment: the abstract view of
a test-mode run, where every label owns an isolated stream. -/
def absSeq (F : String → SimRand) : List DrawOp → List (String × DrawOut)
  | [] => []
  | op :: ops =>
    let p := drawOnStream (F op.label) op
    (op.label, p.1) :: absSeq (updateStream F op.label p.2) ops

/-- Labeled draws over the single root stream: the abstract view of a
non-test run. -/
def rootSeq (r : SimRand) : List DrawOp → List (String × DrawOut)
  | [] => []
  | op :: ops =>
    let p := drawOnStream r op
    (op.label, p.1) :: rootSeq p.2 ops

/-- Two randomness states sharing a base seed in labeled test mode but
differing in their root stream and stored label streams. -/
def exRandA : RandState :=
  { optionsSeed := 42
    isTest := true
    rand := SimRand.seedWith 7
    testRands := [("crit", SimRand.seedWith 99)] }

def exRandB : RandState :=
  { optionsSeed := 42
    isTest := true
    rand := SimRand.seedWith 123
    testRands := [] }

/-- A concrete labeled draw sequence interleaving two call-site labels. -/
def exDrawOps : List DrawOp :=
  [DrawOp.rfloat "crit", DrawOp.proc (1 / 2) "hit", DrawOp.rfloat "crit"]

/-! ## Aura state machine and dispatch registry (the `core` aura source)

The twelve per-hook dispatch arrays of the source (`onApplyEffectsAuras`,
`onCastCompleteAuras`, …) all follow one registration/removal pattern; the
embedding indexes that pattern by an event-category type instead of
repeating it, keeping `activeAuras` (keyed on finite duration, not on a
handler) separate.  Auras are identified by their position in the
registration list `auras`.  The hooks themselves are external callbacks;
reaching an invocation point is recorded as an `AEvent`.  Metrics,
logging, `Tag`/`aurasByTag`, `Icd`/`Dpm` and `ExclusiveEffects` hold no
state any claim mentions and are omitted (the modelled worlds carry no
exclusive-effect constraints). -/

inductive HookCat where
  | applyEffects
  | castComplete
  | spellHitDealt
  | spellHitTaken
  | periodicDamageDealt
  | periodicDamageTaken
  | healDealt
  | healTaken
  | periodicHealDealt
  | periodicHealTaken
  | encounterStart
deriving DecidableEq

def HookCat.all : List HookCat :=
  [.applyEffects, .castComplete, .spellHitDealt, .spellHitTaken,
   .periodicDamageDealt, .periodicDamageTaken, .healDealt, .healTaken,
   .periodicHealDealt, .periodicHealTaken, .encounterStart]

/-- The sentinel index `Inactive = -1`. -/
def Inactive : Int := -1

/-- One registered aura.  `hasHook c` models whether the hook of category
`c` is non-nil (deciding dispatch-array registration); `hasOnGain` /
`hasOnExpire` / `hasOnStacksChange` model the lifecycle hooks whose
invocation the claims observe. -/
structure Aura where
  label : String
  duration : Int
  startTime : Int
  expires : Int
  fadeTime : Int
  active : Bool
  activeIndex : Int
  hookIndex : HookCat → Int
  stacks' : Int
  maxStacks : Int
  hasHook : HookCat → Bool
  hasOnGain : Bool
  hasOnExpire : Bool
  hasOnStacksChange : Bool
  initialized : Bool

/-- The `auraTracker` of one entity plus the entity's dispatch arrays, and
the environment-finalized flag consulted by `registerAura`. -/
structure TrackerState where
  auras : List Aura
  activeAuras : List Nat
  hookAuras : HookCat → List Nat
  minExpires : Int
  finalized : Bool

/-- Hook-invocation observations emitted by the aura lifecycle. -/
inductive AEvent where
  | gain (id : Nat)
  | expire (id : Nat)
  | stacksChange (id : Nat) (oldStacks newStacks : Int)
  | refreshed (id : Nat)
deriving DecidableEq

def auraAt (st : TrackerState) (id : Nat) : Option Aura := st.auras.get? id

def setAuraAt (st : TrackerState) (id : Nat) (a : Aura) : TrackerState :=
  { st with auras := st.auras.set id a }

def modifyAuraAt (st : TrackerState) (id : Nat) (f : Aura → Aura) : TrackerState :=
  match st.auras.get? id with
  | some a => setAuraAt st id (f a)
  | none => st

/-- `Aura.IsActive`: total on the nil receiver (`aura == nil` returns
`false`). -/
def isActiveOpt : Option Aura → Bool
  | none => false
  | some a => a.active

/-- `Aura.GetStacks`: total on the nil receiver (`aura == nil` returns
`0`). -/
def getStacksOpt : Option Aura → Int
  | none => 0
  | some a => a.stacks'

/-- `Aura.ExpiresAt`. -/
def expiresAtAura (a : Aura) : Int := a.expires

/-- `Aura.Refresh`: re-stamp the expiration from the current time and the
configured duration, lowering the entity's cached minimum if needed
(`sim.rescheduleTracker` only mirrors that minimum into sim-level state
and is omitted). -/
def refreshAura (t : Int) (id : Nat) (st : TrackerState) : TrackerState :=
  match auraAt st id with
  | none => st
  | some a =>
    if a.duration = NeverExpires then
      setAuraAt st id { a with expires := NeverExpires }
    else
      let e := t + a.duration
      let st1 := setAuraAt st id { a with expires := e }
      if e < st1.minExpires then { st1 with minExpires := e } else st1

/-- `removeBySwappingToBack`: overwrite the removed slot with the final
element and drop the final slot. -/
def removeBySwappingToBack (arr : List Nat) (i : Nat) : List Nat :=
  match arr.getLast? with
  | none => []
  | some last => (arr.set i last).dropLast

/-- Registration of an activating aura into `activeAuras` (the branch of
`Activate` guarded by `Duration != NeverExpires`). -/
def registerActive (id : Nat) (st : TrackerState) : TrackerState :=
  let st1 := modifyAuraAt st id
    (fun a => { a with activeIndex := (st.activeAuras.length : Int) })
  { st1 with activeAuras := st1.activeAuras ++ [id] }

/-- Registration of an activating aura into the dispatch array of one hook
category (the `Activate` branches guarded by `OnX != nil`). -/
def registerHook (c : HookCat) (id : Nat) (st : TrackerState) : TrackerState :=
  let n : Int := ((st.hookAuras c).length : Int)
  let st1 := modifyAuraAt st id
    (fun a => { a with hookIndex := fun c' => if c' = c then n else a.hookIndex c' })
  { st1 with hookAuras := fun c' => if c' = c then st1.hookAuras c ++ [id] else st1.hookAuras c' }

/-- `Aura.Activate`: refresh-only when already active (the gain hook is
not re-invoked and no dispatch array is touched); otherwise reject a zero
duration, mark active, stamp the start time, refresh the expiration,
register into `activeAuras` when finitely durationed and into every
dispatch array whose hook is defined, and only then reach the gain hook.
`aura.metrics.Procs++` is metrics-only and omitted. -/
def activateAura (t : Int) (id : Nat) (st : TrackerState) :
    Except String (TrackerState × List AEvent) :=
  match auraAt st id with
  | none => .error "no such aura"
  | some a =>
    if a.active then
      .ok (refreshAura t id st, [AEvent.refreshed id])
    else if a.duration = 0 then
      .error "Aura with 0 duration"
    else
      let st1 := setAuraAt st id { a with active := true, startTime := t }
      let st2 := refreshAura t id st1
      let st3 := if a.duration ≠ NeverExpires then registerActive id st2 else st2
      let st4 := HookCat.all.foldl
        (fun s c => if a.hasHook c then registerHook c id s else s) st3
      .ok (st4, if a.hasOnGain then [AEvent.gain id] else [])

/-- Removal of a deactivating aura from `activeAuras` with the
swap-with-last index fixup. -/
def deactivateActiveRemoval (id : Nat) (st : TrackerState) : TrackerState :=
  match auraAt st id with
  | none => st
  | some a =>
    if a.activeIndex ≠ Inactive then
      let k := a.activeIndex.toNat
      let arr := removeBySwappingToBack st.activeAuras k
      let st1 := { st with activeAuras := arr }
      let st2 :=
        if (k : Int) < (arr.length : Int) then
          match arr.get? k with
          | some j => modifyAuraAt st1 j (fun b => { b with activeIndex := (k : Int) })
          | none => st1
        else st1
      modifyAuraAt st2 id (fun b => { b with activeIndex := Inactive })
    else st

/-- Removal of a deactivating aura from one dispatch array with the
swap-with-last index fixup. -/
def deactivateHookRemoval (c : HookCat) (id : Nat) (st : TrackerState) : TrackerState :=
  match auraAt st id with
  | none => st
  | some a =>
    if a.hookIndex c ≠ Inactive then
      let k := (a.hookIndex c).toNat
      let arr := removeBySwappingToBack (st.hookAuras c) k
      let st1 := { st with hookAuras := fun c' => if c' = c then arr else st.hookAuras c' }
      let st2 :=
        if (k : Int) < (arr.length : Int) then
          match arr.get? k with
          | some j => modifyAuraAt st1 j
              (fun b => { b with hookIndex := fun c' => if c' = c then (k : Int) else b.hookIndex c' })
          | none => st1
        else st1
      modifyAuraAt st2 id
        (fun b => { b with hookIndex := fun c' => if c' = c then Inactive else b.hookIndex c' })
    else st

/-- The `SetStacks(sim, 0)` call made from inside `Deactivate`, inlined at
its call site: there the aura is already inactive, so the nested
`Deactivate` that `SetStacks` performs on reaching zero is a no-op and is
inlined away; every check and assignment of `SetStacks` is kept. -/
def forceStacksToZero (id : Nat) (st : TrackerState) :
    Except String (TrackerState × List AEvent) :=
  match auraAt st id with
  | none => .error "no such aura"
  | some a =>
    if a.maxStacks = 0 then .error "MaxStacks required to set Aura stacks"
    else
      let newStacks := min 0 a.maxStacks
      if a.stacks' = newStacks then .ok (st, [])
      else
        .ok (setAuraAt st id { a with stacks' := newStacks },
          if a.hasOnStacksChange then [AEvent.stacksChange id a.stacks' newStacks] else [])

/-- `Aura.Deactivate`: no-op when inactive; otherwise mark inactive, zero
the expiration, stamp the fade time, remove from `activeAuras` and from
every dispatch array with swap-remove and index fixup, force a nonzero
stack count to zero, and only then reach the expiry hook.  The uptime
metric and the log-timestamp fixup read state without changing tracker
fields and are omitted. -/
def deactivateAura (t : Int) (id : Nat) (st : TrackerState) :
    Except String (TrackerState × List AEvent) :=
  match auraAt st id with
  | none => .error "no such aura"
  | some a =>
    if ¬a.active then .ok (st, [])
    else
      let st1 := setAuraAt st id { a with active := false, expires := 0, fadeTime := t }
      let st2 := deactivateActiveRemoval id st1
      let st3 := HookCat.all.foldl (fun s c => deactivateHookRemoval c id s) st2
      match auraAt st3 id with
      | none => .error "no such aura"
      | some b =>
        if b.stacks' ≠ 0 then
          match forceStacksToZero id st3 with
          | .error e => .error e
          | .ok (st4, evs) =>
            .ok (st4, evs ++ (if a.hasOnExpire then [AEvent.expire id] else []))
        else
          .ok (st3, if a.hasOnExpire then [AEvent.expire id] else [])

/-- `Aura.SetStacks`: reject nonzero stacks on an inactive aura, a
negative request and a zero `MaxStacks`; clamp to `MaxStacks`; no-op when
unchanged; otherwise assign, reach the stacks-changed hook with the old
and new counts, and deactivate on reaching zero. -/
def setStacksAura (t : Int) (id : Nat) (newStacksArg : Int) (st : TrackerState) :
    Except String (TrackerState × List AEvent) :=
  match auraAt st id with
  | none => .error "no such aura"
  | some a =>
    if ¬a.active ∧ newStacksArg ≠ 0 then
      .error "Trying to set non-zero stacks on inactive aura"
    else if newStacksArg < 0 then
      .error "SetStacks newStacks cannot be negative"
    else if a.maxStacks = 0 then
      .error "MaxStacks required to set Aura stacks"
    else
      let newStacks := min newStacksArg a.maxStacks
      if a.stacks' = newStacks then .ok (st, [])
      else
        let st1 := setAuraAt st id { a with stacks' := newStacks }
        let evs := if a.hasOnStacksChange then
            [AEvent.stacksChange id a.stacks' newStacks] else []
        if newStacks = 0 then
          match deactivateAura t id st1 with
          | .error e => .error e
          | .ok (st2, evs2) => .ok (st2, evs ++ evs2)
        else .ok (st1, evs)

/-- Configuration passed to `registerAura` (the fields of the `Aura`
literal that the claims observe). -/
structure AuraConfig where
  label : String
  duration : Int
  maxStacks : Int
  hasHook : HookCat → Bool
  hasOnGain : Bool
  hasOnExpire : Bool
  hasOnStacksChange : Bool

/-- `auraTracker.GetAura` (label lookup). -/
def getAuraByLabel (st : TrackerState) (label : String) : Option Aura :=
  st.auras.find? (fun a => a.label == label)

/-- `auraTracker.registerAura`: reject registration in a finalized
environment, an empty label, a duplicate label and more than 200 already
registered auras, then append the fresh aura with every membership index
at `Inactive`.  The nil-unit check cannot arise (the tracker is owned by
its entity) and `aurasByTag` is omitted. -/
def registerAura (st : TrackerState) (cfg : AuraConfig) : Except String TrackerState :=
  if st.finalized then .error "Tried to add new aura in a finalized environment"
  else if cfg.label = "" then .error "Aura label is required"
  else if (getAuraByLabel st cfg.label).isSome then .error "Aura already registered"
  else if st.auras.length > 200 then .error "Over 200 registered auras"
  else
    .ok { st with auras := st.auras ++ [{
      label := cfg.label
      duration := cfg.duration
      startTime := 0
      expires := 0
      fadeTime := 0
      active := false
      activeIndex := Inactive
      hookIndex := fun _ => Inactive
      stacks' := 0
      maxStacks := cfg.maxStacks
      hasHook := cfg.hasHook
      hasOnGain := cfg.hasOnGain
      hasOnExpire := cfg.hasOnExpire
      hasOnStacksChange := cfg.hasOnStacksChange
      initialized := false }] }

/-- `aura.reset`: lazily initialize once (the `OnInit` hook is external),
then assert the aura is inactive and stack-free — a violation is fatal —
and reset the fade time.  Metric reset and the `OnReset`/`Dpm` hooks are
external or metrics-only and omitted. -/
def resetAura (a : Aura) : Except String Aura :=
  let a1 := if a.initialized then a else { a with initialized := true }
  if a1.active then .error "Active aura during reset"
  else if a1.stacks' ≠ 0 then .error "Aura nonzero stacks during reset"
  else .ok { a1 with fadeTime := -NeverExpires }

def resetAllAuras : List Aura → Except String (List Aura)
  | [] => .ok []
  | a :: rest =>
    match resetAura a with
    | .error e => .error e
    | .ok a' =>
      match resetAllAuras rest with
      | .error e => .error e
      | .ok rest' => .ok (a' :: rest')

/-- `auraTracker.reset`: clear the dispatch arrays and `activeAuras`,
park `minExpires` at the sentinel and reset every registered aura
(`resetEffects` are external callbacks). -/
def resetTracker (st : TrackerState) : Except String TrackerState :=
  let st1 : TrackerState :=
    { st with activeAuras := [], hookAuras := fun _ => [], minExpires := NeverExpires }
  match resetAllAuras st1.auras with
  | .error e => .error e
  | .ok as2 => .ok { st1 with auras := as2 }

/-- First entry of `activeAuras` (in scan order) that has expired at time
`t` — the aura whose `Deactivate` makes the `advance` loop restart. -/
def findExpiredActive (st : TrackerState) (t : Int) : Option Nat :=
  st.activeAuras.find? (fun id =>
    match auraAt st id with
    | some a => decide (a.expires ≤ t)
    | none => false)

/-- The clean final pass of `auraTracker.advance`: no active aura has
expired, so recompute `minExpires` as the minimum over `activeAuras`. -/
def recomputeMinExpires (st : TrackerState) : TrackerState :=
  let m := st.activeAuras.foldl
    (fun m id => match auraAt st id with
      | some a => min m a.expires
      | none => m) NeverExpires
  { st with minExpires := m }

/-- `auraTracker.advance` (the `restart:` loop): scan `activeAuras`; on
the first expired aura, deactivate it and restart the scan, discarding the
partial minimum; once no aura has expired, keep the recomputed minimum.
Each restart follows a `Deactivate` that shrinks `activeAuras`, so the
fuel `length + 1` supplied by `advanceTracker` can never run out on a
well-formed tracker. -/
def advanceTrackerFuel (t : Int) : Nat → TrackerState → Except String (TrackerState × List AEvent)
  | 0, st => .ok (recomputeMinExpires st, [])
  | fuel + 1, st =>
    match findExpiredActive st t with
    | none => .ok (recomputeMinExpires st, [])
    | some id =>
      match deactivateAura t id st with
      | .error e => .error e
      | .ok (st1, evs) =>
        match advanceTrackerFuel t fuel st1 with
        | .error e => .error e
        | .ok (st2, evs2) => .ok (st2, evs ++ evs2)

def advanceTracker (t : Int) (st : TrackerState) : Except String (TrackerState × List AEvent) :=
  advanceTrackerFuel t (st.activeAuras.length + 1) st

/-- `auraTracker.tryAdvance`: the lazy-expiration guard — rescan only when
the clock has reached or passed the cached minimum. -/
def tryAdvanceTracker (t : Int) (st : TrackerState) : Except String (TrackerState × List AEvent) :=
  if t < st.minExpires then .ok (st, [])
  else advanceTracker t st

/-- Aura-lifecycle operations an iteration can interleave. -/
inductive AuraOp where
  | activate (t : Int) (id : Nat)
  | deactivate (t : Int) (id : Nat)
  | setStacks (t : Int) (id : Nat) (n : Int)

def runAuraOp (st : TrackerState) : AuraOp → Except String (TrackerState × List AEvent)
  | .activate t id => activateAura t id st
  | .deactivate t id => deactivateAura t id st
  | .setStacks t id n => setStacksAura t id n st

def runAuraOps (st : TrackerState) : List AuraOp → Except String TrackerState
  | [] => .ok st
  | op :: ops =>
    match runAuraOp st op with
    | .error e => .error e
    | .ok (st1, _) => runAuraOps st1 ops

/-- The fields of an aura that the lifecycle proofs observe — everything
except the membership indices that swap-remove fixups rewrite. -/
def coreOf (a : Aura) : Bool × Int × Int × Int × Int × Bool × Bool :=
  (a.active, a.stacks', a.expires, a.duration, a.maxStacks, a.hasOnExpire, a.hasOnStacksChange)

/-- The fields the stack/activity invariant of C5 depends on. -/
def stView (a : Aura) : Bool × Int × Int := (a.active, a.stacks', a.maxStacks)

/-- The claimed aura invariant: stacks are zero whenever inactive, and lie
in `[0, MaxStacks]`. -/
def AuraInv (a : Aura) : Prop :=
  (a.active = false → a.stacks' = 0) ∧ 0 ≤ a.stacks' ∧ a.stacks' ≤ a.maxStacks

/-- Every registered aura of the tracker satisfies the invariant. -/
def TrackerInv (st : TrackerState) : Prop :=
  ∀ id a, auraAt st id = some a → AuraInv a


/-! ### Concrete states used by witnesses and counterexamples -/

/-- The aura of the spec scenario: 5-second duration, currently active
since t=0 (so expiring at 5s), all times in nanoseconds. -/
def exAuraC6 : Aura :=
  { label := "scenario"
    duration := 5000000000
    startTime := 0
    expires := 5000000000
    fadeTime := 0
    active := true
    activeIndex := 0
    hookIndex := fun _ => Inactive
    stacks' := 0
    maxStacks := 0
    hasHook := fun _ => false
    hasOnGain := true
    hasOnExpire := true
    hasOnStacksChange := false
    initialized := true }

def exTrackerC6 : TrackerState :=
  { auras := [exAuraC6]
    activeAuras := [0]
    hookAuras := fun _ => []
    minExpires := 5000000000
    finalized := true }

/-- A health-limited encounter with 1000 effective health and all execute
proportions zero (thresholds derive purely from the phase ladder). -/
def exCfgC3 : EncounterCfg :=
  { endFightAtHealth := 1000
    executeProportion90 := 0
    executeProportion45 := 0
    executeProportion35 := 0
    executeProportion25 := 0
    executeProportion20 := 0
    duration := 100 }

/-- Phase state sitting at phase 35, waiting for the 25% threshold at 750
cumulative damage. -/
def exPhase35 : PhaseState :=
  { executePhase := 35
    nextExecuteDuration := NeverExpires
    nextExecuteDamage := 750 }

/-- An active aura holding 3 of at most 5 stacks, with the stacks-changed
and expiry hooks defined. -/
def exAuraC8 : Aura :=
  { label := "stacked"
    duration := 10
    startTime := 0
    expires := 10
    fadeTime := 0
    active := true
    activeIndex := 0
    hookIndex := fun _ => Inactive
    stacks' := 3
    maxStacks := 5
    hasHook := fun _ => false
    hasOnGain := false
    hasOnExpire := true
    hasOnStacksChange := true
    initialized := true }

def exTrackerC8 : TrackerState :=
  { auras := [exAuraC8]
    activeAuras := [0]
    hookAuras := fun _ => []
    minExpires := 10
    finalized := true }

/-- The C7 scenario aura: 5-second duration, last refreshed at t=3s, so
it expires at 8s (times in nanoseconds). -/
def exAuraC7 : Aura :=
  { label := "lazy"
    duration := 5000000000
    startTime := 3000000000
    expires := 8000000000
    fadeTime := 0
    active := true
    activeIndex := 0
    hookIndex := fun _ => Inactive
    stacks' := 0
    maxStacks := 0
    hasHook := fun _ => false
    hasOnGain := false
    hasOnExpire := false
    hasOnStacksChange := false
    initialized := true }

/-- Tracker whose single active aura is `exAuraC7`, with the cached
minimum expiration at 8s. -/
def exTrackerC7 : TrackerState :=
  { auras := [exAuraC7]
    activeAuras := [0]
    hookAuras := fun _ => []
    minExpires := 8000000000
    finalized := true }

/-- A registration request whose label collides with `exAuraC8`. -/
def exCfgDup : AuraConfig :=
  { label := "stacked"
    duration := 7
    maxStacks := 0
    hasHook := fun _ => false
    hasOnGain := false
    hasOnExpire := false
    hasOnStacksChange := false }

/-- The index/activity fields that `activeAuras` bookkeeping relies on. -/
def avView (a : Aura) : Int × Bool × Int := (a.activeIndex, a.active, a.duration)

/-- Well-formedness of the `activeAuras` bookkeeping: every slot holds a
registered, active, finitely-durationed aura whose stored `activeIndex` is
its slot, and every active finitely-durationed aura is tracked. -/
def ActiveWf (st : TrackerState) : Prop :=
  (∀ k, st.activeAuras.get? k ≠ none →
    ∃ id a, st.activeAuras.get? k = some id ∧ auraAt st id = some a ∧
      a.activeIndex = (k : Int) ∧ a.active = true ∧ a.duration ≠ NeverExpires) ∧
  (∀ id a, auraAt st id = some a → a.active = true → a.duration ≠ NeverExpires →
    id ∈ st.activeAuras)

/-! ## Theorems -/

theorem get?_some_lt {α} {l : List α} {n : Nat} {a : α} (h : l.get? n = some a) :
    n < l.length := by
  by_contra hc
  push_neg at hc
  rw [List.get?_eq_none.mpr hc] at h
  exact Option.noConfusion h

theorem auraAt_setAuraAt_self {st : TrackerState} {id : Nat} {a b : Aura}
    (h : auraAt st id = some a) : auraAt (setAuraAt st id b) id = some b :=
  List.get?_set_eq_of_lt b (get?_some_lt h)

theorem auraAt_setAuraAt_other {st : TrackerState} {id j : Nat} {b : Aura}
    (h : id ≠ j) : auraAt (setAuraAt st id b) j = auraAt st j :=
  List.get?_set_ne b st.auras h

theorem auraAt_modifyAuraAt_self {st : TrackerState} {id : Nat} {a : Aura} {f : Aura → Aura}
    (h : auraAt st id = some a) : auraAt (modifyAuraAt st id f) id = some (f a) := by
  unfold modifyAuraAt
  rw [show st.auras.get? id = some a from h]
  exact auraAt_setAuraAt_self h

theorem auraAt_modifyAuraAt_other {st : TrackerState} {id j : Nat} {f : Aura → Aura}
    (h : id ≠ j) : auraAt (modifyAuraAt st id f) j = auraAt st j := by
  unfold modifyAuraAt
  cases hg : st.auras.get? id with
  | none => rfl
  | some a => exact auraAt_setAuraAt_other h

theorem auraAt_modifyAuraAt_map {st : TrackerState} {id j : Nat} {f : Aura → Aura}
    {g : Aura → β} (hg : ∀ a, g (f a) = g a) :
    (auraAt (modifyAuraAt st id f) j).map g = (auraAt st j).map g := by
  by_cases hij : id = j
  · subst hij
    cases h : auraAt st id with
    | none =>
      unfold modifyAuraAt
      rw [show st.auras.get? id = none from h]
      rw [show auraAt st id = none from h]
    | some a =>
      rw [auraAt_modifyAuraAt_self h]
      simp only [h, Option.map_some']
      rw [hg]
  · rw [auraAt_modifyAuraAt_other hij]

theorem activeAuras_setAuraAt (st : TrackerState) (id : Nat) (b : Aura) :
    (setAuraAt st id b).activeAuras = st.activeAuras := rfl

theorem hookAuras_setAuraAt (st : TrackerState) (id : Nat) (b : Aura) :
    (setAuraAt st id b).hookAuras = st.hookAuras := rfl

theorem activeAuras_modifyAuraAt (st : TrackerState) (id : Nat) (f : Aura → Aura) :
    (modifyAuraAt st id f).activeAuras = st.activeAuras := by
  unfold modifyAuraAt
  cases st.auras.get? id <;> rfl

theorem hookAuras_modifyAuraAt (st : TrackerState) (id : Nat) (f : Aura → Aura) :
    (modifyAuraAt st id f).hookAuras = st.hookAuras := by
  unfold modifyAuraAt
  cases st.auras.get? id <;> rfl

theorem length_auras_setAuraAt (st : TrackerState) (id : Nat) (b : Aura) :
    (setAuraAt st id b).auras.length = st.auras.length :=
  List.length_set st.auras id b

theorem length_auras_modifyAuraAt (st : TrackerState) (id : Nat) (f : Aura → Aura) :
    (modifyAuraAt st id f).auras.length = st.auras.length := by
  unfold modifyAuraAt
  cases st.auras.get? id
  · rfl
  · exact List.length_set st.auras id _

theorem auraAt_setAuraAt_map {st : TrackerState} {id : Nat} {a b : Aura} {g : Aura → β}
    (ha : auraAt st id = some a) (hg : g b = g a) (j : Nat) :
    (auraAt (setAuraAt st id b) j).map g = (auraAt st j).map g := by
  by_cases hij : id = j
  · subst hij
    rw [auraAt_setAuraAt_self ha, ha, Option.map_some', Option.map_some', hg]
  · rw [auraAt_setAuraAt_other hij]

theorem coreOf_set_activeIndex (x : Int) (b : Aura) :
    coreOf { b with activeIndex := x } = coreOf b := rfl

theorem coreOf_set_hookIndex (f : HookCat → Int) (b : Aura) :
    coreOf { b with hookIndex := f } = coreOf b := rfl

theorem coreOf_map_activeRemoval (id : Nat) (st : TrackerState) (j : Nat) :
    (auraAt (deactivateActiveRemoval id st) j).map coreOf = (auraAt st j).map coreOf := by
  unfold deactivateActiveRemoval
  cases h : auraAt st id with
  | none => rfl
  | some a =>
    dsimp only
    by_cases hidx : a.activeIndex ≠ Inactive
    · rw [if_pos hidx]
      rw [auraAt_modifyAuraAt_map (fun b => coreOf_set_activeIndex _ b)]
      split
      · split
        · rw [auraAt_modifyAuraAt_map (fun b => coreOf_set_activeIndex _ b)]
          rfl
        · rfl
      · rfl
    · rw [if_neg hidx]

theorem coreOf_map_hookRemoval (c : HookCat) (id : Nat) (st : TrackerState) (j : Nat) :
    (auraAt (deactivateHookRemoval c id st) j).map coreOf = (auraAt st j).map coreOf := by
  unfold deactivateHookRemoval
  cases h : auraAt st id with
  | none => rfl
  | some a =>
    dsimp only
    by_cases hidx : a.hookIndex c ≠ Inactive
    · rw [if_pos hidx]
      rw [auraAt_modifyAuraAt_map (fun b => coreOf_set_hookIndex _ b)]
      split
      · split
        · rw [auraAt_modifyAuraAt_map (fun b => coreOf_set_hookIndex _ b)]
          rfl
        · rfl
      · rfl
    · rw [if_neg hidx]

theorem coreOf_map_hookFold (id : Nat) (l : List HookCat) (st : TrackerState) (j : Nat) :
    (auraAt (l.foldl (fun s c => deactivateHookRemoval c id s) st) j).map coreOf =
      (auraAt st j).map coreOf := by
  induction l generalizing st with
  | nil => rfl
  | cons c cs ih => rw [List.foldl_cons, ih, coreOf_map_hookRemoval]

theorem stView_of_coreOf {a b : Aura} (h : coreOf a = coreOf b) : stView a = stView b := by
  unfold coreOf at h
  unfold stView
  simp only [Prod.mk.injEq] at h ⊢
  exact ⟨h.1, h.2.1, h.2.2.2.2.1⟩

theorem AuraInv_of_stView {a b : Aura} (h : stView a = stView b) (hb : AuraInv b) :
    AuraInv a := by
  unfold stView at h
  simp only [Prod.mk.injEq] at h
  obtain ⟨h1, h2, h3⟩ := h
  unfold AuraInv at hb ⊢
  rw [h1, h2, h3]
  exact hb

theorem coreOf_eq_iff {a b : Aura} : coreOf a = coreOf b ↔
    (a.active = b.active ∧ a.stacks' = b.stacks' ∧ a.expires = b.expires ∧
     a.duration = b.duration ∧ a.maxStacks = b.maxStacks ∧
     a.hasOnExpire = b.hasOnExpire ∧ a.hasOnStacksChange = b.hasOnStacksChange) := by
  unfold coreOf
  simp only [Prod.mk.injEq]

theorem stView_set_expires (x : Int) (b : Aura) : stView { b with expires := x } = stView b := rfl

theorem refreshAura_stView (t : Int) (id : Nat) (st : TrackerState) (j : Nat) :
    (auraAt (refreshAura t id st) j).map stView = (auraAt st j).map stView := by
  unfold refreshAura
  cases h : auraAt st id with
  | none => rfl
  | some a =>
    dsimp only
    split
    · exact auraAt_setAuraAt_map h (stView_set_expires _ _) j
    · split
      · exact auraAt_setAuraAt_map h (stView_set_expires _ _) j
      · exact auraAt_setAuraAt_map h (stView_set_expires _ _) j

theorem refreshAura_hookAuras (t : Int) (id : Nat) (st : TrackerState) :
    (refreshAura t id st).hookAuras = st.hookAuras := by
  unfold refreshAura
  cases h : auraAt st id with
  | none => rfl
  | some a =>
    dsimp only
    split
    · rfl
    · split <;> rfl

theorem refreshAura_activeAuras (t : Int) (id : Nat) (st : TrackerState) :
    (refreshAura t id st).activeAuras = st.activeAuras := by
  unfold refreshAura
  cases h : auraAt st id with
  | none => rfl
  | some a =>
    dsimp only
    split
    · rfl
    · split <;> rfl

theorem refreshAura_expires_fin {t : Int} {id : Nat} {st : TrackerState} {a : Aura}
    (ha : auraAt st id = some a) (hfin : a.duration ≠ NeverExpires) :
    (auraAt (refreshAura t id st) id).map expiresAtAura = some (t + a.duration) := by
  unfold refreshAura
  rw [ha]
  dsimp only
  rw [if_neg hfin]
  split
  · rw [show auraAt { setAuraAt st id { a with expires := t + a.duration } with
        minExpires := t + a.duration } id = auraAt (setAuraAt st id
        { a with expires := t + a.duration }) id from rfl]
    rw [auraAt_setAuraAt_self ha]
    rfl
  · rw [auraAt_setAuraAt_self ha]
    rfl

theorem activateAura_refresh_branch {t : Int} {id : Nat} {st : TrackerState} {a : Aura}
    (ha : auraAt st id = some a) (hact : a.active = true) :
    activateAura t id st = .ok (refreshAura t id st, [AEvent.refreshed id]) := by
  unfold activateAura
  rw [ha]
  dsimp only
  rw [if_pos (by simp [hact])]

/-- C6: re-activating an already-active aura only refreshes the expiration
to the current time plus the configured duration, does not reach the gain
hook, and leaves every dispatch array — hence every dispatch-array length —
unchanged, so no duplicate registration occurs; a 5-second aura activated
at t=0s and re-activated at t=3s then has `ExpiresAt() = 8s` (the witness
below instantiates exactly that scenario in nanoseconds). -/
theorem c6_reactivate_refresh_only (t : Int) (id : Nat) (st : TrackerState) (a : Aura)
    (ha : auraAt st id = some a) (hact : a.active = true)
    (hfin : a.duration ≠ NeverExpires) :
    ∃ st', activateAura t id st = .ok (st', [AEvent.refreshed id]) ∧
      (∀ j, AEvent.gain j ∉ ([AEvent.refreshed id] : List AEvent)) ∧
      st'.hookAuras = st.hookAuras ∧
      (∀ c, ((st'.hookAuras c).length = (st.hookAuras c).length)) ∧
      st'.activeAuras = st.activeAuras ∧
      (auraAt st' id).map expiresAtAura = some (t + a.duration) := by
  refine ⟨refreshAura t id st, activateAura_refresh_branch ha hact, ?_, ?_, ?_, ?_, ?_⟩
  · intro j hj
    simp at hj
  · exact refreshAura_hookAuras t id st
  · intro c
    rw [refreshAura_hookAuras t id st]
  · exact refreshAura_activeAuras t id st
  · exact refreshAura_expires_fin ha hfin

/-- Closed witness for C6: the 5-second aura of the spec scenario,
activated at t=0 (expires 5s), re-activated at t=3s; the theorem yields
expiration 8s and untouched dispatch arrays. -/
theorem c6_reactivate_refresh_only_witness :
    ∃ st', activateAura 3000000000 0 exTrackerC6 = .ok (st', [AEvent.refreshed 0]) ∧
      (∀ j, AEvent.gain j ∉ ([AEvent.refreshed 0] : List AEvent)) ∧
      (auraAt st' 0).map expiresAtAura = some 8000000000 := by
  obtain ⟨st', h1, h2, _, _, _, h6⟩ :=
    c6_reactivate_refresh_only 3000000000 0 exTrackerC6 exAuraC6 rfl rfl (by decide)
  exact ⟨st', h1, h2, h6⟩

/-- C10: `IsActive()` and `GetStacks()` are total at the public interface:
on the nil aura pointer they return `false` and `0` respectively instead
of dereferencing, and on a non-nil aura they read the underlying fields. -/
theorem c10_nil_receiver_total :
    isActiveOpt none = false ∧ getStacksOpt none = 0 ∧
    ∀ a : Aura, isActiveOpt (some a) = a.active ∧ getStacksOpt (some a) = a.stacks' :=
  ⟨rfl, rfl, fun _ => ⟨rfl, rfl⟩⟩

theorem setupPhase_executePhase (cfg : EncounterCfg) (st : PhaseState) (ph : Int)
    (d h : ℚ) : (setupPhase cfg st ph d h).executePhase = ph := by
  unfold setupPhase
  split <;> rfl

theorem nextExecutePhaseFn_cases {cfg : EncounterCfg} {st st' : PhaseState}
    (h : nextExecutePhaseFn cfg st = some st') :
    (st.executePhase = 0 ∧ st'.executePhase = 100) ∨
    (st.executePhase = 100 ∧ st'.executePhase = 90) ∨
    (st.executePhase = 90 ∧ st'.executePhase = 45) ∨
    (st.executePhase = 45 ∧ st'.executePhase = 35) ∨
    (st.executePhase = 35 ∧ st'.executePhase = 25) ∨
    (st.executePhase = 25 ∧ st'.executePhase = 20) := by
  unfold nextExecutePhaseFn at h
  split_ifs at h with h1 h2 h3 h4 h5 h6
  · refine Or.inl ⟨h1, ?_⟩
    rw [← Option.some.inj h, setupPhase_executePhase]
  · refine Or.inr (Or.inl ⟨h2, ?_⟩)
    rw [← Option.some.inj h, setupPhase_executePhase]
  · refine Or.inr (Or.inr (Or.inl ⟨h3, ?_⟩))
    rw [← Option.some.inj h, setupPhase_executePhase]
  · refine Or.inr (Or.inr (Or.inr (Or.inl ⟨h4, ?_⟩)))
    rw [← Option.some.inj h, setupPhase_executePhase]
  · refine Or.inr (Or.inr (Or.inr (Or.inr (Or.inl ⟨h5, ?_⟩))))
    rw [← Option.some.inj h, setupPhase_executePhase]
  · refine Or.inr (Or.inr (Or.inr (Or.inr (Or.inr ⟨h6, ?_⟩))))
    rw [← Option.some.inj h]

theorem nextExecutePhaseFn_ladder {cfg : EncounterCfg} {st st' : PhaseState}
    (h : nextExecutePhaseFn cfg st = some st') :
    st'.executePhase ∈ ([100, 90, 45, 35, 25, 20] : List Int) := by
  rcases nextExecutePhaseFn_cases h with ⟨_, h2⟩|⟨_, h2⟩|⟨_, h2⟩|⟨_, h2⟩|⟨_, h2⟩|⟨_, h2⟩ <;>
    rw [h2] <;> decide

theorem rank_next {cfg : EncounterCfg} {st st' : PhaseState}
    (h : nextExecutePhaseFn cfg st = some st') :
    phaseRank st'.executePhase < phaseRank st.executePhase := by
  rcases nextExecutePhaseFn_cases h with ⟨h1, h2⟩|⟨h1, h2⟩|⟨h1, h2⟩|⟨h1, h2⟩|⟨h1, h2⟩|⟨h1, h2⟩ <;>
    rw [h1, h2] <;> decide

theorem advancePhasesFuel_props (cfg : EncounterCfg) (dmg : ℚ) (t : Int) (fuel : Nat) :
    ∀ (st stf : PhaseState) (evs : List Int),
      advancePhasesFuel cfg dmg t fuel st = .ok (stf, evs) →
      evs.Pairwise (fun a b => b < a) ∧
      (∀ v ∈ evs, v ∈ ([100, 90, 45, 35, 25, 20] : List Int)) ∧
      (∀ v ∈ evs, v < st.executePhase ∨ st.executePhase = 0) := by
  induction fuel with
  | zero =>
    intro st stf evs h
    exact absurd h (by simp [advancePhasesFuel])
  | succ n ih =>
    intro st stf evs h
    rw [advancePhasesFuel] at h
    split_ifs at h with hcond
    · cases hnx : nextExecutePhaseFn cfg st with
      | none =>
        rw [hnx] at h
        exact absurd h (by simp)
      | some st' =>
        rw [hnx] at h
        dsimp only at h
        cases hrec : advancePhasesFuel cfg dmg t n st' with
        | error e =>
          rw [hrec] at h
          exact absurd h (by simp)
        | ok p =>
          obtain ⟨stf', evs'⟩ := p
          rw [hrec] at h
          simp only [Except.ok.injEq, Prod.mk.injEq] at h
          obtain ⟨hstf, hevs⟩ := h
          obtain ⟨ih1, ih2, ih3⟩ := ih st' stf' evs' hrec
          have hlad := nextExecutePhaseFn_ladder hnx
          have hne0 : st'.executePhase ≠ 0 := by
            intro h0
            rw [h0] at hlad
            simp at hlad
          subst hevs
          refine ⟨?_, ?_, ?_⟩
          · rw [List.pairwise_cons]
            refine ⟨fun v hv => ?_, ih1⟩
            rcases ih3 v hv with h' | h'
            · exact h'
            · exact absurd h' hne0
          · intro v hv
            rcases List.mem_cons.mp hv with h' | h'
            · rw [h']
              exact hlad
            · exact ih2 v h'
          · intro v hv
            rcases nextExecutePhaseFn_cases hnx with
              ⟨hA, hB⟩|⟨hA, hB⟩|⟨hA, hB⟩|⟨hA, hB⟩|⟨hA, hB⟩|⟨hA, hB⟩
            · exact Or.inr hA
            all_goals {
              refine Or.inl ?_
              rcases List.mem_cons.mp hv with h' | h'
              · rw [h', hA, hB]
                decide
              · rcases ih3 v h' with h'' | h''
                · rw [hA]
                  rw [hB] at h''
                  omega
                · exact absurd h'' hne0 }
    · simp only [Except.ok.injEq, Prod.mk.injEq] at h
      obtain ⟨hstf, hevs⟩ := h
      subst hevs
      exact ⟨List.Pairwise.nil, by simp, by simp⟩

/-- C3: within one clock advance, the phase values delivered to the
phase-change callbacks form a strictly descending sequence along the
configured ladder (100, 90, 45, 35, 25, 20) with no repeats; a single
advance whose time or cumulative damage crosses several thresholds
invokes the callbacks once per crossed phase, in descending order, before
the advance returns (the returned list holds the values in invocation
order). -/
theorem c3_phase_descent (cfg : EncounterCfg) (dmg : ℚ) (t : Int)
    (st stf : PhaseState) (evs : List Int)
    (h : advancePhases cfg dmg t st = .ok (stf, evs)) :
    evs.Pairwise (fun a b => b < a) ∧
    (∀ v ∈ evs, v ∈ ([100, 90, 45, 35, 25, 20] : List Int)) := by
  obtain ⟨h1, h2, _⟩ := advancePhasesFuel_props cfg dmg t _ st stf evs h
  exact ⟨h1, h2⟩

/-- Closed witness for C3: a damage-based encounter whose cumulative
damage reaches 1000 while the controller sits at phase 35 crosses the 25%
and 20% thresholds in one advance, delivering exactly the values 25 then
20, strictly descending. -/
theorem c3_phase_descent_witness :
    (∃ stf, advancePhases exCfgC3 1000 0 exPhase35 = .ok (stf, [25, 20])) ∧
    ([25, 20] : List Int).Pairwise (fun a b => b < a) ∧
    (∀ v ∈ ([25, 20] : List Int), v ∈ ([100, 90, 45, 35, 25, 20] : List Int)) := by
  have hrun : advancePhases exCfgC3 1000 0 exPhase35 =
      .ok ({ executePhase := 20, nextExecuteDuration := NeverExpires,
             nextExecuteDamage := maxFloat64 }, [25, 20]) := by
    norm_num [advancePhases, advancePhasesFuel, nextExecutePhaseFn, setupPhase,
      durationOfRat, phaseRank, exCfgC3, exPhase35, NeverExpires, maxFloat64]
  obtain ⟨h1, h2⟩ := c3_phase_descent exCfgC3 1000 0 exPhase35 _ _ hrun
  exact ⟨⟨_, hrun⟩, h1, h2⟩

theorem deactivateAura_inactive {t : Int} {id : Nat} {st : TrackerState} {a : Aura}
    (ha : auraAt st id = some a) (hact : a.active = false) :
    deactivateAura t id st = .ok (st, []) := by
  unfold deactivateAura
  rw [ha]
  dsimp only
  rw [if_pos (by simp [hact])]

theorem coreOf_stacks_update (b : Aura) (x : Int) :
    coreOf { b with stacks' := x } =
      (b.active, x, b.expires, b.duration, b.maxStacks, b.hasOnExpire, b.hasOnStacksChange) := rfl

theorem deactivateAura_on_active {t : Int} {id : Nat} {st : TrackerState} {a : Aura}
    (ha : auraAt st id = some a) (hact : a.active = true)
    (hs0 : 0 ≤ a.stacks') (hsm : a.stacks' ≤ a.maxStacks) :
    ∃ st', deactivateAura t id st = .ok (st',
        (if a.stacks' = 0 then [] else if a.hasOnStacksChange then
          [AEvent.stacksChange id a.stacks' 0] else [])
        ++ (if a.hasOnExpire then [AEvent.expire id] else [])) ∧
      (auraAt st' id).map coreOf =
        some (false, 0, 0, a.duration, a.maxStacks, a.hasOnExpire, a.hasOnStacksChange) ∧
      (∀ j, j ≠ id → (auraAt st' j).map coreOf = (auraAt st j).map coreOf) := by
  have hpres : ∀ j, (auraAt (HookCat.all.foldl (fun s c => deactivateHookRemoval c id s)
      (deactivateActiveRemoval id (setAuraAt st id
        { a with active := false, expires := 0, fadeTime := t }))) j).map coreOf =
      (auraAt (setAuraAt st id
        { a with active := false, expires := 0, fadeTime := t }) j).map coreOf := by
    intro j
    rw [coreOf_map_hookFold, coreOf_map_activeRemoval]
  have hcore3 : (auraAt (HookCat.all.foldl (fun s c => deactivateHookRemoval c id s)
      (deactivateActiveRemoval id (setAuraAt st id
        { a with active := false, expires := 0, fadeTime := t }))) id).map coreOf =
      some (coreOf { a with active := false, expires := 0, fadeTime := t }) := by
    rw [hpres id, auraAt_setAuraAt_self ha, Option.map_some']
  cases hb : auraAt (HookCat.all.foldl (fun s c => deactivateHookRemoval c id s)
      (deactivateActiveRemoval id (setAuraAt st id
        { a with active := false, expires := 0, fadeTime := t }))) id with
  | none =>
    rw [hb] at hcore3
    exact absurd hcore3 (by simp)
  | some b =>
    rw [hb, Option.map_some'] at hcore3
    have hcb := Option.some.inj hcore3
    rcases coreOf_eq_iff.mp hcb with ⟨hb1, hb2, hb3, hb4, hb5, hb6, hb7⟩
    dsimp only at hb1 hb2 hb3 hb4 hb5 hb6 hb7
    have hmax0 : (0:Int) ≤ a.maxStacks := le_trans hs0 hsm
    unfold deactivateAura
    rw [ha]
    dsimp only
    rw [if_neg (by simp [hact])]
    rw [hb]
    dsimp only
    generalize hS : (HookCat.all.foldl (fun s c => deactivateHookRemoval c id s)
      (deactivateActiveRemoval id (setAuraAt st id
        { a with active := false, expires := 0, fadeTime := t }))) = S3 at hb hpres ⊢
    by_cases hz : a.stacks' = 0
    · rw [if_neg (by simp [hb2, hz])]
      refine ⟨S3, ?_, ?_, ?_⟩
      · rw [if_pos hz]
        simp
      · rw [hb, Option.map_some', hcb]
        unfold coreOf
        dsimp only
        rw [hz]
      · intro j hj
        rw [hpres j, auraAt_setAuraAt_other (fun he => hj he.symm)]
    · rw [if_pos (by simp [hb2, hz])]
      have hforce : forceStacksToZero id S3 = .ok (setAuraAt S3 id { b with stacks' := 0 },
          if b.hasOnStacksChange then [AEvent.stacksChange id b.stacks' 0] else []) := by
        unfold forceStacksToZero
        rw [hb]
        dsimp only
        rw [if_neg (by rw [hb5]; intro h0; rw [h0] at hsm; omega)]
        rw [show min 0 b.maxStacks = 0 from by rw [hb5]; exact min_eq_left hmax0]
        rw [if_neg (by rw [hb2]; exact hz)]
      rw [hforce]
      dsimp only
      refine ⟨setAuraAt S3 id { b with stacks' := 0 }, ?_, ?_, ?_⟩
      · rw [if_neg hz, hb7, hb2]
      · rw [auraAt_setAuraAt_self hb, Option.map_some', coreOf_stacks_update,
          hb1, hb3, hb4, hb5, hb6, hb7]
      · intro j hj
        rw [auraAt_setAuraAt_other (fun he => hj he.symm), hpres j,
          auraAt_setAuraAt_other (fun he => hj he.symm)]

/-- C8: `SetStacks(0)` on an active aura holding 3 stacks reaches the
stacks-changed hook exactly once with arguments (old=3, new=0) and
triggers exactly one deactivation, whose expiry hook fires after the
stacks-changed hook: the emitted trace is precisely
`[stacksChange 3 0, expire]`, with no second deactivation from the
re-entrant `SetStacks(0)` inside `Deactivate`. -/
theorem c8_set_stacks_zero (t : Int) (id : Nat) (st : TrackerState) (a : Aura)
    (ha : auraAt st id = some a) (hact : a.active = true) (h3 : a.stacks' = 3)
    (hmax : 3 ≤ a.maxStacks) (hsc : a.hasOnStacksChange = true)
    (hex : a.hasOnExpire = true) :
    ∃ st', setStacksAura t id 0 st =
        .ok (st', [AEvent.stacksChange id 3 0, AEvent.expire id]) ∧
      isActiveOpt (auraAt st' id) = false ∧ getStacksOpt (auraAt st' id) = 0 := by
  have ha1 : auraAt (setAuraAt st id { a with stacks' := min 0 a.maxStacks }) id =
      some { a with stacks' := min 0 a.maxStacks } := auraAt_setAuraAt_self ha
  have hmin : min (0:Int) a.maxStacks = 0 := min_eq_left (by omega)
  obtain ⟨st2, hde, hcore, _⟩ :=
    deactivateAura_on_active (t := t) ha1 (by simpa using hact)
      (by simp [hmin]) (by simp [hmin]; omega)
  unfold setStacksAura
  rw [ha]
  dsimp only
  rw [if_neg (by simp)]
  rw [if_neg (by omega)]
  rw [if_neg (by omega)]
  rw [if_neg (by rw [hmin, h3]; omega)]
  rw [if_pos hmin]
  rw [hde]
  dsimp only
  refine ⟨st2, ?_, ?_, ?_⟩
  · simp only [hmin] at hde ⊢
    rw [h3, hsc]
    simp only [if_true]
    have : ({ a with stacks' := (0:Int) }).stacks' = 0 := rfl
    simp [hex]
  · cases hc : auraAt st2 id with
    | none => rw [hc] at hcore; exact absurd hcore (by simp)
    | some c =>
      rw [hc, Option.map_some'] at hcore
      have hcc := Option.some.inj hcore
      unfold coreOf at hcc
      simp only [Prod.mk.injEq] at hcc
      simp [isActiveOpt, hc, hcc.1]
  · cases hc : auraAt st2 id with
    | none => rw [hc] at hcore; exact absurd hcore (by simp)
    | some c =>
      rw [hc, Option.map_some'] at hcore
      have hcc := Option.some.inj hcore
      unfold coreOf at hcc
      simp only [Prod.mk.injEq] at hcc
      simp [getStacksOpt, hc, hcc.2.1]

/-- Closed witness for C8: the concrete 3-stack aura; the run emits exactly
the stacks-changed(3,0) observation followed by the expiry observation. -/
theorem c8_set_stacks_zero_witness :
    ∃ st', setStacksAura 0 0 0 exTrackerC8 =
        .ok (st', [AEvent.stacksChange 0 3 0, AEvent.expire 0]) ∧
      isActiveOpt (auraAt st' 0) = false ∧ getStacksOpt (auraAt st' 0) = 0 :=
  c8_set_stacks_zero 0 0 exTrackerC8 exAuraC8 rfl rfl rfl (by decide) rfl rfl

theorem stView_set_activeIndex (x : Int) (b : Aura) :
    stView { b with activeIndex := x } = stView b := rfl

theorem stView_set_hookIndex (f : HookCat → Int) (b : Aura) :
    stView { b with hookIndex := f } = stView b := rfl

theorem registerActive_stView (id : Nat) (st : TrackerState) (j : Nat) :
    (auraAt (registerActive id st) j).map stView = (auraAt st j).map stView := by
  unfold registerActive
  exact auraAt_modifyAuraAt_map (fun b => stView_set_activeIndex _ b)

theorem registerHook_stView (c : HookCat) (id : Nat) (st : TrackerState) (j : Nat) :
    (auraAt (registerHook c id st) j).map stView = (auraAt st j).map stView := by
  unfold registerHook
  exact auraAt_modifyAuraAt_map (fun b => stView_set_hookIndex _ b)

theorem registerHookFold_stView (p : HookCat → Bool) (id : Nat) (l : List HookCat)
    (st : TrackerState) (j : Nat) :
    (auraAt (l.foldl (fun s c => if p c then registerHook c id s else s) st) j).map stView =
      (auraAt st j).map stView := by
  induction l generalizing st with
  | nil => rfl
  | cons c cs ih =>
    rw [List.foldl_cons]
    by_cases hp : p c
    · rw [if_pos hp, ih, registerHook_stView]
    · rw [if_neg hp, ih]

theorem activateAura_preserves_inv {t : Int} {id : Nat} {st st' : TrackerState}
    {evs : List AEvent} (h : activateAura t id st = .ok (st', evs))
    (hinv : TrackerInv st) : TrackerInv st' := by
  unfold activateAura at h
  cases ha : auraAt st id with
  | none =>
    rw [ha] at h
    exact absurd h (by simp)
  | some a =>
    rw [ha] at h
    dsimp only at h
    by_cases hact : a.active = true
    · rw [if_pos (by simp [hact])] at h
      simp only [Except.ok.injEq, Prod.mk.injEq] at h
      obtain ⟨hst, _⟩ := h
      subst hst
      intro j c hc
      have hv := refreshAura_stView t id st j
      rw [hc, Option.map_some'] at hv
      cases hc0 : auraAt st j with
      | none => rw [hc0] at hv; exact absurd hv (by simp)
      | some c0 =>
        rw [hc0, Option.map_some'] at hv
        exact AuraInv_of_stView (Option.some.inj hv) (hinv j c0 hc0)
    · rw [if_neg (by simp [hact])] at h
      by_cases hd : a.duration = 0
      · rw [if_pos hd] at h
        exact absurd h (by simp)
      · rw [if_neg hd] at h
        simp only [Except.ok.injEq, Prod.mk.injEq] at h
        obtain ⟨hst, _⟩ := h
        subst hst
        intro j c hc
        have hv : (auraAt (List.foldl
            (fun s c => if a.hasHook c then registerHook c id s else s)
            (if a.duration ≠ NeverExpires then
              registerActive id (refreshAura t id
                (setAuraAt st id { a with active := true, startTime := t }))
            else refreshAura t id
                (setAuraAt st id { a with active := true, startTime := t }))
            HookCat.all) j).map stView =
            (auraAt (setAuraAt st id { a with active := true, startTime := t }) j).map
              stView := by
          rw [registerHookFold_stView]
          split
          · rw [registerActive_stView, refreshAura_stView]
          · rw [refreshAura_stView]
        rw [hc, Option.map_some'] at hv
        rw [eq_comm] at hv
        by_cases hji : id = j
        · subst hji
          rw [auraAt_setAuraAt_self ha, Option.map_some'] at hv
          have hv' := Option.some.inj hv
          refine AuraInv_of_stView hv'.symm ?_
          obtain ⟨_, hb0, hbm⟩ := hinv id a ha
          exact ⟨by intro hfalse; exact absurd hfalse (by simp), hb0, hbm⟩
        · rw [auraAt_setAuraAt_other hji] at hv
          cases hc0 : auraAt st j with
          | none => rw [hc0] at hv; exact absurd hv (by simp)
          | some c0 =>
            rw [hc0, Option.map_some'] at hv
            exact AuraInv_of_stView (Option.some.inj hv).symm (hinv j c0 hc0)

theorem deactivateAura_preserves_inv {t : Int} {id : Nat} {st st' : TrackerState}
    {evs : List AEvent} (h : deactivateAura t id st = .ok (st', evs))
    (hinv : TrackerInv st) : TrackerInv st' := by
  cases ha : auraAt st id with
  | none =>
    unfold deactivateAura at h
    rw [ha] at h
    exact absurd h (by simp)
  | some a =>
    by_cases hact : a.active = true
    · obtain ⟨_, hs2, hs3⟩ := hinv id a ha
      obtain ⟨st2, hde, hcore, hoth⟩ := deactivateAura_on_active ha hact hs2 hs3
      rw [hde] at h
      simp only [Except.ok.injEq, Prod.mk.injEq] at h
      obtain ⟨hst, _⟩ := h
      subst hst
      intro j c hc
      by_cases hji : j = id
      · subst hji
        rw [hc, Option.map_some'] at hcore
        have hcc := Option.some.inj hcore
        unfold coreOf at hcc
        simp only [Prod.mk.injEq] at hcc
        obtain ⟨hc1, hc2, _, _, hc5, _⟩ := hcc
        exact ⟨fun _ => hc2, by rw [hc2], by rw [hc2, hc5]; exact le_trans hs2 hs3⟩
      · have hpr := hoth j hji
        rw [hc, Option.map_some'] at hpr
        cases hc0 : auraAt st j with
        | none => rw [hc0] at hpr; exact absurd hpr (by simp)
        | some c0 =>
          rw [hc0, Option.map_some'] at hpr
          exact AuraInv_of_stView (stView_of_coreOf (Option.some.inj hpr)) (hinv j c0 hc0)
    · have hact' : a.active = false := by
        cases hb : a.active
        · rfl
        · exact absurd hb hact
      rw [deactivateAura_inactive ha hact'] at h
      simp only [Except.ok.injEq, Prod.mk.injEq] at h
      obtain ⟨hst, _⟩ := h
      subst hst
      exact hinv

theorem setStacksAura_preserves_inv {t : Int} {id : Nat} {n : Int} {st st' : TrackerState}
    {evs : List AEvent} (h : setStacksAura t id n st = .ok (st', evs))
    (hinv : TrackerInv st) : TrackerInv st' := by
  unfold setStacksAura at h
  cases ha : auraAt st id with
  | none =>
    rw [ha] at h
    exact absurd h (by simp)
  | some a =>
    rw [ha] at h
    dsimp only at h
    by_cases h1 : ¬a.active = true ∧ n ≠ 0
    · rw [if_pos h1] at h
      exact absurd h (by simp)
    rw [if_neg h1] at h
    by_cases h2 : n < 0
    · rw [if_pos h2] at h
      exact absurd h (by simp)
    rw [if_neg h2] at h
    by_cases h3 : a.maxStacks = 0
    · rw [if_pos h3] at h
      exact absurd h (by simp)
    rw [if_neg h3] at h
    by_cases h4 : a.stacks' = min n a.maxStacks
    · rw [if_pos h4] at h
      simp only [Except.ok.injEq, Prod.mk.injEq] at h
      obtain ⟨hst, _⟩ := h
      subst hst
      exact hinv
    rw [if_neg h4] at h
    obtain ⟨_, hs2, hs3⟩ := hinv id a ha
    have hm0 : (0:Int) ≤ a.maxStacks := le_trans hs2 hs3
    have hn0 : (0:Int) ≤ n := by omega
    have hmin0 : (0:Int) ≤ min n a.maxStacks := le_min hn0 hm0
    have hminmax : min n a.maxStacks ≤ a.maxStacks := min_le_right _ _
    have hinv1 : TrackerInv (setAuraAt st id { a with stacks' := min n a.maxStacks }) := by
      intro j c hc
      by_cases hji : id = j
      · subst hji
        rw [auraAt_setAuraAt_self ha] at hc
        have hc' := Option.some.inj hc
        subst hc'
        refine ⟨?_, hmin0, hminmax⟩
        intro hfalse
        dsimp only at hfalse
        by_cases hn : n = 0
        · rw [hn]
          simp [hm0]
        · exact absurd ⟨by simp [hfalse], hn⟩ h1
      · rw [auraAt_setAuraAt_other hji] at hc
        exact hinv j c hc
    by_cases h5 : min n a.maxStacks = 0
    · rw [if_pos h5] at h
      cases hde : deactivateAura t id (setAuraAt st id
          { a with stacks' := min n a.maxStacks }) with
      | error e =>
        rw [hde] at h
        exact absurd h (by simp)
      | ok p =>
        obtain ⟨stx, evx⟩ := p
        rw [hde] at h
        simp only [Except.ok.injEq, Prod.mk.injEq] at h
        obtain ⟨hst, _⟩ := h
        subst hst
        exact deactivateAura_preserves_inv hde hinv1
    · rw [if_neg h5] at h
      simp only [Except.ok.injEq, Prod.mk.injEq] at h
      obtain ⟨hst, _⟩ := h
      subst hst
      exact hinv1

theorem runAuraOp_preserves_inv {st st' : TrackerState} {op : AuraOp} {evs : List AEvent}
    (h : runAuraOp st op = .ok (st', evs)) (hinv : TrackerInv st) : TrackerInv st' := by
  cases op with
  | activate t id =>
    unfold runAuraOp at h
    exact activateAura_preserves_inv h hinv
  | deactivate t id =>
    unfold runAuraOp at h
    exact deactivateAura_preserves_inv h hinv
  | setStacks t id n =>
    unfold runAuraOp at h
    exact setStacksAura_preserves_inv h hinv

/-- C5: for every aura and every sequence of `Activate`, `Deactivate` and
`SetStacks` operations that runs without a fatal error from a state whose
auras satisfy the stack invariant, every aura of the resulting state has
stacks exactly 0 whenever it is inactive (equivalently, positive stacks
imply active), and its stack count stays within `[0, MaxStacks]`. -/
theorem c5_stack_invariant (ops : List AuraOp) (st st' : TrackerState)
    (h : runAuraOps st ops = .ok st') (hinv : TrackerInv st) :
    ∀ id a, auraAt st' id = some a →
      (a.active = false → a.stacks' = 0) ∧ 0 ≤ a.stacks' ∧ a.stacks' ≤ a.maxStacks := by
  induction ops generalizing st with
  | nil =>
    unfold runAuraOps at h
    simp only [Except.ok.injEq] at h
    subst h
    exact hinv
  | cons op rest ih =>
    unfold runAuraOps at h
    cases hop : runAuraOp st op with
    | error e =>
      rw [hop] at h
      exact absurd h (by simp)
    | ok p =>
      obtain ⟨st1, evs⟩ := p
      rw [hop] at h
      exact ih st1 h (runAuraOp_preserves_inv hop hinv)

/-- Closed witness for C5: from the concrete active 3-stack aura, run a
stack change, a refresh-style re-activation and a deactivation; the final
state's only aura is inactive with 0 stacks, within bounds. -/
theorem c5_stack_invariant_witness :
    ∃ st', runAuraOps exTrackerC8
        [AuraOp.setStacks 1 0 5, AuraOp.activate 2 0, AuraOp.deactivate 3 0] = .ok st' ∧
      ∀ id a, auraAt st' id = some a →
        (a.active = false → a.stacks' = 0) ∧ 0 ≤ a.stacks' ∧ a.stacks' ≤ a.maxStacks := by
  have hinv : TrackerInv exTrackerC8 := by
    intro id a ha
    cases id with
    | zero =>
      have := Option.some.inj ha
      subst this
      exact ⟨by intro h; exact absurd h (by decide), by decide, by decide⟩
    | succ n =>
      exact absurd ha (by simp [auraAt, exTrackerC8, exAuraC8])
  have hok : (runAuraOps exTrackerC8
      [AuraOp.setStacks 1 0 5, AuraOp.activate 2 0, AuraOp.deactivate 3 0]).isOk = true := by
    rfl
  cases hrun : runAuraOps exTrackerC8
      [AuraOp.setStacks 1 0 5, AuraOp.activate 2 0, AuraOp.deactivate 3 0] with
  | error e =>
    rw [hrun] at hok
    exact absurd hok (by simp [Except.isOk, Except.toBool])
  | ok st' =>
    exact ⟨st', rfl, c5_stack_invariant _ _ _ hrun hinv⟩

/-- C9 counterexample: the claim as stated says an over-cap stack
assignment aborts the run; on the concrete active aura with `MaxStacks=5`
holding 3 stacks, `SetStacks(7)` does not abort — it succeeds and clamps
the count to 5 (the stacks-changed hook sees (3, 5)). -/
theorem c9_overcap_not_fatal_counterexample :
    (setStacksAura 0 0 7 exTrackerC8).isOk = true ∧
    setStacksAura 0 0 7 exTrackerC8 =
      .ok (setAuraAt exTrackerC8 0 { exAuraC8 with stacks' := 5 },
        [AEvent.stacksChange 0 3 5]) ∧
    getStacksOpt (auraAt (setAuraAt exTrackerC8 0 { exAuraC8 with stacks' := 5 }) 0) = 5 :=
  ⟨rfl, rfl, rfl⟩

/-- C9 (amended): duplicate aura label on one entity, a negative stack
assignment, registering an aura after the environment is finalized,
registering beyond the sanity cap of 200 registered auras, and finding an
aura active or with nonzero stacks at per-iteration reset are each fatal
structural errors that abort the run; an over-cap stack assignment,
however, is clamped to `MaxStacks` and does not abort. -/
theorem c9_fatal_structural_errors :
    (∀ st cfg, (∃ a ∈ st.auras, a.label = cfg.label) →
      ∃ e, registerAura st cfg = .error e) ∧
    (∀ t id n st a, auraAt st id = some a → n < 0 →
      ∃ e, setStacksAura t id n st = .error e) ∧
    (∀ st cfg, st.finalized = true → ∃ e, registerAura st cfg = .error e) ∧
    (∀ st cfg, st.auras.length > 200 → ∃ e, registerAura st cfg = .error e) ∧
    (∀ a, (a.active = true ∨ a.stacks' ≠ 0) → ∃ e, resetAura a = .error e) ∧
    (∀ t id n st a, auraAt st id = some a → a.active = true → 0 < a.maxStacks →
      a.maxStacks < n → ∃ st' evs, setStacksAura t id n st = .ok (st', evs) ∧
        getStacksOpt (auraAt st' id) = a.maxStacks) := by
  refine ⟨?_, ?_, ?_, ?_, ?_, ?_⟩
  · intro st cfg hdup
    unfold registerAura
    split_ifs with h1 h2 h3 h4
    · exact ⟨_, rfl⟩
    · exact ⟨_, rfl⟩
    · exact ⟨_, rfl⟩
    · exact ⟨_, rfl⟩
    · exfalso
      apply h3
      unfold getAuraByLabel
      rw [List.find?_isSome]
      obtain ⟨a, hmem, hlab⟩ := hdup
      exact ⟨a, hmem, by simp [hlab]⟩
  · intro t id n st a ha hn
    unfold setStacksAura
    rw [ha]
    dsimp only
    by_cases h1 : ¬a.active = true ∧ n ≠ 0
    · rw [if_pos h1]
      exact ⟨_, rfl⟩
    · rw [if_neg h1, if_pos hn]
      exact ⟨_, rfl⟩
  · intro st cfg hfin
    unfold registerAura
    rw [if_pos hfin]
    exact ⟨_, rfl⟩
  · intro st cfg hcap
    unfold registerAura
    split_ifs with h1 h2 h3
    · exact ⟨_, rfl⟩
    · exact ⟨_, rfl⟩
    · exact ⟨_, rfl⟩
    · exact ⟨_, rfl⟩
  · intro a hcase
    unfold resetAura
    dsimp only
    by_cases hact : a.active = true
    · have : (if a.initialized then a else { a with initialized := true }).active = true := by
        split
        · exact hact
        · exact hact
      rw [if_pos this]
      exact ⟨_, rfl⟩
    · have hnact : (if a.initialized then a else { a with initialized := true }).active ≠ true := by
        split
        · exact hact
        · exact hact
      rw [if_neg hnact]
      have hs : a.stacks' ≠ 0 := by
        rcases hcase with h | h
        · exact absurd h hact
        · exact h
      have hs1 : (if a.initialized then a else { a with initialized := true }).stacks' ≠ 0 := by
        split
        · exact hs
        · exact hs
      rw [if_pos hs1]
      exact ⟨_, rfl⟩
  · intro t id n st a ha hact hmax hlt
    unfold setStacksAura
    rw [ha]
    dsimp only
    rw [if_neg (by simp [hact])]
    rw [if_neg (by omega)]
    rw [if_neg (by omega)]
    have hmin : min n a.maxStacks = a.maxStacks := min_eq_right (by omega)
    rw [hmin]
    by_cases h4 : a.stacks' = a.maxStacks
    · rw [if_pos h4]
      exact ⟨st, [], rfl, by simp [getStacksOpt, ha, h4]⟩
    · rw [if_neg h4]
      rw [if_neg (by omega)]
      refine ⟨_, _, rfl, ?_⟩
      rw [auraAt_setAuraAt_self ha]
      rfl

/-- Closed witness for C9: on the concrete tracker, a duplicate-label
registration errors, a negative stack assignment errors, resetting the
still-active aura errors, and the over-cap assignment is clamped. -/
theorem c9_fatal_structural_errors_witness :
    (∃ e, registerAura exTrackerC8 exCfgDup = .error e) ∧
    (∃ e, setStacksAura 0 0 (-1) exTrackerC8 = .error e) ∧
    (∃ e, resetAura exAuraC8 = .error e) ∧
    (∃ st' evs, setStacksAura 0 0 7 exTrackerC8 = .ok (st', evs) ∧
      getStacksOpt (auraAt st' 0) = exAuraC8.maxStacks) := by
  obtain ⟨hdup, hneg, _, _, hreset, hclamp⟩ := c9_fatal_structural_errors
  exact ⟨hdup exTrackerC8 exCfgDup ⟨exAuraC8, by simp [exTrackerC8], rfl⟩,
    hneg 0 0 (-1) exTrackerC8 exAuraC8 rfl (by decide),
    hreset exAuraC8 (Or.inl rfl),
    hclamp 0 0 7 exTrackerC8 exAuraC8 rfl rfl (by decide) (by decide)⟩

theorem nodup_get?_inj {l : List Nat} (hnd : l.Nodup) {i j x : Nat}
    (hi : l.get? i = some x) (hj : l.get? j = some x) : i = j := by
  have hi' : i < l.length := get?_some_lt hi
  exact List.get?_inj hi' hnd (hi.trans hj.symm)

theorem get?_some_of_lt {α} {l : List α} {n : Nat} (h : n < l.length) :
    ∃ a, l.get? n = some a := by
  cases hg : l.get? n with
  | none => exact absurd (List.get?_eq_none.mp hg) (by omega)
  | some a => exact ⟨a, rfl⟩

theorem removeBySwappingToBack_length {arr : List Nat} {k : Nat} (h : k < arr.length) :
    (removeBySwappingToBack arr k).length = arr.length - 1 := by
  unfold removeBySwappingToBack
  cases hl : arr.getLast? with
  | none =>
    rw [List.getLast?_eq_get?, List.get?_eq_none] at hl
    simp only [List.length_nil]
    omega
  | some last =>
    simp [List.length_dropLast, List.length_set]

theorem removeBySwappingToBack_get?_ne {arr : List Nat} {k j : Nat} (hk : k < arr.length)
    (hj : j < arr.length - 1) (hne : j ≠ k) :
    (removeBySwappingToBack arr k).get? j = arr.get? j := by
  unfold removeBySwappingToBack
  cases hl : arr.getLast? with
  | none =>
    rw [List.getLast?_eq_get?, List.get?_eq_none] at hl
    exact absurd hk (by omega)
  | some last =>
    dsimp only
    rw [List.dropLast_eq_take, List.length_set, List.get?_take hj]
    exact List.get?_set_ne last arr (fun he => hne he.symm)

theorem removeBySwappingToBack_get?_k {arr : List Nat} {k : Nat} (hk : k < arr.length - 1) :
    (removeBySwappingToBack arr k).get? k = arr.get? (arr.length - 1) := by
  unfold removeBySwappingToBack
  cases hl : arr.getLast? with
  | none =>
    rw [List.getLast?_eq_get?, List.get?_eq_none] at hl
    exact absurd hk (by omega)
  | some last =>
    dsimp only
    rw [List.dropLast_eq_take, List.length_set, List.get?_take hk,
      List.get?_set_eq_of_lt last (by omega)]
    rw [List.getLast?_eq_get?] at hl
    exact hl.symm

theorem removeBySwappingToBack_mem {arr : List Nat} {k : Nat} (hk : k < arr.length)
    (hnd : arr.Nodup) (x : Nat) :
    x ∈ removeBySwappingToBack arr k ↔ (x ∈ arr ∧ arr.get? k ≠ some x) := by
  have hlen := removeBySwappingToBack_length hk
  constructor
  · intro hx
    obtain ⟨j, hj⟩ := List.mem_iff_get?.mp hx
    have hjlt : j < arr.length - 1 := by
      have := get?_some_lt hj
      omega
    by_cases hjk : j = k
    · subst hjk
      rw [removeBySwappingToBack_get?_k hjlt] at hj
      refine ⟨List.mem_iff_get?.mpr ⟨_, hj⟩, fun hc => ?_⟩
      have := nodup_get?_inj hnd hc hj
      omega
    · rw [removeBySwappingToBack_get?_ne hk hjlt hjk] at hj
      refine ⟨List.mem_iff_get?.mpr ⟨_, hj⟩, fun hc => ?_⟩
      exact hjk (nodup_get?_inj hnd hj hc)
  · rintro ⟨hx, hne⟩
    obtain ⟨j, hj⟩ := List.mem_iff_get?.mp hx
    have hjlt : j < arr.length := get?_some_lt hj
    have hjk : j ≠ k := fun he => hne (he ▸ hj)
    by_cases hjend : j = arr.length - 1
    · subst hjend
      have hkend : k < arr.length - 1 := by omega
      exact List.mem_iff_get?.mpr ⟨k, by rw [removeBySwappingToBack_get?_k hkend]; exact hj⟩
    · exact List.mem_iff_get?.mpr ⟨j, by
        rw [removeBySwappingToBack_get?_ne hk (by omega) hjk]; exact hj⟩

theorem activeAuras_deactivateHookRemoval (c : HookCat) (id : Nat) (st : TrackerState) :
    (deactivateHookRemoval c id st).activeAuras = st.activeAuras := by
  unfold deactivateHookRemoval
  cases h : auraAt st id with
  | none => rfl
  | some a =>
    dsimp only
    split
    · rw [activeAuras_modifyAuraAt]
      split
      · split
        · rw [activeAuras_modifyAuraAt]
        · rfl
      · rfl
    · rfl

theorem activeAuras_hookFold (id : Nat) (l : List HookCat) (st : TrackerState) :
    (l.foldl (fun s c => deactivateHookRemoval c id s) st).activeAuras = st.activeAuras := by
  induction l generalizing st with
  | nil => rfl
  | cons c cs ih => rw [List.foldl_cons, ih, activeAuras_deactivateHookRemoval]

theorem avView_set_hookIndex (f : HookCat → Int) (b : Aura) :
    avView { b with hookIndex := f } = avView b := rfl

theorem avView_set_stacks (x : Int) (b : Aura) :
    avView { b with stacks' := x } = avView b := rfl

theorem avView_map_hookRemoval (c : HookCat) (id : Nat) (st : TrackerState) (j : Nat) :
    (auraAt (deactivateHookRemoval c id st) j).map avView = (auraAt st j).map avView := by
  unfold deactivateHookRemoval
  cases h : auraAt st id with
  | none => rfl
  | some a =>
    dsimp only
    by_cases hidx : a.hookIndex c ≠ Inactive
    · rw [if_pos hidx]
      rw [auraAt_modifyAuraAt_map (fun b => avView_set_hookIndex _ b)]
      split
      · split
        · rw [auraAt_modifyAuraAt_map (fun b => avView_set_hookIndex _ b)]
          rfl
        · rfl
      · rfl
    · rw [if_neg hidx]

theorem avView_map_hookFold (id : Nat) (l : List HookCat) (st : TrackerState) (j : Nat) :
    (auraAt (l.foldl (fun s c => deactivateHookRemoval c id s) st) j).map avView =
      (auraAt st j).map avView := by
  induction l generalizing st with
  | nil => rfl
  | cons c cs ih => rw [List.foldl_cons, ih, avView_map_hookRemoval]

theorem deactivateActiveRemoval_wf {st1 : TrackerState} {id k : Nat} {A1 : Aura}
    (ha : auraAt st1 id = some A1) (hidx : A1.activeIndex = (k : Int))
    (hk : st1.activeAuras.get? k = some id) (hnd : st1.activeAuras.Nodup)
    (hpos : ∀ j jid, j ≠ k → st1.activeAuras.get? j = some jid →
      ∃ b, auraAt st1 jid = some b ∧ b.activeIndex = (j : Int) ∧ b.active = true ∧
        b.duration ≠ NeverExpires) :
    (deactivateActiveRemoval id st1).activeAuras =
      removeBySwappingToBack st1.activeAuras k ∧
    (∀ j jid, (removeBySwappingToBack st1.activeAuras k).get? j = some jid →
      ∃ b, auraAt (deactivateActiveRemoval id st1) jid = some b ∧
        b.activeIndex = (j : Int) ∧ b.active = true ∧ b.duration ≠ NeverExpires) := by
  have hklt : k < st1.activeAuras.length := get?_some_lt hk
  have harrlen := removeBySwappingToBack_length hklt
  unfold deactivateActiveRemoval
  rw [ha]
  dsimp only
  rw [if_pos (by rw [hidx]; unfold Inactive; omega)]
  simp only [hidx, Int.toNat_ofNat]
  constructor
  · rw [activeAuras_modifyAuraAt]
    split
    · split
      · rw [activeAuras_modifyAuraAt]
      · rfl
    · rfl
  · intro j jid hj
    have hjlt : j < st1.activeAuras.length - 1 := by
      have := get?_some_lt hj
      omega
    by_cases hjk : j = k
    · subst hjk
      have hlast : st1.activeAuras.get? (st1.activeAuras.length - 1) = some jid := by
        rw [← removeBySwappingToBack_get?_k hjlt]
        exact hj
      have hne_id : jid ≠ id := by
        intro he
        subst he
        have := nodup_get?_inj hnd hlast hk
        omega
      obtain ⟨b, hab, hbidx, hbact, hbdur⟩ := hpos _ jid (by omega) hlast
      rw [if_pos (by omega)]
      rw [hj]
      dsimp only
      have hab' : auraAt { st1 with
          activeAuras := removeBySwappingToBack st1.activeAuras j } jid = some b := hab
      refine ⟨{ b with activeIndex := (j : Int) }, ?_, rfl, hbact, hbdur⟩
      rw [auraAt_modifyAuraAt_other (Ne.symm hne_id), auraAt_modifyAuraAt_self hab']
    · have harr_j : st1.activeAuras.get? j = some jid := by
        rw [← removeBySwappingToBack_get?_ne hklt hjlt hjk]
        exact hj
      have hne_id : jid ≠ id := by
        intro he
        subst he
        exact hjk (nodup_get?_inj hnd harr_j hk)
      obtain ⟨b, hab, hbidx, hbact, hbdur⟩ := hpos j jid hjk harr_j
      refine ⟨b, ?_, hbidx, hbact, hbdur⟩
      rw [auraAt_modifyAuraAt_other (Ne.symm hne_id)]
      split
      · rename_i hcond
        cases harr_k : (removeBySwappingToBack st1.activeAuras k).get? k with
        | none => exact hab
        | some jv =>
          dsimp only
          have hkk : k < st1.activeAuras.length - 1 := by omega
          have hlast : st1.activeAuras.get? (st1.activeAuras.length - 1) = some jv := by
            rw [← removeBySwappingToBack_get?_k hkk]
            exact harr_k
          have hne2 : jid ≠ jv := by
            intro he
            subst he
            have := nodup_get?_inj hnd harr_j hlast
            omega
          rw [auraAt_modifyAuraAt_other (Ne.symm hne2)]
          exact hab
      · exact hab

theorem nodup_of_get?_inj {l : List Nat}
    (h : ∀ i j x, l.get? i = some x → l.get? j = some x → i = j) : l.Nodup := by
  rw [List.nodup_iff_injective_get]
  rintro ⟨i, hi⟩ ⟨j, hj⟩ hij
  have hgi := List.get?_eq_get hi
  have hgj := List.get?_eq_get hj
  exact Fin.ext (h i j _ hgi (by rw [hgj, hij]))

theorem activeWf_nodup {st : TrackerState} (hwf : ActiveWf st) : st.activeAuras.Nodup := by
  apply nodup_of_get?_inj
  intro i j x hgi hgj
  obtain ⟨id1, a1, hg1, ha1, hidx1, -, -⟩ := hwf.1 i (by rw [hgi]; simp)
  obtain ⟨id2, a2, hg2, ha2, hidx2, -, -⟩ := hwf.1 j (by rw [hgj]; simp)
  rw [hgi] at hg1
  rw [hgj] at hg2
  obtain rfl := Option.some.inj hg1
  obtain rfl := Option.some.inj hg2
  rw [ha1] at ha2
  obtain rfl := Option.some.inj ha2
  rw [hidx1] at hidx2
  exact_mod_cast hidx2

theorem map_coreOf_some {o : Option Aura} {x : Bool × Int × Int × Int × Int × Bool × Bool}
    (h : o.map coreOf = some x) : ∃ b, o = some b ∧ coreOf b = x := by
  cases o with
  | none => exact absurd h (by simp)
  | some b => exact ⟨b, rfl, Option.some.inj h⟩

theorem map_avView_some {o : Option Aura} {x : Int × Bool × Int}
    (h : o.map avView = some x) : ∃ b, o = some b ∧ avView b = x := by
  cases o with
  | none => exact absurd h (by simp)
  | some b => exact ⟨b, rfl, Option.some.inj h⟩

theorem avView_eq_iff {a b : Aura} : avView a = avView b ↔
    (a.activeIndex = b.activeIndex ∧ a.active = b.active ∧ a.duration = b.duration) := by
  unfold avView
  simp only [Prod.mk.injEq]

/-- Shape of a successful `Deactivate` on an active aura: the final
`activeAuras` array and the index/activity views of the other auras agree
with the state right after the `activeAuras` swap-remove, the target's
core fields become inactive/zeroed, and every other aura's core fields are
untouched. -/
theorem deactivateAura_shape {t : Int} {id : Nat} {st : TrackerState} {a : Aura}
    (ha : auraAt st id = some a) (hact : a.active = true)
    (hs0 : 0 ≤ a.stacks') (hsm : a.stacks' ≤ a.maxStacks) :
    ∃ st' evs, deactivateAura t id st = .ok (st', evs) ∧
      st'.activeAuras = (deactivateActiveRemoval id (setAuraAt st id
        { a with active := false, expires := 0, fadeTime := t })).activeAuras ∧
      (∀ j, j ≠ id → (auraAt st' j).map avView =
        (auraAt (deactivateActiveRemoval id (setAuraAt st id
          { a with active := false, expires := 0, fadeTime := t })) j).map avView) ∧
      (auraAt st' id).map coreOf =
        some (false, 0, 0, a.duration, a.maxStacks, a.hasOnExpire, a.hasOnStacksChange) ∧
      (∀ j, j ≠ id → (auraAt st' j).map coreOf = (auraAt st j).map coreOf) := by
  have hpres : ∀ j, (auraAt (HookCat.all.foldl (fun s c => deactivateHookRemoval c id s)
      (deactivateActiveRemoval id (setAuraAt st id
        { a with active := false, expires := 0, fadeTime := t }))) j).map coreOf =
      (auraAt (setAuraAt st id
        { a with active := false, expires := 0, fadeTime := t }) j).map coreOf := by
    intro j
    rw [coreOf_map_hookFold, coreOf_map_activeRemoval]
  have hcore3 : (auraAt (HookCat.all.foldl (fun s c => deactivateHookRemoval c id s)
      (deactivateActiveRemoval id (setAuraAt st id
        { a with active := false, expires := 0, fadeTime := t }))) id).map coreOf =
      some (coreOf { a with active := false, expires := 0, fadeTime := t }) := by
    rw [hpres id, auraAt_setAuraAt_self ha, Option.map_some']
  have haa : (HookCat.all.foldl (fun s c => deactivateHookRemoval c id s)
      (deactivateActiveRemoval id (setAuraAt st id
        { a with active := false, expires := 0, fadeTime := t }))).activeAuras =
      (deactivateActiveRemoval id (setAuraAt st id
        { a with active := false, expires := 0, fadeTime := t })).activeAuras :=
    activeAuras_hookFold id HookCat.all _
  have hav : ∀ j, (auraAt (HookCat.all.foldl (fun s c => deactivateHookRemoval c id s)
      (deactivateActiveRemoval id (setAuraAt st id
        { a with active := false, expires := 0, fadeTime := t }))) j).map avView =
      (auraAt (deactivateActiveRemoval id (setAuraAt st id
        { a with active := false, expires := 0, fadeTime := t })) j).map avView :=
    fun j => avView_map_hookFold id HookCat.all _ j
  cases hb : auraAt (HookCat.all.foldl (fun s c => deactivateHookRemoval c id s)
      (deactivateActiveRemoval id (setAuraAt st id
        { a with active := false, expires := 0, fadeTime := t }))) id with
  | none =>
    rw [hb] at hcore3
    exact absurd hcore3 (by simp)
  | some b =>
    rw [hb, Option.map_some'] at hcore3
    have hcb := Option.some.inj hcore3
    rcases coreOf_eq_iff.mp hcb with ⟨hb1, hb2, hb3, hb4, hb5, hb6, hb7⟩
    dsimp only at hb1 hb2 hb3 hb4 hb5 hb6 hb7
    have hmax0 : (0:Int) ≤ a.maxStacks := le_trans hs0 hsm
    unfold deactivateAura
    rw [ha]
    dsimp only
    rw [if_neg (by simp [hact])]
    rw [hb]
    dsimp only
    generalize hS : (HookCat.all.foldl (fun s c => deactivateHookRemoval c id s)
      (deactivateActiveRemoval id (setAuraAt st id
        { a with active := false, expires := 0, fadeTime := t }))) = S3
      at hb hpres haa hav ⊢
    by_cases hz : a.stacks' = 0
    · rw [if_neg (by simp [hb2, hz])]
      refine ⟨S3, _, rfl, haa, fun j _ => hav j, ?_, ?_⟩
      · rw [hb, Option.map_some', hcb]
        unfold coreOf
        dsimp only
        rw [hz]
      · intro j hj
        rw [hpres j, auraAt_setAuraAt_other (fun he => hj he.symm)]
    · rw [if_pos (by simp [hb2, hz])]
      have hforce : forceStacksToZero id S3 = .ok (setAuraAt S3 id { b with stacks' := 0 },
          if b.hasOnStacksChange then [AEvent.stacksChange id b.stacks' 0] else []) := by
        unfold forceStacksToZero
        rw [hb]
        dsimp only
        rw [if_neg (by rw [hb5]; intro h0; rw [h0] at hsm; omega)]
        rw [show min 0 b.maxStacks = 0 from by rw [hb5]; exact min_eq_left hmax0]
        rw [if_neg (by rw [hb2]; exact hz)]
      rw [hforce]
      dsimp only
      refine ⟨setAuraAt S3 id { b with stacks' := 0 }, _, rfl, ?_, ?_, ?_, ?_⟩
      · rw [activeAuras_setAuraAt]
        exact haa
      · intro j hj
        rw [auraAt_setAuraAt_other (fun he => hj he.symm)]
        exact hav j
      · rw [auraAt_setAuraAt_self hb, Option.map_some', coreOf_stacks_update,
          hb1, hb3, hb4, hb5, hb6, hb7]
      · intro j hj
        rw [auraAt_setAuraAt_other (fun he => hj he.symm), hpres j,
          auraAt_setAuraAt_other (fun he => hj he.symm)]

/-- Deactivation of a tracked active aura on a well-formed tracker: it
succeeds, preserves bookkeeping well-formedness and the stack invariant,
shrinks `activeAuras` by one, zeroes the target's core fields and leaves
every other aura's core fields untouched. -/
theorem deactivateAura_wf {t : Int} {id : Nat} {st : TrackerState} {a : Aura}
    (hwf : ActiveWf st) (hinv : TrackerInv st)
    (ha : auraAt st id = some a) (hact : a.active = true)
    (hdur : a.duration ≠ NeverExpires) :
    ∃ st' evs, deactivateAura t id st = .ok (st', evs) ∧
      ActiveWf st' ∧ TrackerInv st' ∧
      st'.activeAuras.length + 1 = st.activeAuras.length ∧
      (auraAt st' id).map coreOf =
        some (false, 0, 0, a.duration, a.maxStacks, a.hasOnExpire, a.hasOnStacksChange) ∧
      (∀ j, j ≠ id → (auraAt st' j).map coreOf = (auraAt st j).map coreOf) := by
  obtain ⟨-, hs0, hsm⟩ := hinv id a ha
  have hnd := activeWf_nodup hwf
  obtain ⟨k, hk⟩ := List.mem_iff_get?.mp (hwf.2 id a ha hact hdur)
  have hklt : k < st.activeAuras.length := get?_some_lt hk
  obtain ⟨id0, a0, hg0, ha0, hidx0, -, -⟩ := hwf.1 k (by rw [hk]; simp)
  rw [hk] at hg0
  obtain rfl := Option.some.inj hg0
  rw [ha] at ha0
  obtain rfl := Option.some.inj ha0
  have ha1 : auraAt (setAuraAt st id { a with active := false, expires := 0, fadeTime := t }) id
      = some { a with active := false, expires := 0, fadeTime := t } := auraAt_setAuraAt_self ha
  have hk1 : (setAuraAt st id
      { a with active := false, expires := 0, fadeTime := t }).activeAuras.get? k = some id := by
    rw [activeAuras_setAuraAt]
    exact hk
  have hnd1 : (setAuraAt st id
      { a with active := false, expires := 0, fadeTime := t }).activeAuras.Nodup := by
    rw [activeAuras_setAuraAt]
    exact hnd
  have hpos1 : ∀ j jid, j ≠ k →
      (setAuraAt st id
        { a with active := false, expires := 0, fadeTime := t }).activeAuras.get? j = some jid →
      ∃ b, auraAt (setAuraAt st id
          { a with active := false, expires := 0, fadeTime := t }) jid = some b ∧
        b.activeIndex = (j : Int) ∧ b.active = true ∧ b.duration ≠ NeverExpires := by
    intro j jid hjk hj
    rw [activeAuras_setAuraAt] at hj
    have hne_id : jid ≠ id := fun he => hjk (nodup_get?_inj hnd hj (he.symm ▸ hk))
    obtain ⟨id1, b, hg1, hb1, hbidx, hbact, hbdur⟩ := hwf.1 j (by rw [hj]; simp)
    rw [hj] at hg1
    obtain rfl := Option.some.inj hg1
    exact ⟨b, by rw [auraAt_setAuraAt_other (Ne.symm hne_id)]; exact hb1, hbidx, hbact, hbdur⟩
  obtain ⟨harr2, hpos2⟩ := deactivateActiveRemoval_wf ha1 hidx0 hk1 hnd1 hpos1
  rw [activeAuras_setAuraAt] at harr2 hpos2
  obtain ⟨st', evs, hde, harr, havp, hcid, hcpres⟩ := deactivateAura_shape ha hact hs0 hsm
  rw [harr2] at harr
  refine ⟨st', evs, hde, ⟨?_, ?_⟩, ?_, ?_, hcid, hcpres⟩
  · intro j hne
    cases hgj : st'.activeAuras.get? j with
    | none => exact absurd hgj hne
    | some jid =>
      have hgj' : (removeBySwappingToBack st.activeAuras k).get? j = some jid := by
        rw [← harr]
        exact hgj
      obtain ⟨b, hb, hbidx, hbact, hbdur⟩ := hpos2 j jid hgj'
      have hne_id : jid ≠ id := by
        intro he
        rw [he] at hb
        have hc2 : (auraAt (deactivateActiveRemoval id (setAuraAt st id
            { a with active := false, expires := 0, fadeTime := t })) id).map coreOf =
            some (coreOf { a with active := false, expires := 0, fadeTime := t }) := by
          rw [coreOf_map_activeRemoval, ha1, Option.map_some']
        rw [hb, Option.map_some'] at hc2
        have hfb := (coreOf_eq_iff.mp (Option.some.inj hc2)).1
        rw [hbact] at hfb
        have hfb' : (true : Bool) = false := hfb
        exact Bool.noConfusion hfb'
      have hv := havp jid hne_id
      rw [hb, Option.map_some'] at hv
      obtain ⟨b', hb', hbv⟩ := map_avView_some hv
      obtain ⟨hv1, hv2, hv3⟩ := avView_eq_iff.mp hbv
      exact ⟨jid, b', rfl, hb', by rw [hv1, hbidx], by rw [hv2]; exact hbact,
        by rw [hv3]; exact hbdur⟩
  · intro jid b hb hbact hbdur
    by_cases he : jid = id
    · subst he
      rw [hb, Option.map_some'] at hcid
      have h1 : b.active = false := congrArg (fun p => p.1) (Option.some.inj hcid)
      rw [hbact] at h1
      exact Bool.noConfusion h1
    · have hcp := hcpres jid he
      rw [hb, Option.map_some'] at hcp
      obtain ⟨b0, hb0, hcb0⟩ := map_coreOf_some hcp.symm
      obtain ⟨hc1, hc2, hc3, hc4, hc5, hc6, hc7⟩ := coreOf_eq_iff.mp hcb0
      have hmem := hwf.2 jid b0 hb0 (hc1.trans hbact) (by rw [hc4]; exact hbdur)
      rw [harr, removeBySwappingToBack_mem hklt hnd]
      refine ⟨hmem, ?_⟩
      rw [hk]
      intro hc
      exact he (Option.some.inj hc).symm
  · intro jid b hb
    by_cases he : jid = id
    · subst he
      rw [hb, Option.map_some'] at hcid
      have hc := Option.some.inj hcid
      have h1 : b.active = false := congrArg (fun p => p.1) hc
      have h2 : b.stacks' = 0 := congrArg (fun p => p.2.1) hc
      have h5 : b.maxStacks = a.maxStacks := congrArg (fun p => p.2.2.2.2.1) hc
      exact ⟨fun _ => h2, by rw [h2], by rw [h2, h5]; exact le_trans hs0 hsm⟩
    · have hcp := hcpres jid he
      rw [hb, Option.map_some'] at hcp
      obtain ⟨b0, hb0, hcb0⟩ := map_coreOf_some hcp.symm
      exact AuraInv_of_stView (stView_of_coreOf hcb0).symm (hinv jid b0 hb0)
  · rw [harr, removeBySwappingToBack_length hklt]
    omega

theorem findExpiredActive_some {st : TrackerState} {t : Int} {id : Nat}
    (h : findExpiredActive st t = some id) :
    id ∈ st.activeAuras ∧ ∃ a, auraAt st id = some a ∧ a.expires ≤ t := by
  unfold findExpiredActive at h
  have hmem := List.mem_of_find?_eq_some h
  have hp := List.find?_some h
  refine ⟨hmem, ?_⟩
  cases haid : auraAt st id with
  | none =>
    simp only [haid] at hp
    exact Bool.noConfusion hp
  | some a =>
    simp only [haid] at hp
    exact ⟨a, rfl, of_decide_eq_true hp⟩

theorem findExpiredActive_none {st : TrackerState} {t : Int}
    (h : findExpiredActive st t = none) :
    ∀ id ∈ st.activeAuras, ∀ a, auraAt st id = some a → t < a.expires := by
  unfold findExpiredActive at h
  intro id hmem a haid
  have hp := List.find?_eq_none.mp h id hmem
  simp only [haid, decide_eq_true_eq] at hp
  omega

/-- One full `advance` rescan with enough fuel: it succeeds, keeps the
tracker well-formed, leaves unexpired and inactive auras untouched,
deactivates every expired active finite aura (looping until none remain,
so no still-active finite aura of the result has expired), and recomputes
the minimum expiration over the remaining `activeAuras`. -/
theorem advanceTrackerFuel_wf {t : Int} (fuel : Nat) :
    ∀ st : TrackerState, ActiveWf st → TrackerInv st → st.activeAuras.length < fuel →
    ∃ st' evs, advanceTrackerFuel t fuel st = .ok (st', evs) ∧
      ActiveWf st' ∧ TrackerInv st' ∧
      (∀ id a, auraAt st id = some a → a.active = true → t < a.expires →
        (auraAt st' id).map coreOf = some (coreOf a)) ∧
      (∀ id a, auraAt st id = some a → a.active = false →
        (auraAt st' id).map coreOf = some (coreOf a)) ∧
      (∀ id a, auraAt st id = some a → a.active = true → a.duration ≠ NeverExpires →
        a.expires ≤ t →
        (auraAt st' id).map coreOf =
          some (false, 0, 0, a.duration, a.maxStacks, a.hasOnExpire, a.hasOnStacksChange)) ∧
      (∀ id a, auraAt st' id = some a → a.active = true → a.duration ≠ NeverExpires →
        t < a.expires) ∧
      st'.minExpires = st'.activeAuras.foldl
        (fun m i => match auraAt st' i with | some a => min m a.expires | none => m)
        NeverExpires := by
  induction fuel with
  | zero =>
    intro st _ _ hfuel
    exact absurd hfuel (by omega)
  | succ fuel ih =>
    intro st hwf hinv hfuel
    cases hfind : findExpiredActive st t with
    | none =>
      refine ⟨recomputeMinExpires st, [], ?_, hwf, hinv, ?_, ?_, ?_, ?_, rfl⟩
      · unfold advanceTrackerFuel
        rw [hfind]
      · intro id a ha _ _
        show (auraAt st id).map coreOf = some (coreOf a)
        rw [ha]
        rfl
      · intro id a ha _
        show (auraAt st id).map coreOf = some (coreOf a)
        rw [ha]
        rfl
      · intro id a ha hact hdur hexp
        exact absurd (findExpiredActive_none hfind id (hwf.2 id a ha hact hdur) a ha) (by omega)
      · intro id a ha hact hdur
        have ha' : auraAt st id = some a := ha
        exact findExpiredActive_none hfind id (hwf.2 id a ha' hact hdur) a ha'
    | some id =>
      obtain ⟨hmem, a, haid, hexp⟩ := findExpiredActive_some hfind
      obtain ⟨k, hk⟩ := List.mem_iff_get?.mp hmem
      obtain ⟨id0, a0, hg0, ha0, hidx0, hact0, hdur0⟩ := hwf.1 k (by rw [hk]; simp)
      rw [hk] at hg0
      obtain rfl := Option.some.inj hg0
      rw [haid] at ha0
      obtain rfl := Option.some.inj ha0
      obtain ⟨st1, evs1, hde, hwf1, hinv1, hlen1, hcid, hcpres⟩ :=
        deactivateAura_wf hwf hinv haid hact0 hdur0
      obtain ⟨st2, evs2, hrun2, hwf2, hinv2, hA2, hB2, hE2, hF2, hM2⟩ :=
        ih st1 hwf1 hinv1 (by omega)
      refine ⟨st2, evs1 ++ evs2, ?_, hwf2, hinv2, ?_, ?_, ?_, hF2, hM2⟩
      · unfold advanceTrackerFuel
        rw [hfind]
        dsimp only
        rw [hde]
        dsimp only
        rw [hrun2]
      · intro id' a' ha' hact' hexp'
        have hne : id' ≠ id := by
          intro he
          rw [he, haid] at ha'
          obtain rfl := Option.some.inj ha'
          omega
        have h1 := hcpres id' hne
        rw [ha', Option.map_some'] at h1
        obtain ⟨a1, ha1, hc1⟩ := map_coreOf_some h1
        obtain ⟨hq1, hq2, hq3, hq4, hq5, hq6, hq7⟩ := coreOf_eq_iff.mp hc1
        have hstep := hA2 id' a1 ha1 (hq1.trans hact') (by rw [hq3]; exact hexp')
        rw [hstep, hc1]
      · intro id' a' ha' hact'
        have hne : id' ≠ id := by
          intro he
          rw [he, haid] at ha'
          obtain rfl := Option.some.inj ha'
          rw [hact0] at hact'
          exact Bool.noConfusion hact'
        have h1 := hcpres id' hne
        rw [ha', Option.map_some'] at h1
        obtain ⟨a1, ha1, hc1⟩ := map_coreOf_some h1
        obtain ⟨hq1, -, -, -, -, -, -⟩ := coreOf_eq_iff.mp hc1
        have hstep := hB2 id' a1 ha1 (hq1.trans hact')
        rw [hstep, hc1]
      · intro id' a' ha' hact' hdur' hexp'
        by_cases he : id' = id
        · rw [he, haid] at ha'
          obtain rfl := Option.some.inj ha'
          rw [he]
          obtain ⟨a1, ha1, hc1⟩ := map_coreOf_some hcid
          have hq1 : a1.active = false := congrArg (fun p => p.1) hc1
          have hstep := hB2 id a1 ha1 hq1
          rw [hstep, hc1]
        · have h1 := hcpres id' he
          rw [ha', Option.map_some'] at h1
          obtain ⟨a1, ha1, hc1⟩ := map_coreOf_some h1
          obtain ⟨hq1, hq2, hq3, hq4, hq5, hq6, hq7⟩ := coreOf_eq_iff.mp hc1
          have hstep := hE2 id' a1 ha1 (hq1.trans hact') (by rw [hq4]; exact hdur')
            (by rw [hq3]; exact hexp')
          rw [hstep, hq4, hq5, hq6, hq7]

/-- C7: on a well-formed tracker, `tryAdvance` leaves the state untouched
while the clock is short of the cached minimum expiration; once it
reaches or passes it, the rescan succeeds, deactivates every active
finitely-durationed aura whose expiration time is ≤ t (looping until no
expired active aura remains, so every still-active finite aura of the
result expires strictly after t), leaves every unexpired active aura
active, and recomputes the cached minimum over the remaining active
auras.  Instantiated at the spec's scenario, an aura with
`ExpiresAt() = 8s` is still active at t = 7.9s and inactive at t = 8.0s. -/
theorem c7_lazy_expiration (t : Int) (st : TrackerState)
    (hwf : ActiveWf st) (hinv : TrackerInv st) :
    (t < st.minExpires → tryAdvanceTracker t st = .ok (st, [])) ∧
    (st.minExpires ≤ t → ∃ st' evs, tryAdvanceTracker t st = .ok (st', evs) ∧
      (∀ id a, auraAt st id = some a → a.active = true → a.duration ≠ NeverExpires →
        a.expires ≤ t → isActiveOpt (auraAt st' id) = false) ∧
      (∀ id a, auraAt st id = some a → a.active = true → t < a.expires →
        isActiveOpt (auraAt st' id) = true) ∧
      (∀ id a, auraAt st' id = some a → a.active = true → a.duration ≠ NeverExpires →
        t < a.expires) ∧
      st'.minExpires = st'.activeAuras.foldl
        (fun m i => match auraAt st' i with | some a => min m a.expires | none => m)
        NeverExpires) := by
  constructor
  · intro hlt
    unfold tryAdvanceTracker
    rw [if_pos hlt]
  · intro hge
    obtain ⟨st', evs, hrun, hwf', hinv', hA, hB, hE, hF, hM⟩ :=
      advanceTrackerFuel_wf (st.activeAuras.length + 1) st hwf hinv (by omega)
    have hrun' : tryAdvanceTracker t st = .ok (st', evs) := by
      unfold tryAdvanceTracker
      rw [if_neg (by omega)]
      exact hrun
    refine ⟨st', evs, hrun', ?_, ?_, hF, hM⟩
    · intro id a ha hact hdur hexp
      obtain ⟨b, hb, hcb⟩ := map_coreOf_some (hE id a ha hact hdur hexp)
      have hb1 : b.active = false := congrArg (fun p => p.1) hcb
      rw [hb]
      exact hb1
    · intro id a ha hact hexp
      obtain ⟨b, hb, hcb⟩ := map_coreOf_some (hA id a ha hact hexp)
      have hb1 : b.active = a.active := (coreOf_eq_iff.mp hcb).1
      rw [hb]
      show b.active = true
      rw [hb1]
      exact hact

/-- Concrete run of the C7 scenario: at t = 7.9s the lazy guard does
nothing (the 8s aura is still active), and at t = 8.0s the rescan
deactivates it. -/
theorem c7_lazy_expiration_witness :
    tryAdvanceTracker 7900000000 exTrackerC7 = .ok (exTrackerC7, []) ∧
    isActiveOpt (auraAt exTrackerC7 0) = true ∧
    (∃ st' evs, tryAdvanceTracker 8000000000 exTrackerC7 = .ok (st', evs) ∧
      isActiveOpt (auraAt st' 0) = false) := by
  have hwf : ActiveWf exTrackerC7 := by
    constructor
    · intro k hk
      match k with
      | 0 => exact ⟨0, exAuraC7, rfl, rfl, rfl, rfl, by decide⟩
      | k+1 => exact absurd rfl hk
    · intro id a ha hact hdur
      match id with
      | 0 => exact List.mem_singleton.mpr rfl
      | i+1 => exact Option.noConfusion ha
  have hinv : TrackerInv exTrackerC7 := by
    intro id a ha
    match id with
    | 0 =>
      obtain rfl := Option.some.inj ha
      exact ⟨fun _ => rfl, by decide, by decide⟩
    | i+1 => exact Option.noConfusion ha
  refine ⟨(c7_lazy_expiration 7900000000 exTrackerC7 hwf hinv).1 (by decide), rfl, ?_⟩
  obtain ⟨st', evs, hrun, hDeact, -, -, -⟩ :=
    (c7_lazy_expiration 8000000000 exTrackerC7 hwf hinv).2 (by decide)
  exact ⟨st', evs, hrun, hDeact 0 exAuraC7 rfl rfl (by decide) (by decide)⟩

theorem keyLt_irrefl (x : Int × Int × Nat) : ¬ keyLt x x := by
  unfold keyLt
  omega

theorem keyLt_trans {x y z : Int × Int × Nat} (h1 : keyLt x y) (h2 : keyLt y z) :
    keyLt x z := by
  unfold keyLt at h1 h2 ⊢
  omega

theorem keyLt_asymm {x y : Int × Int × Nat} (h1 : keyLt x y) (h2 : keyLt y x) : False := by
  unfold keyLt at h1 h2
  omega

theorem firedSeqs_append (l1 l2 : List QEvent) :
    firedSeqs (l1 ++ l2) = firedSeqs l1 ++ firedSeqs l2 :=
  List.filterMap_append l1 l2 _

theorem firedSeqs_cons_cleanup (s : Nat) (l : List QEvent) :
    firedSeqs (QEvent.cleanup s :: l) = firedSeqs l := rfl

theorem firedSeqs_cons_fired (s : Nat) (l : List QEvent) :
    firedSeqs (QEvent.fired s :: l) = s :: firedSeqs l := rfl

theorem firedSeqs_cleanups (l : List PendingAction) :
    firedSeqs (l.filterMap (fun pa =>
      if pa.hasCleanUp then some (QEvent.cleanup pa.seq) else none)) = [] := by
  induction l with
  | nil => rfl
  | cons q l ih =>
    rw [List.filterMap_cons]
    by_cases h : q.hasCleanUp
    · rw [if_pos h]
      rw [firedSeqs_cons_cleanup]
      exact ih
    · rw [if_neg h]
      exact ih

theorem advanceWeaponAttacksM_events (st : QState) :
    (advanceWeaponAttacksM st).events = st.events := by
  unfold advanceWeaponAttacksM
  split <;> rfl

theorem advanceTasksM_events (st : QState) :
    (advanceTasksM st).events = st.events := by
  unfold advanceTasksM
  split <;> rfl

theorem qstep_events_prefix (st : QState) (op : QOp) :
    ∃ d, (qstep st op).events = st.events ++ d := by
  cases op with
  | add t p hc => exact ⟨[], (List.append_nil _).symm⟩
  | cancel i =>
    show ∃ d, (cancelPending st i).events = st.events ++ d
    unfold cancelPending
    cases st.queue.find? (fun pa => pa.seq == i) with
    | none => exact ⟨[], (List.append_nil _).symm⟩
    | some pa => exact ⟨_, rfl⟩
  | cleanup => exact ⟨_, rfl⟩
  | step =>
    show ∃ d, (stepOnce st).1.events = st.events ++ d
    unfold stepOnce
    cases st.queue.getLast? with
    | none => exact ⟨[], (List.append_nil _).symm⟩
    | some pa =>
      dsimp only
      split
      · split
        · exact ⟨[], (List.append_nil _).symm⟩
        · exact ⟨[], by rw [advanceWeaponAttacksM_events]; exact (List.append_nil _).symm⟩
      · split
        · split
          · exact ⟨[], (List.append_nil _).symm⟩
          · exact ⟨[], by rw [advanceTasksM_events]; exact (List.append_nil _).symm⟩
        · split
          · exact ⟨[], (List.append_nil _).symm⟩
          · split
            · exact ⟨[], (List.append_nil _).symm⟩
            · split
              · exact ⟨[QEvent.fired pa.seq], rfl⟩
              · exact ⟨[QEvent.fired pa.seq], rfl⟩

theorem runQFrom_events_prefix (ops : List QOp) :
    ∀ st : QState, ∃ d, (runQFrom st ops).events = st.events ++ d := by
  induction ops with
  | nil => exact fun st => ⟨[], (List.append_nil _).symm⟩
  | cons op ops ih =>
    intro st
    obtain ⟨d1, h1⟩ := qstep_events_prefix st op
    obtain ⟨d2, h2⟩ := ih (qstep st op)
    refine ⟨d1 ++ d2, ?_⟩
    rw [show runQFrom st (op :: ops) = runQFrom (qstep st op) ops from rfl, h2, h1,
      List.append_assoc]

theorem futureEvents_cons (st : QState) (op : QOp) (ops : List QOp) :
    futureEvents st (op :: ops) =
      ((qstep st op).events.drop st.events.length) ++ futureEvents (qstep st op) ops := by
  unfold futureEvents
  rw [show runQFrom st (op :: ops) = runQFrom (qstep st op) ops from rfl]
  obtain ⟨d1, h1⟩ := qstep_events_prefix st op
  obtain ⟨d2, h2⟩ := runQFrom_events_prefix ops (qstep st op)
  rw [h2, h1, List.drop_left, List.drop_left, List.append_assoc, List.drop_left]

theorem futureEvents_nil (st : QState) : futureEvents st [] = [] := by
  unfold futureEvents runQFrom
  rw [List.foldl_nil, List.drop_length]

theorem insertPendingAux_split (pa : PendingAction) (l : List PendingAction) :
    ∃ u v, l = u ++ v ∧ insertPendingAux pa l = u ++ pa :: v := by
  induction l with
  | nil => exact ⟨[], [], rfl, rfl⟩
  | cons w rest ih =>
    unfold insertPendingAux
    split
    · exact ⟨[], w :: rest, rfl, rfl⟩
    · obtain ⟨u, v, h1, h2⟩ := ih
      exact ⟨w :: u, v, by simp [h1], by rw [h2]; rfl⟩

theorem insertPendingAux_mem {pa x : PendingAction} {l : List PendingAction} :
    x ∈ insertPendingAux pa l ↔ x = pa ∨ x ∈ l := by
  obtain ⟨u, v, h1, h2⟩ := insertPendingAux_split pa l
  rw [h2, h1]
  simp only [List.mem_append, List.mem_cons]
  tauto

theorem insertPendingAux_pairwise {pa : PendingAction} {l : List PendingAction}
    (hs : ∀ v ∈ l, v.seq < pa.seq)
    (hp : l.Pairwise (fun u v => keyLt (pakey v) (pakey u))) :
    (insertPendingAux pa l).Pairwise (fun u v => keyLt (pakey v) (pakey u)) := by
  induction l with
  | nil => exact List.pairwise_singleton _ _
  | cons w rest ih =>
    rw [List.pairwise_cons] at hp
    obtain ⟨hw, hrest⟩ := hp
    unfold insertPendingAux
    split
    · rename_i hcond
      have hwpa : keyLt (pakey w) (pakey pa) := by
        have hsw := hs w (List.mem_cons_self w rest)
        unfold keyLt pakey
        dsimp only
        omega
      refine List.Pairwise.cons ?_ (List.Pairwise.cons hw hrest)
      intro z hz
      cases List.mem_cons.mp hz with
      | inl he => exact he ▸ hwpa
      | inr hz' => exact keyLt_trans (hw z hz') hwpa
    · rename_i hcond
      refine List.Pairwise.cons ?_ (ih (fun v hv => hs v (List.mem_cons_of_mem w hv)) hrest)
      intro z hz
      rw [insertPendingAux_mem] at hz
      cases hz with
      | inl he =>
        subst he
        unfold keyLt pakey
        dsimp only
        omega
      | inr hz' => exact hw z hz'

theorem pair_sublist_of_get? {α} {l : List α} {i j : Nat} {u v : α}
    (hij : i < j) (hu : l.get? i = some u) (hv : l.get? j = some v) :
    [u, v].Sublist l := by
  induction l generalizing i j with
  | nil => exact absurd hu (by simp)
  | cons h tl ih =>
    cases i with
    | zero =>
      obtain rfl := Option.some.inj hu
      cases j with
      | zero => omega
      | succ j =>
        have hvm : v ∈ tl := List.get?_mem hv
        exact List.Sublist.cons₂ h (List.singleton_sublist.mpr hvm)
    | succ i =>
      cases j with
      | zero => omega
      | succ j => exact List.Sublist.cons h (ih (by omega) hu hv)

theorem sublist_pair_seq_ne {x y : PendingAction} {l : List PendingAction}
    (hs : [x, y].Sublist l) (hnd : (l.map (fun pa => pa.seq)).Nodup) :
    x.seq ≠ y.seq := by
  have hnd2 := hnd.sublist (hs.map (fun pa => pa.seq))
  simp only [List.map_cons, List.map_nil, List.nodup_cons, List.mem_singleton,
    List.not_mem_nil, not_false_iff, and_true] at hnd2
  exact hnd2.1

theorem mem_seq_eq {x y : PendingAction} {l : List PendingAction}
    (hx : x ∈ l) (hy : y ∈ l) (hnd : (l.map (fun pa => pa.seq)).Nodup)
    (he : x.seq = y.seq) : x = y := by
  induction l with
  | nil => cases hx
  | cons w rest ih =>
    rw [List.map_cons, List.nodup_cons] at hnd
    cases List.mem_cons.mp hx with
    | inl hxw =>
      cases List.mem_cons.mp hy with
      | inl hyw => rw [hxw, hyw]
      | inr hyr =>
        exfalso
        apply hnd.1
        rw [← hxw, he]
        exact List.mem_map_of_mem (fun pa => pa.seq) hyr
    | inr hxr =>
      cases List.mem_cons.mp hy with
      | inl hyw =>
        exfalso
        apply hnd.1
        rw [← hyw, ← he]
        exact List.mem_map_of_mem (fun pa => pa.seq) hxr
      | inr hyr => exact ih hxr hyr hnd.2

theorem getLast?_decomp {α} {l : List α} {a : α} (h : l.getLast? = some a) :
    l = l.dropLast ++ [a] := by
  induction l with
  | nil => exact Option.noConfusion h
  | cons x tl ih =>
    cases tl with
    | nil =>
      have h2 : (some x : Option α) = some a := h
      rw [← Option.some.inj h2]
      rfl
    | cons y tl2 =>
      have h2 : (y :: tl2).getLast? = some a := h
      calc x :: y :: tl2 = x :: ((y :: tl2).dropLast ++ [a]) := by rw [← ih h2]
        _ = (x :: y :: tl2).dropLast ++ [a] := rfl

theorem cancelPending_projs (st : QState) (i : Nat) :
    (cancelPending st i).nextSeq = st.nextSeq ∧
    (cancelPending st i).minWeaponAttackTime = st.minWeaponAttackTime ∧
    (cancelPending st i).minTaskTime = st.minTaskTime := by
  unfold cancelPending
  cases st.queue.find? (fun pa => pa.seq == i) with
  | none => exact ⟨rfl, rfl, rfl⟩
  | some pa => exact ⟨rfl, rfl, rfl⟩

theorem cancelPending_events (st : QState) (i : Nat) :
    ∃ d, (cancelPending st i).events = st.events ++ d ∧ firedSeqs d = [] := by
  unfold cancelPending
  cases st.queue.find? (fun pa => pa.seq == i) with
  | none => exact ⟨[], (List.append_nil _).symm, rfl⟩
  | some pa =>
    refine ⟨(cancelPA pa).2, rfl, ?_⟩
    unfold cancelPA
    split
    · rfl
    · dsimp only
      split
      · rfl
      · rfl

theorem cancelPending_queue (st : QState) (i : Nat)
    (hnd : (st.queue.map (fun pa => pa.seq)).Nodup) :
    ∃ f : PendingAction → PendingAction,
      (cancelPending st i).queue = st.queue.map f ∧
      ∀ q ∈ st.queue, (f q).seq = q.seq ∧ pakey (f q) = pakey q ∧
        (f q).nextActionAt = q.nextActionAt ∧ ((f q).cancelled = false → f q = q) := by
  unfold cancelPending
  cases hf : st.queue.find? (fun pa => pa.seq == i) with
  | none =>
    exact ⟨fun q => q, (List.map_id _).symm, fun q _ => ⟨rfl, rfl, rfl, fun _ => rfl⟩⟩
  | some pa =>
    dsimp only
    refine ⟨fun q => if q.seq == i then (cancelPA pa).1 else q, rfl, ?_⟩
    intro q hq
    dsimp only
    by_cases hqi : (q.seq == i) = true
    · have hpa_mem := List.mem_of_find?_eq_some hf
      have hpa_seq := List.find?_some hf
      have hq_i : q.seq = i := by simpa using hqi
      have hpa_i : pa.seq = i := by simpa using hpa_seq
      have hq_pa : q = pa := mem_seq_eq hq hpa_mem hnd (hq_i.trans hpa_i.symm)
      rw [if_pos hqi, hq_pa]
      unfold cancelPA
      split
      · exact ⟨rfl, rfl, rfl, fun _ => rfl⟩
      · exact ⟨rfl, rfl, rfl,
          fun hc => Bool.noConfusion (show (true : Bool) = false from hc)⟩
    · rw [if_neg hqi]
      exact ⟨rfl, rfl, rfl, fun _ => rfl⟩

theorem cleanupPending_facts (st : QState) :
    (cleanupPending st).queue = st.queue ∧ (cleanupPending st).nextSeq = st.nextSeq ∧
    (cleanupPending st).minWeaponAttackTime = st.minWeaponAttackTime ∧
    (cleanupPending st).minTaskTime = st.minTaskTime ∧
    ∃ d, (cleanupPending st).events = st.events ++ d ∧ firedSeqs d = [] :=
  ⟨rfl, rfl, rfl, rfl, _, rfl, firedSeqs_cleanups _⟩

theorem advanceWeaponAttacksM_projs (st : QState) :
    (advanceWeaponAttacksM st).queue = st.queue ∧
    (advanceWeaponAttacksM st).nextSeq = st.nextSeq ∧
    (advanceWeaponAttacksM st).minWeaponAttackTime = NeverExpires ∧
    (advanceWeaponAttacksM st).minTaskTime = st.minTaskTime := by
  unfold advanceWeaponAttacksM
  split <;> exact ⟨rfl, rfl, rfl, rfl⟩

theorem advanceTasksM_projs (st : QState) :
    (advanceTasksM st).queue = st.queue ∧
    (advanceTasksM st).nextSeq = st.nextSeq ∧
    (advanceTasksM st).minWeaponAttackTime = st.minWeaponAttackTime ∧
    (advanceTasksM st).minTaskTime = NeverExpires := by
  unfold advanceTasksM
  split <;> exact ⟨rfl, rfl, rfl, rfl⟩

/-- Case analysis of one `Step` under the reachability invariant's minima:
either the state's queue and events are untouched (weapon/task/empty
branches), or the back action is popped — and only then, only when it is
not cancelled and combat continues, does exactly its `fired` event get
appended. -/
theorem stepOnce_cases (st : QState)
    (hw : st.minWeaponAttackTime = NeverExpires) (ht : st.minTaskTime = NeverExpires)
    (hsent : ∃ s q, st.queue = s :: q ∧ pakey s = pakey sentinelPendingAction) :
    ((stepOnce st).1.queue = st.queue ∧ (stepOnce st).1.events = st.events ∧
      (stepOnce st).1.nextSeq = st.nextSeq ∧
      (stepOnce st).1.minWeaponAttackTime = NeverExpires ∧
      (stepOnce st).1.minTaskTime = NeverExpires) ∨
    (∃ pa, st.queue = st.queue.dropLast ++ [pa] ∧ pa.nextActionAt < NeverExpires ∧
      (stepOnce st).1.queue = st.queue.dropLast ∧
      (stepOnce st).1.nextSeq = st.nextSeq ∧
      (stepOnce st).1.minWeaponAttackTime = NeverExpires ∧
      (stepOnce st).1.minTaskTime = NeverExpires ∧
      ((stepOnce st).1.events = st.events ∨
        (pa.cancelled = false ∧
          (stepOnce st).1.events = st.events ++ [QEvent.fired pa.seq]))) := by
  obtain ⟨s, q, hq, hkey⟩ := hsent
  unfold stepOnce
  cases hlast : st.queue.getLast? with
  | none =>
    rw [hq, List.getLast?_eq_get?] at hlast
    obtain ⟨z, hz⟩ := get?_some_of_lt (l := s :: q) (n := (s :: q).length - 1)
      (by rw [List.length_cons]; omega)
    rw [hz] at hlast
    exact Option.noConfusion hlast
  | some pa =>
    dsimp only
    rw [hw, ht]
    by_cases hdue : pa.nextActionAt < NeverExpires
    · rw [if_neg (by omega)]
      rw [if_neg (by omega)]
      have hdecomp : st.queue = st.queue.dropLast ++ [pa] := getLast?_decomp hlast
      refine Or.inr ⟨pa, hdecomp, hdue, ?_⟩
      by_cases hcanc : pa.cancelled = true
      · rw [if_pos hcanc]
        exact ⟨rfl, rfl, rfl, rfl, Or.inl rfl⟩
      · rw [if_neg hcanc, if_neg hcanc]
        split
        · exact ⟨rfl, rfl, rfl, rfl, Or.inl rfl⟩
        · split
          · exact ⟨rfl, rfl, rfl, rfl, Or.inr ⟨by simpa using hcanc, rfl⟩⟩
          · exact ⟨rfl, rfl, rfl, rfl, Or.inr ⟨by simpa using hcanc, rfl⟩⟩
    · rw [if_pos ⟨by omega, le_refl _⟩]
      split
      · exact Or.inl ⟨rfl, rfl, rfl, hw, ht⟩
      · obtain ⟨h1, h2, h3, h4⟩ := advanceWeaponAttacksM_projs st
        exact Or.inl ⟨h1, advanceWeaponAttacksM_events st, h2, h3, by rw [h4]; exact ht⟩

theorem map_seq_map {l : List PendingAction} {f : PendingAction → PendingAction}
    (h : ∀ q ∈ l, (f q).seq = q.seq) :
    (l.map f).map (fun pa => pa.seq) = l.map (fun pa => pa.seq) := by
  induction l with
  | nil => rfl
  | cons w rest ih =>
    rw [List.map_cons, List.map_cons, List.map_cons, h w (List.mem_cons_self w rest),
      ih (fun q hq => h q (List.mem_cons_of_mem w hq))]

theorem qinv_init (dur : Int) : QInv (initQState dur) := by
  refine ⟨rfl, rfl, ⟨sentinelPendingAction, [], rfl, rfl⟩, le_refl 1, ?_, ?_, ?_⟩
  · intro pa hpa
    rw [show (initQState dur).queue = [sentinelPendingAction] from rfl,
      List.mem_singleton] at hpa
    rw [hpa]
    exact Nat.zero_lt_one
  · exact List.nodup_singleton _
  · exact List.Pairwise.nil

theorem qinv_qstep (st : QState) (op : QOp) (h : QInv st) : QInv (qstep st op) := by
  obtain ⟨hw, ht, ⟨s, q, hq, hkey⟩, h1, hbound, hnd, hsort⟩ := h
  have hsq : s.seq = 0 := congrArg (fun p => p.2.2) hkey
  have hst : s.nextActionAt = NeverExpires := congrArg (fun p => p.1) hkey
  cases op with
  | add t p hc =>
    have hqueue : (qstep st (.add t p hc)).queue =
        s :: insertPendingAux
          { nextActionAt := t, priority := p, seq := st.nextSeq,
            cancelled := false, hasCleanUp := hc } q := by
      show addPendingAction st.queue _ = _
      rw [hq]
      rfl
    have hsortq : q.Pairwise (fun u v => keyLt (pakey v) (pakey u)) := by
      have := hsort
      rw [hq] at this
      exact this
    have hqbound : ∀ v ∈ q, v.seq < st.nextSeq :=
      fun v hv => hbound v (by rw [hq]; exact List.mem_cons_of_mem s hv)
    obtain ⟨u, v, hsplit, hins⟩ := insertPendingAux_split
      { nextActionAt := t, priority := p, seq := st.nextSeq,
        cancelled := false, hasCleanUp := hc } q
    refine ⟨hw, ht, ⟨s, _, hqueue, hkey⟩, by show 1 ≤ st.nextSeq + 1; omega, ?_, ?_, ?_⟩
    · intro pa hpa
      rw [hqueue] at hpa
      show pa.seq < st.nextSeq + 1
      cases List.mem_cons.mp hpa with
      | inl he =>
        have := hbound s (by rw [hq]; exact List.mem_cons_self s q)
        rw [he]
        omega
      | inr hins' =>
        cases insertPendingAux_mem.mp hins' with
        | inl he =>
          rw [he]
          show st.nextSeq < st.nextSeq + 1
          omega
        | inr hv => have := hqbound pa hv; omega
    · show ((qstep st (.add t p hc)).queue.map (fun pa => pa.seq)).Nodup
      rw [hqueue, hins, List.map_cons, List.map_append, List.map_cons]
      rw [List.nodup_cons]
      have hnd' : ((s :: q).map (fun pa => pa.seq)).Nodup := by rw [← hq]; exact hnd
      rw [List.map_cons, List.nodup_cons, hsplit, List.map_append] at hnd'
      constructor
      · intro hmem
        rcases List.mem_append.mp hmem with hmem1 | hmem2
        · exact hnd'.1 (List.mem_append.mpr (Or.inl hmem1))
        · rcases List.mem_cons.mp hmem2 with he | hmem3
          · rw [he] at hsq
            have hsq' : st.nextSeq = 0 := hsq
            omega
          · exact hnd'.1 (List.mem_append.mpr (Or.inr hmem3))
      · rw [List.nodup_middle, List.nodup_cons]
        refine ⟨?_, hnd'.2⟩
        intro hmem
        rw [← List.map_append, ← hsplit] at hmem
        obtain ⟨z, hz, hze⟩ := List.mem_map.mp hmem
        have := hqbound z hz
        dsimp only at hze
        have hze' : z.seq = st.nextSeq := hze
        omega
    · show ((qstep st (.add t p hc)).queue.tail).Pairwise _
      rw [hqueue]
      exact insertPendingAux_pairwise hqbound hsortq
  | cancel i =>
    obtain ⟨hns, hmw, hmt⟩ := cancelPending_projs st i
    obtain ⟨f, hfq, hf⟩ := cancelPending_queue st i hnd
    show QInv (cancelPending st i)
    refine ⟨hmw.trans hw, hmt.trans ht, ?_, ?_, ?_, ?_, ?_⟩
    · refine ⟨f s, q.map f, ?_, ?_⟩
      · rw [hfq, hq, List.map_cons]
      · rw [(hf s (by rw [hq]; exact List.mem_cons_self s q)).2.1, hkey]
    · rw [hns]
      exact h1
    · intro pa hpa
      rw [hfq] at hpa
      obtain ⟨z, hz, hze⟩ := List.mem_map.mp hpa
      rw [hns, ← hze, (hf z hz).1]
      exact hbound z hz
    · rw [hfq, map_seq_map (fun z hz => (hf z hz).1)]
      exact hnd
    · rw [hfq, hq, List.map_cons]
      show (q.map f).Pairwise _
      rw [List.pairwise_map]
      refine List.Pairwise.imp_of_mem ?_ (by rw [hq] at hsort; exact hsort)
      intro a b ha hb hab
      rw [(hf b (by rw [hq]; exact List.mem_cons_of_mem s hb)).2.1,
        (hf a (by rw [hq]; exact List.mem_cons_of_mem s ha)).2.1]
      exact hab
  | step =>
    show QInv (stepOnce st).1
    rcases stepOnce_cases st hw ht ⟨s, q, hq, hkey⟩ with
      ⟨hqe, _, hns, hmw, hmt⟩ | ⟨pa, hdecomp, hdue, hqe, hns, hmw, hmt, _⟩
    · refine ⟨hmw, hmt, ⟨s, q, by rw [hqe, hq], hkey⟩, by rw [hns]; exact h1, ?_, ?_, ?_⟩
      · intro pa hpa
        rw [hqe] at hpa
        rw [hns]
        exact hbound pa hpa
      · rw [hqe]
        exact hnd
      · rw [hqe]
        exact hsort
    · cases hqnil : q with
      | nil =>
        exfalso
        rw [hqnil] at hq
        rw [hq] at hdecomp
        have hspa : s = pa := by simpa using hdecomp
        rw [hspa] at hst
        omega
      | cons y tl =>
        refine ⟨hmw, hmt, ⟨s, (y :: tl).dropLast, ?_, hkey⟩,
          by rw [hns]; exact h1, ?_, ?_, ?_⟩
        · rw [hqe, hq, hqnil]
          rfl
        · intro z hz
          rw [hqe] at hz
          rw [hns]
          exact hbound z (List.dropLast_sublist st.queue |>.subset hz)
        · rw [hqe]
          exact hnd.sublist ((List.dropLast_sublist st.queue).map _)
        · rw [hqe, hq, hqnil]
          show ((y :: tl).dropLast).Pairwise _
          refine List.Pairwise.sublist (List.dropLast_sublist (y :: tl)) ?_
          rw [hq, hqnil] at hsort
          exact hsort
  | cleanup =>
    obtain ⟨hqe, hns, hmw, hmt, -⟩ := cleanupPending_facts st
    show QInv (cleanupPending st)
    refine ⟨hmw.trans hw, hmt.trans ht, ⟨s, q, by rw [hqe, hq], hkey⟩,
      by rw [hns]; exact h1, ?_, ?_, ?_⟩
    · intro pa hpa
      rw [hqe] at hpa
      rw [hns]
      exact hbound pa hpa
    · rw [hqe]
      exact hnd
    · rw [hqe]
      exact hsort

theorem qinv_runQFrom (ops : List QOp) :
    ∀ st : QState, QInv st → QInv (runQFrom st ops) := by
  induction ops with
  | nil => exact fun st h => h
  | cons op ops ih =>
    intro st h
    exact ih (qstep st op) (qinv_qstep st op h)

theorem qinv_runQ (dur : Int) (ops : List QOp) : QInv (runQ dur ops) :=
  qinv_runQFrom ops (initQState dur) (qinv_init dur)

theorem execBefore_append_left {l : List Nat} {i j : Nat} (A : List Nat)
    (h : ExecBefore l i j) : ExecBefore (A ++ l) i j := by
  obtain ⟨l1, l2, l3, he⟩ := h
  exact ⟨A ++ l1, l2, l3, by rw [he]; simp⟩

theorem pair_sublist_concat {α} {x y pa : α} {A : List α}
    (h : [x, y].Sublist (A ++ [pa])) :
    [x, y].Sublist A ∨ (y = pa ∧ x ∈ A) := by
  rw [List.sublist_append_iff] at h
  obtain ⟨r1, r2, heq, h1, h2⟩ := h
  cases r2 with
  | nil =>
    rw [List.append_nil] at heq
    exact Or.inl (by rw [heq]; exact h1)
  | cons b r2' =>
    have hlen := h2.length_le
    have hr2 : r2' = [] := by
      cases r2' with
      | nil => rfl
      | cons c r3 =>
        rw [List.length_cons, List.length_cons, List.length_singleton] at hlen
        omega
    subst hr2
    have hbpa : b = pa := by
      have := h2.subset (List.mem_singleton_self b)
      simpa using this
    subst hbpa
    cases r1 with
    | nil => simp at heq
    | cons a r1' =>
      cases r1' with
      | nil =>
        have hx : x = a ∧ y = b := by simpa using heq
        refine Or.inr ⟨hx.2, ?_⟩
        rw [hx.1]
        exact h1.subset (List.mem_singleton_self a)
      | cons c r3 =>
        exfalso
        have hL := congrArg List.length heq
        rw [List.length_cons, List.length_cons, List.length_append] at hL
        rw [List.length_cons, List.length_cons, List.length_singleton,
          List.length_nil] at hL
        omega

theorem seq_ne_last {x pa : PendingAction} {A : List PendingAction}
    (hnd : ((A ++ [pa]).map (fun q => q.seq)).Nodup) (hx : x ∈ A) :
    x.seq ≠ pa.seq := by
  rw [List.map_append, List.nodup_append] at hnd
  intro he
  exact hnd.2.2 (List.mem_map_of_mem _ hx)
    (by rw [he]; exact List.mem_singleton_self pa.seq)

theorem fired_future_source (ops : List QOp) :
    ∀ st : QState, QInv st → ∀ s : Nat,
    s ∈ firedSeqs (futureEvents st ops) →
    (∃ pa ∈ st.queue, pa.seq = s ∧ pa.cancelled = false ∧
      pa.nextActionAt < NeverExpires) ∨ st.nextSeq ≤ s := by
  induction ops with
  | nil =>
    intro st _ s hs
    rw [futureEvents_nil] at hs
    cases hs
  | cons op ops ih =>
    intro st hinv s hs
    rw [futureEvents_cons, firedSeqs_append] at hs
    obtain ⟨hw, ht, hsent, h1, hbound, hnd, hsort⟩ := hinv
    have hinv0 : QInv st := ⟨hw, ht, hsent, h1, hbound, hnd, hsort⟩
    have hinv' : QInv (qstep st op) := qinv_qstep st op hinv0
    rcases List.mem_append.mp hs with hsD | hsF
    · cases op with
      | add t p hc =>
        rw [show (qstep st (QOp.add t p hc)).events = st.events from rfl,
          List.drop_length] at hsD
        cases hsD
      | cancel i =>
        obtain ⟨d, hd, hdf⟩ := cancelPending_events st i
        rw [show (qstep st (QOp.cancel i)).events = (cancelPending st i).events from rfl,
          hd, List.drop_left, hdf] at hsD
        cases hsD
      | cleanup =>
        obtain ⟨-, -, -, -, d, hd, hdf⟩ := cleanupPending_facts st
        rw [show (qstep st QOp.cleanup).events = (cleanupPending st).events from rfl,
          hd, List.drop_left, hdf] at hsD
        cases hsD
      | step =>
        rcases stepOnce_cases st hw ht hsent with
          ⟨-, hev, -, -, -⟩ | ⟨pa, hdecomp, hdue, -, -, -, -, hev⟩
        · rw [show (qstep st QOp.step).events = (stepOnce st).1.events from rfl, hev,
            List.drop_length] at hsD
          cases hsD
        · rcases hev with hev | ⟨hcanc, hev⟩
          · rw [show (qstep st QOp.step).events = (stepOnce st).1.events from rfl, hev,
              List.drop_length] at hsD
            cases hsD
          · rw [show (qstep st QOp.step).events = (stepOnce st).1.events from rfl, hev,
              List.drop_left, firedSeqs_cons_fired] at hsD
            rw [show firedSeqs ([] : List QEvent) = [] from rfl] at hsD
            have hspa : s = pa.seq := by simpa using hsD
            refine Or.inl ⟨pa, ?_, hspa.symm, hcanc, hdue⟩
            rw [hdecomp]
            exact List.mem_append.mpr (Or.inr (List.mem_singleton_self pa))
    · rcases ih (qstep st op) hinv' s hsF with ⟨pa, hpa, hseq, hcanc, hdue⟩ | hge
      · cases op with
        | add t p hc =>
          obtain ⟨sh, qt, hqe, -⟩ := hsent
          rw [show (qstep st (QOp.add t p hc)).queue =
            addPendingAction st.queue
              { nextActionAt := t, priority := p, seq := st.nextSeq,
                cancelled := false, hasCleanUp := hc } from rfl, hqe] at hpa
          rw [show addPendingAction (sh :: qt)
              { nextActionAt := t, priority := p, seq := st.nextSeq,
                cancelled := false, hasCleanUp := hc } =
            sh :: insertPendingAux
              { nextActionAt := t, priority := p, seq := st.nextSeq,
                cancelled := false, hasCleanUp := hc } qt from rfl] at hpa
          rcases List.mem_cons.mp hpa with he | hins
          · exact Or.inl ⟨pa, by rw [hqe, he]; exact List.mem_cons_self sh qt,
              hseq, hcanc, hdue⟩
          · rcases insertPendingAux_mem.mp hins with he | hq2
            · right
              rw [← hseq, he]
            · exact Or.inl ⟨pa, by rw [hqe]; exact List.mem_cons_of_mem sh hq2,
                hseq, hcanc, hdue⟩
        | cancel i =>
          obtain ⟨f, hfq, hf⟩ := cancelPending_queue st i hnd
          rw [show (qstep st (QOp.cancel i)).queue = (cancelPending st i).queue from rfl,
            hfq] at hpa
          obtain ⟨z, hz, hze⟩ := List.mem_map.mp hpa
          obtain ⟨hfseq, hfkey, hfdue, hfcanc⟩ := hf z hz
          have hzz : f z = z := hfcanc (by rw [hze]; exact hcanc)
          rw [hzz] at hze
          exact Or.inl ⟨pa, hze ▸ hz, hseq, hcanc, hdue⟩
        | step =>
          rcases stepOnce_cases st hw ht hsent with
            ⟨hqe, -, -, -, -⟩ | ⟨pa2, hdecomp, -, hqe, -, -, -, -⟩
          · rw [show (qstep st QOp.step).queue = (stepOnce st).1.queue from rfl,
              hqe] at hpa
            exact Or.inl ⟨pa, hpa, hseq, hcanc, hdue⟩
          · rw [show (qstep st QOp.step).queue = (stepOnce st).1.queue from rfl,
              hqe] at hpa
            exact Or.inl ⟨pa, (List.dropLast_sublist st.queue).subset hpa,
              hseq, hcanc, hdue⟩
        | cleanup =>
          obtain ⟨hqe, -, -, -, -⟩ := cleanupPending_facts st
          rw [show (qstep st QOp.cleanup).queue = (cleanupPending st).queue from rfl,
            hqe] at hpa
          exact Or.inl ⟨pa, hpa, hseq, hcanc, hdue⟩
      · right
        cases op with
        | add t p hc =>
          have hge' : st.nextSeq + 1 ≤ s := hge
          omega
        | cancel i =>
          obtain ⟨hns, -, -⟩ := cancelPending_projs st i
          rw [show (qstep st (QOp.cancel i)).nextSeq = (cancelPending st i).nextSeq
            from rfl, hns] at hge
          exact hge
        | step =>
          rcases stepOnce_cases st hw ht hsent with
            ⟨-, -, hns, -, -⟩ | ⟨pa2, -, -, -, hns, -, -, -⟩
          · rw [show (qstep st QOp.step).nextSeq = (stepOnce st).1.nextSeq from rfl,
              hns] at hge
            exact hge
          · rw [show (qstep st QOp.step).nextSeq = (stepOnce st).1.nextSeq from rfl,
              hns] at hge
            exact hge
        | cleanup =>
          obtain ⟨-, hns, -, -, -⟩ := cleanupPending_facts st
          rw [show (qstep st QOp.cleanup).nextSeq = (cleanupPending st).nextSeq from rfl,
            hns] at hge
          exact hge

theorem addPendingAction_sublist {l : List PendingAction} {x y : PendingAction}
    (pa : PendingAction) (h : [x, y].Sublist l) :
    [x, y].Sublist (addPendingAction l pa) := by
  cases l with
  | nil =>
    rw [List.sublist_nil] at h
    cases h
  | cons sh qt =>
    obtain ⟨u, v, hsplit, hins⟩ := insertPendingAux_split pa qt
    show [x, y].Sublist (sh :: insertPendingAux pa qt)
    rw [hins]
    rw [hsplit] at h
    exact h.trans (List.Sublist.cons₂ sh
      (List.Sublist.append_left (List.sublist_cons_self pa v) u))

/-- Two actions pending together in the same queue fire back-to-front: the
one nearer the back of the slice (the next to pop) fires first, whenever
both fire at all in the continuation. -/
theorem fired_in_queue_order (ops : List QOp) :
    ∀ st : QState, QInv st → ∀ x y : PendingAction, [x, y].Sublist st.queue →
    x.seq ∈ firedSeqs (futureEvents st ops) →
    y.seq ∈ firedSeqs (futureEvents st ops) →
    ExecBefore (firedSeqs (futureEvents st ops)) y.seq x.seq := by
  induction ops with
  | nil =>
    intro st _ x y _ hfx _
    rw [futureEvents_nil] at hfx
    cases hfx
  | cons op ops ih =>
    intro st hinv x y hsub hfx hfy
    obtain ⟨hw, ht, hsent, h1, hbound, hnd, hsort⟩ := hinv
    have hinv0 : QInv st := ⟨hw, ht, hsent, h1, hbound, hnd, hsort⟩
    have hinv' : QInv (qstep st op) := qinv_qstep st op hinv0
    rw [futureEvents_cons, firedSeqs_append] at hfx hfy ⊢
    cases op with
    | add t p hc =>
      rw [show (qstep st (QOp.add t p hc)).events = st.events from rfl,
        List.drop_length,
        show firedSeqs ([] : List QEvent) = [] from rfl,
        List.nil_append] at hfx hfy ⊢
      have hsub' : [x, y].Sublist (qstep st (QOp.add t p hc)).queue :=
        addPendingAction_sublist _ hsub
      exact ih _ hinv' x y hsub' hfx hfy
    | cancel i =>
      obtain ⟨d, hd, hdf⟩ := cancelPending_events st i
      rw [show (qstep st (QOp.cancel i)).events = (cancelPending st i).events from rfl,
        hd, List.drop_left, hdf, List.nil_append] at hfx hfy ⊢
      obtain ⟨f, hfq, hf⟩ := cancelPending_queue st i hnd
      have hxm : x ∈ st.queue := hsub.subset (by simp)
      have hym : y ∈ st.queue := hsub.subset (by simp)
      have hsub' : [f x, f y].Sublist (qstep st (QOp.cancel i)).queue := by
        rw [show (qstep st (QOp.cancel i)).queue = (cancelPending st i).queue from rfl,
          hfq]
        exact hsub.map f
      have hfx' : (f x).seq ∈ firedSeqs (futureEvents (qstep st (QOp.cancel i)) ops) := by
        rw [(hf x hxm).1]
        exact hfx
      have hfy' : (f y).seq ∈ firedSeqs (futureEvents (qstep st (QOp.cancel i)) ops) := by
        rw [(hf y hym).1]
        exact hfy
      have hIH := ih _ hinv' (f x) (f y) hsub' hfx' hfy'
      rw [(hf x hxm).1, (hf y hym).1] at hIH
      exact hIH
    | cleanup =>
      obtain ⟨hqe, -, -, -, d, hd, hdf⟩ := cleanupPending_facts st
      rw [show (qstep st QOp.cleanup).events = (cleanupPending st).events from rfl,
        hd, List.drop_left, hdf, List.nil_append] at hfx hfy ⊢
      have hsub' : [x, y].Sublist (qstep st QOp.cleanup).queue := by
        rw [show (qstep st QOp.cleanup).queue = (cleanupPending st).queue from rfl, hqe]
        exact hsub
      exact ih _ hinv' x y hsub' hfx hfy
    | step =>
      rcases stepOnce_cases st hw ht hsent with
        ⟨hqe, hev, -, -, -⟩ | ⟨pa, hdecomp, hdue, hqe, hns, -, -, hevd⟩
      · rw [show (qstep st QOp.step).events = (stepOnce st).1.events from rfl, hev,
          List.drop_length,
          show firedSeqs ([] : List QEvent) = [] from rfl,
          List.nil_append] at hfx hfy ⊢
        have hsub' : [x, y].Sublist (qstep st QOp.step).queue := by
          rw [show (qstep st QOp.step).queue = (stepOnce st).1.queue from rfl, hqe]
          exact hsub
        exact ih _ hinv' x y hsub' hfx hfy
      · have hsub2 : [x, y].Sublist (st.queue.dropLast ++ [pa]) := by
          rw [← hdecomp]
          exact hsub
        have hndQ : ((st.queue.dropLast ++ [pa]).map (fun q => q.seq)).Nodup := by
          rw [← hdecomp]
          exact hnd
        rcases hevd with hev | ⟨hcanc, hev⟩
        · rw [show (qstep st QOp.step).events = (stepOnce st).1.events from rfl, hev,
            List.drop_length,
            show firedSeqs ([] : List QEvent) = [] from rfl,
            List.nil_append] at hfx hfy ⊢
          rcases pair_sublist_concat hsub2 with hsubA | ⟨hypa, hxA⟩
          · have hsub' : [x, y].Sublist (qstep st QOp.step).queue := by
              rw [show (qstep st QOp.step).queue = (stepOnce st).1.queue from rfl, hqe]
              exact hsubA
            exact ih _ hinv' x y hsub' hfx hfy
          · exfalso
            rcases fired_future_source ops (qstep st QOp.step) hinv' y.seq hfy with
              ⟨z, hz, hzseq, -, -⟩ | hge
            · rw [show (qstep st QOp.step).queue = (stepOnce st).1.queue from rfl,
                hqe] at hz
              have hne := seq_ne_last hndQ hz
              rw [hzseq, hypa] at hne
              exact hne rfl
            · rw [show (qstep st QOp.step).nextSeq = (stepOnce st).1.nextSeq from rfl,
                hns] at hge
              have := hbound y (hsub.subset (by simp))
              omega
        · rw [show (qstep st QOp.step).events = (stepOnce st).1.events from rfl, hev,
            List.drop_left, firedSeqs_cons_fired,
            show firedSeqs ([] : List QEvent) = [] from rfl,
            List.singleton_append] at hfx hfy ⊢
          rcases pair_sublist_concat hsub2 with hsubA | ⟨hypa, hxA⟩
          · have hxs : x.seq ≠ pa.seq := seq_ne_last hndQ (hsubA.subset (by simp))
            have hys : y.seq ≠ pa.seq := seq_ne_last hndQ (hsubA.subset (by simp))
            have hfx' : x.seq ∈ firedSeqs (futureEvents (qstep st QOp.step) ops) := by
              rcases List.mem_cons.mp hfx with he | h2
              · exact absurd he hxs
              · exact h2
            have hfy' : y.seq ∈ firedSeqs (futureEvents (qstep st QOp.step) ops) := by
              rcases List.mem_cons.mp hfy with he | h2
              · exact absurd he hys
              · exact h2
            have hsub' : [x, y].Sublist (qstep st QOp.step).queue := by
              rw [show (qstep st QOp.step).queue = (stepOnce st).1.queue from rfl, hqe]
              exact hsubA
            obtain ⟨l1, l2, l3, hle⟩ := ih _ hinv' x y hsub' hfx' hfy'
            exact ⟨pa.seq :: l1, l2, l3, by rw [hle]; rfl⟩
          · have hxs : x.seq ≠ pa.seq := seq_ne_last hndQ hxA
            have hfx' : x.seq ∈ firedSeqs (futureEvents (qstep st QOp.step) ops) := by
              rcases List.mem_cons.mp hfx with he | h2
              · exact absurd he hxs
              · exact h2
            obtain ⟨l2, l3, hsplit2⟩ := List.append_of_mem hfx'
            rw [hypa]
            exact ⟨[], l2, l3, by rw [hsplit2]; rfl⟩

/-- C1 (amended): among actions pending in the queue at the same time, any
two that both fire do so in execution-key order — ascending due time, then
descending priority, then insertion order.  The claim's unconditional
due-time ordering across a whole iteration is false
(`c1_due_order_counterexample`): `AddPendingAction`'s guard against
scheduling in the past is commented out, so an action scheduled after a
later-due action has already fired still fires, out of global due order. -/
theorem c1_pending_fire_in_key_order (dur : Int) (ops1 ops2 : List QOp)
    (a b : PendingAction)
    (ha : a ∈ (runQ dur ops1).queue) (hb : b ∈ (runQ dur ops1).queue)
    (hk : keyLt (pakey a) (pakey b))
    (hfa : a.seq ∈ firedSeqs (futureEvents (runQ dur ops1) ops2))
    (hfb : b.seq ∈ firedSeqs (futureEvents (runQ dur ops1) ops2)) :
    ExecBefore (firedSeqs (futureEvents (runQ dur ops1) ops2)) a.seq b.seq := by
  obtain ⟨hw, ht, ⟨s, q, hq, hkey⟩, h1, hbound, hnd, hsort⟩ := qinv_runQ dur ops1
  have hinv0 : QInv (runQ dur ops1) := ⟨hw, ht, ⟨s, q, hq, hkey⟩, h1, hbound, hnd, hsort⟩
  have hsNE : s.nextActionAt = NeverExpires := congrArg (fun p => p.1) hkey
  have hdue : ∀ c : PendingAction, c ∈ (runQ dur ops1).queue →
      c.seq ∈ firedSeqs (futureEvents (runQ dur ops1) ops2) →
      c.nextActionAt < NeverExpires := by
    intro c hc hfc
    rcases fired_future_source ops2 (runQ dur ops1) hinv0 c.seq hfc with
      ⟨z, hz, hzseq, -, hzdue⟩ | hge
    · rw [mem_seq_eq hc hz hnd hzseq.symm]
      exact hzdue
    · exact absurd (hbound c hc) (by omega)
  have haq : a ∈ q := by
    have ha' := ha
    rw [hq] at ha'
    rcases List.mem_cons.mp ha' with he | h2
    · exfalso
      have hd := hdue a ha hfa
      rw [he, hsNE] at hd
      omega
    · exact h2
  have hbq : b ∈ q := by
    have hb' := hb
    rw [hq] at hb'
    rcases List.mem_cons.mp hb' with he | h2
    · exfalso
      have hd := hdue b hb hfb
      rw [he, hsNE] at hd
      omega
    · exact h2
  have hsortq : q.Pairwise (fun u v => keyLt (pakey v) (pakey u)) := by
    rw [hq] at hsort
    exact hsort
  obtain ⟨ia, hia⟩ := List.mem_iff_get?.mp haq
  obtain ⟨ib, hib⟩ := List.mem_iff_get?.mp hbq
  have hialt : ia < q.length := get?_some_lt hia
  have hiblt : ib < q.length := get?_some_lt hib
  have hne : pakey a ≠ pakey b := fun he => keyLt_irrefl (pakey a) (by
    have := hk
    rw [he] at this
    rw [he]
    exact this)
  rcases Nat.lt_trichotomy ia ib with hlt | heq | hgt
  · exfalso
    have hR := List.pairwise_iff_get.mp hsortq ⟨ia, hialt⟩ ⟨ib, hiblt⟩ hlt
    rw [show q.get ⟨ia, hialt⟩ = a from
        Option.some.inj ((List.get?_eq_get hialt).symm.trans hia),
      show q.get ⟨ib, hiblt⟩ = b from
        Option.some.inj ((List.get?_eq_get hiblt).symm.trans hib)] at hR
    exact keyLt_asymm hk hR
  · exfalso
    apply hne
    rw [heq] at hia
    rw [Option.some.inj (hia.symm.trans hib)]
  · have hsub : [b, a].Sublist (runQ dur ops1).queue := by
      rw [hq]
      exact (pair_sublist_of_get? hgt hib hia).trans (List.sublist_cons_self s q)
    exact fired_in_queue_order ops2 (runQ dur ops1) hinv0 b a hsub hfb hfa

/-- Counterexample to C1 as stated: with the past-due guard commented out
in `AddPendingAction`, an action due at t=10 that is scheduled and fired
first is followed by an action due at t=5 scheduled afterwards — the
fired order [1, 2] pairs the seq-1 action (due 10) before the seq-2
action (due 5), so due times do not fire in nondecreasing order across
the iteration. -/
theorem c1_due_order_counterexample : ¬ FiredInDueOrder := by
  intro h
  have hexec : ExecBefore (firedSeqs (runQ 100
      [QOp.add 10 0 false, QOp.step, QOp.add 5 0 false, QOp.step]).events) 1 2 :=
    ⟨[], [], [], by decide⟩
  have h2 := h 100 [QOp.add 10 0 false, QOp.step, QOp.add 5 0 false, QOp.step]
    1 2 10 5 rfl rfl hexec
  omega

/-- Concrete run of the amended C1: two actions due at the same instant
with priorities 1 and 0 are pending together; the higher-priority one
(seq 1) fires before the lower-priority one (seq 2). -/
theorem c1_pending_fire_in_key_order_witness :
    ExecBefore (firedSeqs (futureEvents
      (runQ 100 [QOp.add 5 1 false, QOp.add 5 0 false]) [QOp.step, QOp.step]))
      1 2 :=
  c1_pending_fire_in_key_order 100 [QOp.add 5 1 false, QOp.add 5 0 false]
    [QOp.step, QOp.step]
    { nextActionAt := 5
      priority := 1
      seq := 1
      cancelled := false
      hasCleanUp := false }
    { nextActionAt := 5
      priority := 0
      seq := 2
      cancelled := false
      hasCleanUp := false }
    (by decide) (by decide) (by decide) (by decide) (by decide)

theorem fired_mem_firedSeqs {s : Nat} {l : List QEvent} (h : QEvent.fired s ∈ l) :
    s ∈ firedSeqs l :=
  List.mem_filterMap.mpr ⟨QEvent.fired s, h, rfl⟩

theorem addPendingAction_mem {l : List PendingAction} {pa z : PendingAction}
    (h : z ∈ addPendingAction l pa) : z = pa ∨ z ∈ l := by
  cases l with
  | nil =>
    rw [show addPendingAction ([] : List PendingAction) pa = [pa] from rfl] at h
    exact Or.inl (by simpa using h)
  | cons sh qt =>
    rw [show addPendingAction (sh :: qt) pa = sh :: insertPendingAux pa qt from rfl] at h
    rcases List.mem_cons.mp h with he | h2
    · exact Or.inr (by rw [he]; exact List.mem_cons_self sh qt)
    · rcases insertPendingAux_mem.mp h2 with he | h3
      · exact Or.inl he
      · exact Or.inr (List.mem_cons_of_mem sh h3)

/-- Full characterization of `Cancel` through a handle located by sequence
number: the queue is rewritten in place with sequence numbers kept, an
entry stays untouched unless it is the cancelled one, and exactly one
cleanup event is appended — precisely when the located action still has
its cleanup hook and was not already cancelled. -/
theorem cancelPending_spec (st : QState) (i : Nat)
    (hnd : (st.queue.map (fun q => q.seq)).Nodup) :
    ∃ f : PendingAction → PendingAction,
      (cancelPending st i).queue = st.queue.map f ∧
      (∀ q ∈ st.queue, (f q).seq = q.seq ∧
        ((f q).cancelled = false → f q = q) ∧
        ((f q).hasCleanUp = true → f q = q)) ∧
      (((cancelPending st i).events = st.events ∧
          (∀ z ∈ st.queue, z.seq = i → z.cancelled = true ∨ z.hasCleanUp = false)) ∨
        ∃ z ∈ st.queue, z.hasCleanUp = true ∧ z.cancelled = false ∧ z.seq = i ∧
          (f z).cancelled = true ∧
          (cancelPending st i).events = st.events ++ [QEvent.cleanup z.seq]) := by
  unfold cancelPending
  cases hf : st.queue.find? (fun pa => pa.seq == i) with
  | none =>
    refine ⟨fun q => q, (List.map_id _).symm,
      fun q _ => ⟨rfl, fun _ => rfl, fun _ => rfl⟩, Or.inl ⟨rfl, ?_⟩⟩
    intro z hz hzi
    have := List.find?_eq_none.mp hf z hz
    exact absurd (by simpa using hzi) this
  | some z =>
    dsimp only
    have hzmem := List.mem_of_find?_eq_some hf
    have hzseq := List.find?_some hf
    have hzi : z.seq = i := by simpa using hzseq
    refine ⟨fun q => if q.seq == i then (cancelPA z).1 else q, rfl, ?_, ?_⟩
    · intro q hq
      dsimp only
      by_cases hqi : (q.seq == i) = true
      · have hq_i : q.seq = i := by simpa using hqi
        have hq_z : q = z := mem_seq_eq hq hzmem hnd (hq_i.trans hzi.symm)
        rw [if_pos hqi, hq_z]
        unfold cancelPA
        split
        · exact ⟨rfl, fun _ => rfl, fun _ => rfl⟩
        · refine ⟨rfl, ?_, ?_⟩
          · intro hc
            exact absurd hc (by simp)
          · intro hc
            exact absurd hc (by simp)
      · rw [if_neg hqi]
        exact ⟨rfl, fun _ => rfl, fun _ => rfl⟩
    · by_cases hzc : z.cancelled = true
      · left
        constructor
        · rw [show (cancelPA z).2 = [] from by unfold cancelPA; rw [if_pos hzc],
            List.append_nil]
        · intro w hw hwi
          rw [mem_seq_eq hw hzmem hnd (hwi.trans hzi.symm)]
          exact Or.inl hzc
      · by_cases hzu : z.hasCleanUp = true
        · right
          refine ⟨z, hzmem, hzu, by simpa using hzc, hzi, ?_, ?_⟩
          · show (if (z.seq == i) = true then (cancelPA z).1 else z).cancelled = true
            rw [if_pos (show (z.seq == i) = true by simpa using hzi)]
            unfold cancelPA
            rw [if_neg hzc]
          · rw [show (cancelPA z).2 = [QEvent.cleanup z.seq] from by
              unfold cancelPA; rw [if_neg hzc]; dsimp only; rw [if_pos hzu]]
        · left
          constructor
          · rw [show (cancelPA z).2 = [] from by
              unfold cancelPA; rw [if_neg hzc]; dsimp only; rw [if_neg hzu],
              List.append_nil]
          · intro w hw hwi
            rw [mem_seq_eq hw hzmem hnd (hwi.trans hzi.symm)]
            exact Or.inr (by simpa using hzu)

/-- Cancelling a queued, uncancelled action that still holds its cleanup
hook: exactly one cleanup event is appended, and afterwards the (unique)
entry with that sequence number is marked cancelled with its hook slot
cleared. -/
theorem cancelPending_hit {st : QState} {pa : PendingAction}
    (hnd : (st.queue.map (fun q => q.seq)).Nodup)
    (hpa : pa ∈ st.queue) (hcanc : pa.cancelled = false)
    (hclean : pa.hasCleanUp = true) :
    (cancelPending st pa.seq).events = st.events ++ [QEvent.cleanup pa.seq] ∧
    (∀ z ∈ (cancelPending st pa.seq).queue, z.seq = pa.seq →
      z.hasCleanUp = false ∧ z.cancelled = true) := by
  obtain ⟨f, hfq, hfprops, hev⟩ := cancelPending_spec st pa.seq hnd
  rcases hev with ⟨-, hreason⟩ | ⟨z, hzmem, hzu, hzc, hzi, hfzc, hevE⟩
  · exfalso
    rcases hreason pa hpa rfl with hc | hc
    · rw [hcanc] at hc
      exact Bool.noConfusion hc
    · rw [hclean] at hc
      exact Bool.noConfusion hc
  · have hzpa : z = pa := mem_seq_eq hzmem hpa hnd hzi
    subst hzpa
    refine ⟨hevE, ?_⟩
    intro w hw hws
    rw [hfq] at hw
    obtain ⟨q, hqm, hqe⟩ := List.mem_map.mp hw
    obtain ⟨hfseq, hfcanc, hfclean⟩ := hfprops q hqm
    have hqseq : q.seq = z.seq := by
      rw [← hws, ← hqe, hfseq]
    have hqz : q = z := mem_seq_eq hqm hzmem hnd hqseq
    subst hqz
    constructor
    · by_cases hfu : (f q).hasCleanUp = true
      · exfalso
        have hfix := hfclean hfu
        rw [hfix] at hfzc
        rw [hzc] at hfzc
        exact Bool.noConfusion hfzc
      · rw [← hqe]
        simpa using hfu
    · rw [← hqe]
      exact hfzc

theorem evinv_init (dur : Int) : EvInv (initQState dur) := by
  refine ⟨?_, ?_, ?_⟩
  · intro s hs
    rcases hs with h | h
    · exact absurd h (List.not_mem_nil _)
    · exact absurd h (List.not_mem_nil _)
  · intro z _
    exact List.not_mem_nil _
  · intro z _ _
    exact List.not_mem_nil _

theorem evinv_qstep (st : QState) (op : QOp) (hop : op ≠ QOp.cleanup)
    (hq : QInv st) (h : EvInv st) : EvInv (qstep st op) := by
  obtain ⟨hw, ht, hsent, h1, hbound, hnd, hsort⟩ := hq
  obtain ⟨hbnd, hfir, hcle⟩ := h
  cases op with
  | add t p hc =>
    refine ⟨?_, ?_, ?_⟩
    · intro s hs
      have hs' : s < st.nextSeq := hbnd s hs
      show s < st.nextSeq + 1
      omega
    · intro z hz
      rcases addPendingAction_mem hz with he | hzm
      · intro hmem
        have hlt := hbnd z.seq (Or.inl hmem)
        rw [he] at hlt
        have h2 : st.nextSeq < st.nextSeq := hlt
        omega
      · exact hfir z hzm
    · intro z hz hzc
      rcases addPendingAction_mem hz with he | hzm
      · intro hmem
        have hlt := hbnd z.seq (Or.inr hmem)
        rw [he] at hlt
        have h2 : st.nextSeq < st.nextSeq := hlt
        omega
      · exact hcle z hzm hzc
  | cancel i =>
    obtain ⟨f, hfq, hfprops, hev⟩ := cancelPending_spec st i hnd
    obtain ⟨hns, -, -⟩ := cancelPending_projs st i
    have hevq : (qstep st (QOp.cancel i)).events = (cancelPending st i).events := rfl
    have hqq : (qstep st (QOp.cancel i)).queue = (cancelPending st i).queue := rfl
    refine ⟨?_, ?_, ?_⟩
    · intro s hs
      rw [show (qstep st (QOp.cancel i)).nextSeq = (cancelPending st i).nextSeq from rfl,
        hns]
      rcases hev with ⟨hevE, -⟩ | ⟨z, hzmem, -, -, -, -, hevE⟩
      · rw [hevq, hevE] at hs
        exact hbnd s hs
      · rw [hevq, hevE] at hs
        rcases hs with hs | hs
        · rcases List.mem_append.mp hs with h2 | h2
          · exact hbnd s (Or.inl h2)
          · rw [List.mem_singleton] at h2
            exact QEvent.noConfusion h2
        · rcases List.mem_append.mp hs with h2 | h2
          · exact hbnd s (Or.inr h2)
          · rw [List.mem_singleton, QEvent.cleanup.injEq] at h2
            have := hbound z hzmem
            omega
    · intro z' hz'
      rw [hqq, hfq] at hz'
      obtain ⟨q, hqm, hqe⟩ := List.mem_map.mp hz'
      obtain ⟨hfseq, -, -⟩ := hfprops q hqm
      intro hmem
      rw [hevq] at hmem
      rw [← hqe, hfseq] at hmem
      rcases hev with ⟨hevE, -⟩ | ⟨z, hzmem, -, -, -, -, hevE⟩
      · rw [hevE] at hmem
        exact hfir q hqm hmem
      · rw [hevE] at hmem
        rcases List.mem_append.mp hmem with h2 | h2
        · exact hfir q hqm h2
        · rw [List.mem_singleton] at h2
          exact QEvent.noConfusion h2
    · intro z' hz' hz'c
      rw [hqq, hfq] at hz'
      obtain ⟨q, hqm, hqe⟩ := List.mem_map.mp hz'
      obtain ⟨hfseq, hfcanc, hfclean⟩ := hfprops q hqm
      have hfix : f q = q := by
        apply hfcanc
        rw [hqe]
        exact hz'c
      have hz'q : z' = q := by
        rw [← hqe, hfix]
      intro hmem
      rw [hevq] at hmem
      rw [hz'q] at hmem
      have hqc : q.cancelled = false := by
        rw [← hz'q]
        exact hz'c
      rcases hev with ⟨hevE, -⟩ | ⟨z, hzmem, -, hzc, -, hfzc, hevE⟩
      · rw [hevE] at hmem
        exact hcle q hqm hqc hmem
      · rw [hevE] at hmem
        rcases List.mem_append.mp hmem with h2 | h2
        · exact hcle q hqm hqc h2
        · rw [List.mem_singleton, QEvent.cleanup.injEq] at h2
          have hqz : q = z := mem_seq_eq hqm hzmem hnd h2
          rw [hqz] at hfix
          rw [hfix] at hfzc
          rw [hzc] at hfzc
          exact Bool.noConfusion hfzc
  | step =>
    have hevq : (qstep st QOp.step).events = (stepOnce st).1.events := rfl
    have hqq : (qstep st QOp.step).queue = (stepOnce st).1.queue := rfl
    have hnsq : (qstep st QOp.step).nextSeq = (stepOnce st).1.nextSeq := rfl
    rcases stepOnce_cases st hw ht hsent with
      ⟨hqe, hev, hns, -, -⟩ | ⟨pa, hdecomp, -, hqe, hns, -, -, hevd⟩
    · refine ⟨?_, ?_, ?_⟩
      · intro s hs
        rw [hevq, hev] at hs
        rw [hnsq, hns]
        exact hbnd s hs
      · intro z hz
        rw [hqq, hqe] at hz
        rw [hevq, hev]
        exact hfir z hz
      · intro z hz hzc
        rw [hqq, hqe] at hz
        rw [hevq, hev]
        exact hcle z hz hzc
    · have hndQ : ((st.queue.dropLast ++ [pa]).map (fun q => q.seq)).Nodup := by
        rw [← hdecomp]
        exact hnd
      have hpamem : pa ∈ st.queue := by
        rw [hdecomp]
        exact List.mem_append.mpr (Or.inr (List.mem_singleton_self pa))
      rcases hevd with hev | ⟨-, hev⟩
      · refine ⟨?_, ?_, ?_⟩
        · intro s hs
          rw [hevq, hev] at hs
          rw [hnsq, hns]
          exact hbnd s hs
        · intro z hz
          rw [hqq, hqe] at hz
          rw [hevq, hev]
          exact hfir z ((List.dropLast_sublist st.queue).subset hz)
        · intro z hz hzc
          rw [hqq, hqe] at hz
          rw [hevq, hev]
          exact hcle z ((List.dropLast_sublist st.queue).subset hz) hzc
      · refine ⟨?_, ?_, ?_⟩
        · intro s hs
          rw [hevq, hev] at hs
          rw [hnsq, hns]
          rcases hs with hs | hs
          · rcases List.mem_append.mp hs with h2 | h2
            · exact hbnd s (Or.inl h2)
            · rw [List.mem_singleton, QEvent.fired.injEq] at h2
              have := hbound pa hpamem
              omega
          · rcases List.mem_append.mp hs with h2 | h2
            · exact hbnd s (Or.inr h2)
            · rw [List.mem_singleton] at h2
              exact QEvent.noConfusion h2
        · intro z hz
          rw [hqq, hqe] at hz
          rw [hevq, hev]
          intro hmem
          rcases List.mem_append.mp hmem with h2 | h2
          · exact hfir z ((List.dropLast_sublist st.queue).subset hz) h2
          · rw [List.mem_singleton, QEvent.fired.injEq] at h2
            exact seq_ne_last hndQ hz h2
        · intro z hz hzc
          rw [hqq, hqe] at hz
          rw [hevq, hev]
          intro hmem
          rcases List.mem_append.mp hmem with h2 | h2
          · exact hcle z ((List.dropLast_sublist st.queue).subset hz) hzc h2
          · rw [List.mem_singleton] at h2
            exact QEvent.noConfusion h2
  | cleanup => exact absurd rfl hop

theorem evinv_runQFrom (ops : List QOp) (hops : ∀ op ∈ ops, op ≠ QOp.cleanup) :
    ∀ st : QState, QInv st → EvInv st → EvInv (runQFrom st ops) := by
  induction ops with
  | nil => exact fun st _ h => h
  | cons op ops ih =>
    intro st hq h
    exact ih (fun o ho => hops o (List.mem_cons_of_mem op ho)) (qstep st op)
      (qinv_qstep st op hq)
      (evinv_qstep st op (hops op (List.mem_cons_self op ops)) hq h)

/-- Once every queue entry carrying the sequence number `s0` has had its
cleanup hook cleared, no continuation — `Step`s, more cancels, further
`Add`s or the end-of-iteration `Cleanup` — ever emits a cleanup event for
`s0` again. -/
theorem no_future_cleanup (s0 : Nat) (ops : List QOp) :
    ∀ st : QState, QInv st →
    (∀ z ∈ st.queue, z.seq = s0 → z.hasCleanUp = false) → s0 < st.nextSeq →
    QEvent.cleanup s0 ∉ futureEvents st ops := by
  induction ops with
  | nil =>
    intro st _ _ _
    rw [futureEvents_nil]
    exact List.not_mem_nil _
  | cons op ops ih =>
    intro st hinv hshield hs0 hmem
    obtain ⟨hw, ht, hsent, h1, hbound, hnd, hsort⟩ := hinv
    have hinv0 : QInv st := ⟨hw, ht, hsent, h1, hbound, hnd, hsort⟩
    have hinv' := qinv_qstep st op hinv0
    rw [futureEvents_cons] at hmem
    rcases List.mem_append.mp hmem with hD | hF
    · cases op with
      | add t p hc =>
        rw [show (qstep st (QOp.add t p hc)).events = st.events from rfl,
          List.drop_length] at hD
        exact List.not_mem_nil _ hD
      | cancel i =>
        obtain ⟨f, hfq, hfprops, hev⟩ := cancelPending_spec st i hnd
        rcases hev with ⟨hevE, -⟩ | ⟨z, hzmem, hzu, -, -, -, hevE⟩
        · rw [show (qstep st (QOp.cancel i)).events = (cancelPending st i).events from rfl,
            hevE, List.drop_length] at hD
          exact List.not_mem_nil _ hD
        · rw [show (qstep st (QOp.cancel i)).events = (cancelPending st i).events from rfl,
            hevE, List.drop_left, List.mem_singleton, QEvent.cleanup.injEq] at hD
          have := hshield z hzmem hD.symm
          rw [hzu] at this
          exact Bool.noConfusion this
      | step =>
        rcases stepOnce_cases st hw ht hsent with
          ⟨-, hev, -, -, -⟩ | ⟨pa, -, -, -, -, -, -, hevd⟩
        · rw [show (qstep st QOp.step).events = (stepOnce st).1.events from rfl, hev,
            List.drop_length] at hD
          exact List.not_mem_nil _ hD
        · rcases hevd with hev | ⟨-, hev⟩
          · rw [show (qstep st QOp.step).events = (stepOnce st).1.events from rfl, hev,
              List.drop_length] at hD
            exact List.not_mem_nil _ hD
          · rw [show (qstep st QOp.step).events = (stepOnce st).1.events from rfl, hev,
              List.drop_left, List.mem_singleton] at hD
            exact QEvent.noConfusion hD
      | cleanup =>
        rw [show (qstep st QOp.cleanup).events = st.events ++ st.queue.filterMap
            (fun pa => if pa.hasCleanUp then some (QEvent.cleanup pa.seq) else none)
            from rfl, List.drop_left] at hD
        obtain ⟨z, hzq, hze⟩ := List.mem_filterMap.mp hD
        by_cases hzu : z.hasCleanUp = true
        · rw [if_pos hzu, Option.some.injEq, QEvent.cleanup.injEq] at hze
          have := hshield z hzq hze
          rw [hzu] at this
          exact Bool.noConfusion this
        · rw [if_neg hzu] at hze
          exact Option.noConfusion hze
    · refine ih (qstep st op) hinv' ?_ ?_ hF
      · cases op with
        | add t p hc =>
          intro z hz hzs
          rcases addPendingAction_mem hz with he | hzm
          · exfalso
            have : z.seq = st.nextSeq := by rw [he]
            omega
          · exact hshield z hzm hzs
        | cancel i =>
          obtain ⟨f, hfq, hfprops, -⟩ := cancelPending_spec st i hnd
          intro z' hz' hz's
          rw [show (qstep st (QOp.cancel i)).queue = (cancelPending st i).queue from rfl,
            hfq] at hz'
          obtain ⟨q, hqm, hqe⟩ := List.mem_map.mp hz'
          obtain ⟨hfseq, -, hfclean⟩ := hfprops q hqm
          by_cases hfu : (f q).hasCleanUp = true
          · exfalso
            have hfix := hfclean hfu
            have hqs : q.seq = s0 := by
              rw [← hz's, ← hqe, hfseq]
            have := hshield q hqm hqs
            rw [hfix] at hfu
            rw [this] at hfu
            exact Bool.noConfusion hfu
          · rw [← hqe]
            simpa using hfu
        | step =>
          rcases stepOnce_cases st hw ht hsent with
            ⟨hqe, -, -, -, -⟩ | ⟨pa, -, -, hqe, -, -, -, -⟩
          · intro z hz hzs
            rw [show (qstep st QOp.step).queue = (stepOnce st).1.queue from rfl,
              hqe] at hz
            exact hshield z hz hzs
          · intro z hz hzs
            rw [show (qstep st QOp.step).queue = (stepOnce st).1.queue from rfl,
              hqe] at hz
            exact hshield z ((List.dropLast_sublist st.queue).subset hz) hzs
        | cleanup =>
          intro z hz hzs
          exact hshield z hz hzs
      · cases op with
        | add t p hc =>
          show s0 < st.nextSeq + 1
          omega
        | cancel i =>
          obtain ⟨hns, -, -⟩ := cancelPending_projs st i
          rw [show (qstep st (QOp.cancel i)).nextSeq = (cancelPending st i).nextSeq
            from rfl, hns]
          exact hs0
        | step =>
          rcases stepOnce_cases st hw ht hsent with
            ⟨-, -, hns, -, -⟩ | ⟨pa, -, -, -, hns, -, -, -⟩
          · rw [show (qstep st QOp.step).nextSeq = (stepOnce st).1.nextSeq from rfl, hns]
            exact hs0
          · rw [show (qstep st QOp.step).nextSeq = (stepOnce st).1.nextSeq from rfl, hns]
            exact hs0
        | cleanup => exact hs0

/-- C2: a pending action cancelled before it fires never has its
`OnAction` callback invoked and has its cleanup invoked exactly once, no
matter how the iteration continues — further steps (which may silently
pop the cancelled entry), more scheduling, and the end-of-iteration
`Cleanup` included.  The run up to the cancel is any mid-iteration
history (no `Cleanup` yet, matching the source's once-per-iteration
`Cleanup`). -/
theorem c2_cancel_cleanup_once (dur : Int) (ops1 ops2 : List QOp)
    (hops1 : ∀ op ∈ ops1, op ≠ QOp.cleanup)
    (pa : PendingAction) (hpa : pa ∈ (runQ dur ops1).queue)
    (hcanc : pa.cancelled = false) (hclean : pa.hasCleanUp = true) :
    QEvent.fired pa.seq ∉
      (runQFrom (runQ dur ops1) (QOp.cancel pa.seq :: ops2)).events ∧
    ((runQFrom (runQ dur ops1) (QOp.cancel pa.seq :: ops2)).events).count
      (QEvent.cleanup pa.seq) = 1 := by
  obtain ⟨hw, ht, hsent, h1, hbound, hnd, hsort⟩ := qinv_runQ dur ops1
  have hinv1 : QInv (runQ dur ops1) := ⟨hw, ht, hsent, h1, hbound, hnd, hsort⟩
  have hev1 : EvInv (runQ dur ops1) :=
    evinv_runQFrom ops1 hops1 (initQState dur) (qinv_init dur) (evinv_init dur)
  obtain ⟨hhitE, hhitQ⟩ := cancelPending_hit hnd hpa hcanc hclean
  have hinv2 : QInv (qstep (runQ dur ops1) (QOp.cancel pa.seq)) :=
    qinv_qstep _ _ hinv1
  have hrun : runQFrom (runQ dur ops1) (QOp.cancel pa.seq :: ops2) =
      runQFrom (qstep (runQ dur ops1) (QOp.cancel pa.seq)) ops2 := rfl
  obtain ⟨d2, hd2⟩ := runQFrom_events_prefix ops2 (qstep (runQ dur ops1) (QOp.cancel pa.seq))
  have hevc : (qstep (runQ dur ops1) (QOp.cancel pa.seq)).events =
      (runQ dur ops1).events ++ [QEvent.cleanup pa.seq] := hhitE
  have hd2f : d2 = futureEvents (qstep (runQ dur ops1) (QOp.cancel pa.seq)) ops2 := by
    unfold futureEvents
    rw [hd2, List.drop_left]
  have hshield : ∀ z ∈ (qstep (runQ dur ops1) (QOp.cancel pa.seq)).queue,
      z.seq = pa.seq → z.hasCleanUp = false := fun z hz hzs => (hhitQ z hz hzs).1
  obtain ⟨hns2, -, -⟩ := cancelPending_projs (runQ dur ops1) pa.seq
  have hs0 : pa.seq < (qstep (runQ dur ops1) (QOp.cancel pa.seq)).nextSeq := by
    rw [show (qstep (runQ dur ops1) (QOp.cancel pa.seq)).nextSeq =
      (cancelPending (runQ dur ops1) pa.seq).nextSeq from rfl, hns2]
    exact hbound pa hpa
  have hnc : QEvent.cleanup pa.seq ∉ d2 := by
    rw [hd2f]
    exact no_future_cleanup pa.seq ops2 _ hinv2 hshield hs0
  have hnf : QEvent.fired pa.seq ∉ d2 := by
    intro hmem
    have hmemF : pa.seq ∈ firedSeqs
        (futureEvents (qstep (runQ dur ops1) (QOp.cancel pa.seq)) ops2) := by
      rw [← hd2f]
      exact fired_mem_firedSeqs hmem
    rcases fired_future_source ops2 _ hinv2 pa.seq hmemF with
      ⟨z, hz, hzseq, hzc, -⟩ | hge
    · have := (hhitQ z hz hzseq).2
      rw [hzc] at this
      exact Bool.noConfusion this
    · rw [show (qstep (runQ dur ops1) (QOp.cancel pa.seq)).nextSeq =
        (cancelPending (runQ dur ops1) pa.seq).nextSeq from rfl, hns2] at hge
      have := hbound pa hpa
      omega
  constructor
  · rw [hrun, hd2, hevc]
    intro hmem
    rcases List.mem_append.mp hmem with h2 | h2
    · rcases List.mem_append.mp h2 with h3 | h3
      · exact hev1.2.1 pa hpa h3
      · rw [List.mem_singleton] at h3
        exact QEvent.noConfusion h3
    · exact hnf h2
  · rw [hrun, hd2, hevc]
    rw [List.count_append, List.count_append]
    have hc0 : (runQ dur ops1).events.count (QEvent.cleanup pa.seq) = 0 :=
      List.count_eq_zero.mpr (hev1.2.2 pa hpa hcanc)
    have hc1 : ([QEvent.cleanup pa.seq]).count (QEvent.cleanup pa.seq) = 1 := by simp
    have hc2 : d2.count (QEvent.cleanup pa.seq) = 0 := List.count_eq_zero.mpr hnc
    rw [hc0, hc1, hc2]

/-- Concrete run of C2: one scheduled action with a cleanup hook is
cancelled, a `Step` silently discards it, and the end-of-iteration
`Cleanup` runs — its callback never fires and exactly one cleanup event
is recorded. -/
theorem c2_cancel_cleanup_once_witness :
    QEvent.fired 1 ∉
      (runQFrom (runQ 100 [QOp.add 7 0 true])
        (QOp.cancel 1 :: [QOp.step, QOp.cleanup])).events ∧
    ((runQFrom (runQ 100 [QOp.add 7 0 true])
        (QOp.cancel 1 :: [QOp.step, QOp.cleanup])).events).count
      (QEvent.cleanup 1) = 1 :=
  c2_cancel_cleanup_once 100 [QOp.add 7 0 true] [QOp.step, QOp.cleanup]
    (by
      intro op hop
      rw [List.mem_singleton] at hop
      rw [hop]
      intro he
      exact QOp.noConfusion he)
    { nextActionAt := 7
      priority := 0
      seq := 1
      cancelled := false
      hasCleanUp := true }
    (by decide) rfl rfl

theorem lookup_setLabel_self (m : List (String × SimRand)) (l : String) (r : SimRand) :
    lookupLabel (setLabel m l r) l = some r := by
  induction m with
  | nil =>
    show lookupLabel [(l, r)] l = some r
    unfold lookupLabel
    rw [if_pos rfl]
  | cons p rest ih =>
    obtain ⟨l0, r0⟩ := p
    unfold setLabel
    by_cases h : l0 = l
    · rw [if_pos h]
      unfold lookupLabel
      rw [if_pos h]
    · rw [if_neg h]
      unfold lookupLabel
      rw [if_neg h]
      exact ih

theorem lookup_setLabel_other (m : List (String × SimRand)) (l l' : String)
    (r : SimRand) (h : l' ≠ l) :
    lookupLabel (setLabel m l r) l' = lookupLabel m l' := by
  induction m with
  | nil =>
    show lookupLabel [(l, r)] l' = none
    unfold lookupLabel
    rw [if_neg (fun he => h he.symm)]
    rfl
  | cons p rest ih =>
    obtain ⟨l0, r0⟩ := p
    unfold setLabel
    by_cases h0 : l0 = l
    · rw [if_pos h0]
      unfold lookupLabel
      rw [if_neg (by rw [h0]; exact fun he => h he.symm),
        if_neg (by rw [h0]; exact fun he => h he.symm)]
    · rw [if_neg h0]
      unfold lookupLabel
      by_cases h1 : l0 = l'
      · rw [if_pos h1, if_pos h1]
      · rw [if_neg h1, if_neg h1]
        exact ih

theorem lookup_map_keys (m : List (String × SimRand)) (rs : Int)
    (l : String) :
    lookupLabel (m.map (fun p => (p.1, SimRand.seedWith (makeTestRandSeed rs p.1)))) l =
      match lookupLabel m l with
      | some _ => some (SimRand.seedWith (makeTestRandSeed rs l))
      | none => none := by
  induction m with
  | nil => rfl
  | cons p rest ih =>
    obtain ⟨l0, r0⟩ := p
    rw [List.map_cons]
    unfold lookupLabel
    by_cases h : l0 = l
    · rw [if_pos h, if_pos h, h]
    · rw [if_neg h, if_neg h]
      exact ih

theorem randomFloat_test (st : RandState) (l : String) (ht : st.isTest = true) :
    (randomFloat st l).1 = (effStream st l).nextFloat.1 ∧
    (randomFloat st l).2 = { st with
      testRands := setLabel st.testRands l (effStream st l).nextFloat.2 } := by
  unfold randomFloat effStream
  rw [if_pos ht, if_pos ht]
  exact ⟨rfl, rfl⟩

theorem randomFloat_root (st : RandState) (l : String) (ht : st.isTest = false) :
    (randomFloat st l).1 = st.rand.nextFloat.1 ∧
    (randomFloat st l).2 = { st with rand := st.rand.nextFloat.2 } := by
  unfold randomFloat
  rw [if_neg (by simp [ht])]
  exact ⟨rfl, rfl⟩

theorem effStream_setLabel_self (st : RandState) (l : String) (r : SimRand)
    (ht : st.isTest = true) :
    effStream { st with testRands := setLabel st.testRands l r } l = r := by
  unfold effStream
  rw [if_pos ht, lookup_setLabel_self]

theorem effStream_setLabel_other (st : RandState) (l l' : String) (r : SimRand)
    (h : l' ≠ l) :
    effStream { st with testRands := setLabel st.testRands l r } l' =
      effStream st l' := by
  unfold effStream
  by_cases ht : st.isTest = true
  · rw [if_pos ht, if_pos ht, lookup_setLabel_other st.testRands l l' r h]
  · rw [if_neg ht, if_neg ht]

theorem drawOne_test (st : RandState) (op : DrawOp) (ht : st.isTest = true) :
    (drawOne st op).1 = (drawOnStream (effStream st op.label) op).1 ∧
    (drawOne st op).2.isTest = true ∧
    (effStream (drawOne st op).2 op.label =
      (drawOnStream (effStream st op.label) op).2) ∧
    (∀ l, l ≠ op.label → effStream (drawOne st op).2 l = effStream st l) := by
  cases op with
  | rfloat l =>
    obtain ⟨h1, h2⟩ := randomFloat_test st l ht
    refine ⟨by show DrawOut.val (randomFloat st l).1 = _; rw [h1]; rfl, ?_, ?_, ?_⟩
    · show (randomFloat st l).2.isTest = true
      rw [h2]
      exact ht
    · show effStream (randomFloat st l).2 l = _
      rw [h2]
      exact effStream_setLabel_self st l _ ht
    · intro m hm
      show effStream (randomFloat st l).2 m = effStream st m
      rw [h2]
      exact effStream_setLabel_other st l m _ hm
  | roll lo hi l =>
    obtain ⟨h1, h2⟩ := randomFloat_test st l ht
    refine ⟨by show DrawOut.val (rollWithLabel st lo hi l).1 = _
               show DrawOut.val (lo + (hi - lo) * (randomFloat st l).1) = _
               rw [h1]; rfl, ?_, ?_, ?_⟩
    · show (randomFloat st l).2.isTest = true
      rw [h2]
      exact ht
    · show effStream (randomFloat st l).2 l = _
      rw [h2]
      exact effStream_setLabel_self st l _ ht
    · intro m hm
      show effStream (randomFloat st l).2 m = effStream st m
      rw [h2]
      exact effStream_setLabel_other st l m _ hm
  | proc p l =>
    obtain ⟨h1, h2⟩ := randomFloat_test st l ht
    simp only [drawOne, drawOnStream, DrawOp.label]
    unfold procP
    by_cases hp1 : p ≥ 1
    · rw [if_pos hp1, if_pos hp1]
      exact ⟨rfl, ht, rfl, fun m _ => rfl⟩
    · rw [if_neg hp1, if_neg hp1]
      by_cases hp0 : p ≤ 0
      · rw [if_pos hp0, if_pos hp0]
        exact ⟨rfl, ht, rfl, fun m _ => rfl⟩
      · rw [if_neg hp0, if_neg hp0]
        refine ⟨?_, ?_, ?_, ?_⟩
        · show DrawOut.flag (decide ((randomFloat st l).1 < p)) = _
          rw [h1]
        · show (randomFloat st l).2.isTest = true
          rw [h2]
          exact ht
        · show effStream (randomFloat st l).2 l = _
          rw [h2]
          exact effStream_setLabel_self st l _ ht
        · intro m hm
          show effStream (randomFloat st l).2 m = effStream st m
          rw [h2]
          exact effStream_setLabel_other st l m _ hm

theorem drawOne_root (st : RandState) (op : DrawOp) (ht : st.isTest = false) :
    (drawOne st op).1 = (drawOnStream st.rand op).1 ∧
    (drawOne st op).2.isTest = false ∧
    (drawOne st op).2.rand = (drawOnStream st.rand op).2 := by
  cases op with
  | rfloat l =>
    obtain ⟨h1, h2⟩ := randomFloat_root st l ht
    exact ⟨by show DrawOut.val (randomFloat st l).1 = _; rw [h1]; rfl,
      by show (randomFloat st l).2.isTest = false; rw [h2]; exact ht,
      by show (randomFloat st l).2.rand = _; rw [h2]; rfl⟩
  | roll lo hi l =>
    obtain ⟨h1, h2⟩ := randomFloat_root st l ht
    refine ⟨?_, ?_, ?_⟩
    · show DrawOut.val (lo + (hi - lo) * (randomFloat st l).1) = _
      rw [h1]
      rfl
    · show (randomFloat st l).2.isTest = false
      rw [h2]
      exact ht
    · show (randomFloat st l).2.rand = _
      rw [h2]
      rfl
  | proc p l =>
    obtain ⟨h1, h2⟩ := randomFloat_root st l ht
    simp only [drawOne, drawOnStream, DrawOp.label]
    unfold procP
    by_cases hp1 : p ≥ 1
    · rw [if_pos hp1, if_pos hp1]
      exact ⟨rfl, ht, rfl⟩
    · rw [if_neg hp1, if_neg hp1]
      by_cases hp0 : p ≤ 0
      · rw [if_pos hp0, if_pos hp0]
        exact ⟨rfl, ht, rfl⟩
      · rw [if_neg hp0, if_neg hp0]
        refine ⟨?_, ?_, ?_⟩
        · show DrawOut.flag (decide ((randomFloat st l).1 < p)) = _
          rw [h1]
        · show (randomFloat st l).2.isTest = false
          rw [h2]
          exact ht
        · show (randomFloat st l).2.rand = _
          rw [h2]

theorem drawSeq_test (ops : List DrawOp) :
    ∀ st : RandState, st.isTest = true →
    (drawSeq st ops).1 = absSeq (effStream st) ops := by
  induction ops with
  | nil => exact fun st _ => rfl
  | cons op ops ih =>
    intro st ht
    obtain ⟨h1, h2, h4, h5⟩ := drawOne_test st op ht
    have hF : effStream (drawOne st op).2 = updateStream (effStream st) op.label
        (drawOnStream (effStream st op.label) op).2 := by
      funext m
      unfold updateStream
      by_cases hm : m = op.label
      · rw [if_pos hm, hm]
        exact h4
      · rw [if_neg hm]
        exact h5 m hm
    show (op.label, (drawOne st op).1) :: (drawSeq (drawOne st op).2 ops).1 = _
    rw [ih _ h2, h1, hF]
    rfl

theorem drawSeq_root (ops : List DrawOp) :
    ∀ st : RandState, st.isTest = false →
    (drawSeq st ops).1 = rootSeq st.rand ops := by
  induction ops with
  | nil => exact fun st _ => rfl
  | cons op ops ih =>
    intro st ht
    obtain ⟨h1, h2, h3⟩ := drawOne_root st op ht
    show (op.label, (drawOne st op).1) :: (drawSeq (drawOne st op).2 ops).1 = _
    rw [ih _ h2, h1, h3]
    rfl

theorem reseedRands_isTest (st : RandState) (i : Int) :
    (reseedRands st i).isTest = st.isTest := by
  unfold reseedRands
  dsimp only
  split <;> rfl

theorem reseedRands_rand (st : RandState) (i : Int) :
    (reseedRands st i).rand = SimRand.seedWith (st.optionsSeed + i) := by
  unfold reseedRands
  dsimp only
  split <;> rfl

theorem effStream_reseed (st : RandState) (i : Int) (l : String)
    (ht : st.isTest = true) :
    effStream (reseedRands st i) l =
      SimRand.seedWith (makeTestRandSeed (st.optionsSeed + i) l) := by
  unfold reseedRands
  dsimp only
  rw [if_pos ht]
  unfold effStream
  dsimp only
  rw [if_pos ht, lookup_map_keys]
  cases lookupLabel st.testRands l with
  | none => rfl
  | some r => rfl

theorem absSeq_filter (l : String) : ∀ (ops : List DrawOp) (F G : String → SimRand),
    F l = G l →
    (absSeq F ops).filter (fun p => p.1 == l) =
      absSeq G (ops.filter (fun op => DrawOp.label op == l)) := by
  intro ops
  induction ops with
  | nil => exact fun F G _ => rfl
  | cons op ops ih =>
    intro F G hFG
    by_cases hl : op.label = l
    · rw [List.filter_cons_of_pos (by simpa using hl)]
      show ((op.label, (drawOnStream (F op.label) op).1) ::
        absSeq (updateStream F op.label (drawOnStream (F op.label) op).2) ops).filter
          (fun p => p.1 == l) = _
      rw [List.filter_cons_of_pos (by simpa using hl)]
      show _ = (op.label, (drawOnStream (G op.label) op).1) ::
        absSeq (updateStream G op.label (drawOnStream (G op.label) op).2)
          (ops.filter (fun op => DrawOp.label op == l))
      rw [hl, hFG]
      congr 1
      exact ih _ _ (by unfold updateStream; rw [if_pos rfl, if_pos rfl])
    · rw [List.filter_cons_of_neg (by simpa using hl)]
      show ((op.label, (drawOnStream (F op.label) op).1) ::
        absSeq (updateStream F op.label (drawOnStream (F op.label) op).2) ops).filter
          (fun p => p.1 == l) = _
      rw [List.filter_cons_of_neg (by simpa using hl)]
      exact ih _ _ (by
        unfold updateStream
        rw [if_neg (fun he => hl he.symm)]
        exact hFG)

/-- C4: reseeding with the same base seed and iteration index makes two
runs produce identical sequences of draw values for a fixed label
sequence, regardless of the states' previous stream contents; and in
labeled (test) mode every label's stream is reseeded to the hash of the
iteration seed with the label, so the draws observed under one label are
exactly what they would be if no other label drew at all. -/
theorem c4_reseed_determinism_independence (st1 st2 : RandState) (i : Int)
    (hseed : st1.optionsSeed = st2.optionsSeed) (htest : st1.isTest = st2.isTest)
    (ops : List DrawOp) :
    (drawSeq (reseedRands st1 i) ops).1 = (drawSeq (reseedRands st2 i) ops).1 ∧
    (st1.isTest = true → ∀ l : String,
      effStream (reseedRands st1 i) l =
        SimRand.seedWith (makeTestRandSeed (st1.optionsSeed + i) l) ∧
      ((drawSeq (reseedRands st1 i) ops).1.filter (fun p => p.1 == l)) =
        (drawSeq (reseedRands st1 i)
          (ops.filter (fun op => DrawOp.label op == l))).1) := by
  constructor
  · by_cases ht : st1.isTest = true
    · have ht2 : st2.isTest = true := by rw [← htest]; exact ht
      have h1 := drawSeq_test ops (reseedRands st1 i)
        (by rw [reseedRands_isTest]; exact ht)
      have h2 := drawSeq_test ops (reseedRands st2 i)
        (by rw [reseedRands_isTest]; exact ht2)
      rw [h1, h2]
      have hF : effStream (reseedRands st1 i) = effStream (reseedRands st2 i) := by
        funext l
        rw [effStream_reseed st1 i l ht, effStream_reseed st2 i l ht2, hseed]
      rw [hF]
    · have ht1 : st1.isTest = false := by simpa using ht
      have ht2 : st2.isTest = false := by rw [← htest]; exact ht1
      have h1 := drawSeq_root ops (reseedRands st1 i)
        (by rw [reseedRands_isTest]; exact ht1)
      have h2 := drawSeq_root ops (reseedRands st2 i)
        (by rw [reseedRands_isTest]; exact ht2)
      rw [h1, h2, reseedRands_rand, reseedRands_rand, hseed]
  · intro ht l
    have htr : (reseedRands st1 i).isTest = true := by
      rw [reseedRands_isTest]
      exact ht
    refine ⟨effStream_reseed st1 i l ht, ?_⟩
    rw [drawSeq_test ops _ htr, drawSeq_test _ _ htr]
    exact absSeq_filter l ops _ _ rfl

/-- Concrete instance of C4: two states sharing base seed 42 in test mode
— one with a stale stored "crit" stream, one with none — produce the same
draw outputs after reseeding with iteration 3, the "crit" stream is
seeded from the label hash, and its draws match a run with the "hit" draw
removed. -/
theorem c4_reseed_determinism_independence_witness :
    (drawSeq (reseedRands exRandA 3) exDrawOps).1 =
      (drawSeq (reseedRands exRandB 3) exDrawOps).1 ∧
    effStream (reseedRands exRandA 3) "crit" =
      SimRand.seedWith (makeTestRandSeed (exRandA.optionsSeed + 3) "crit") ∧
    ((drawSeq (reseedRands exRandA 3) exDrawOps).1.filter
        (fun p => p.1 == "crit")) =
      (drawSeq (reseedRands exRandA 3)
        (exDrawOps.filter (fun op => DrawOp.label op == "crit"))).1 := by
  obtain ⟨h1, h2⟩ :=
    c4_reseed_determinism_independence exRandA exRandB 3 rfl rfl exDrawOps
  obtain ⟨h3, h4⟩ := h2 rfl "crit"
  exact ⟨h1, h3, h4⟩

end Cata
